import Mathlib

/-!
# lab0-c queue: a pointer-level embedding of `queue.c`

The queue of `queue.c` is an intrusive circular doubly-linked list.  The
embedding keeps the pointers: memory is a record of the `next` and `prev`
fields of every address, the payload buffer owned by the element at every
address, and the list of addresses currently allocated.  Every function of
`queue.c` is transcribed statement by statement over that memory; loops take
an explicit bound on the number of iterations and return `none` when the bound
is exhausted.
-/

namespace LabQueue

/-- An address.  Address `0` is the null pointer. -/
abbrev Ptr := Nat

/-- Memory as seen by `queue.c`.  An `element_t` is identified with the
address of its embedded `list` node, so `container_of` is the identity;
`value p` is the byte buffer that `p->value` points to. -/
structure Heap where
  next : Ptr → Ptr
  prev : Ptr → Ptr
  value : Ptr → List Nat
  live : List Ptr

/-- The assignment `p->next = v`. -/
def Heap.setNext (h : Heap) (p v : Ptr) : Heap :=
  { h with next := fun q => if q = p then v else h.next q }

/-- The assignment `p->prev = v`. -/
def Heap.setPrev (h : Heap) (p v : Ptr) : Heap :=
  { h with prev := fun q => if q = p then v else h.prev q }

/-- Filling the payload buffer of the element at `p`. -/
def Heap.setValue (h : Heap) (p : Ptr) (bs : List Nat) : Heap :=
  { h with value := fun q => if q = p then bs else h.value q }

/-- A successful `malloc` that returned address `p`. -/
def Heap.alloc (h : Heap) (p : Ptr) : Heap :=
  { h with live := p :: h.live }

/-- The call `free(p)`. -/
def Heap.free (h : Heap) (p : Ptr) : Heap :=
  { h with live := h.live.erase p }

/-- A memory in which nothing is allocated. -/
def Heap.empty : Heap :=
  { next := fun _ => 0, prev := fun _ => 0, value := fun _ => [], live := [] }

/-! ## C library -/

/-- C `strlen`: the number of bytes before the first zero byte.  The end of
the modelled buffer counts as a terminator. -/
def strlen : List Nat → Nat
  | [] => 0
  | b :: bs => if b = 0 then 0 else strlen bs + 1

/-- The C string held in a buffer: the bytes before the first zero byte. -/
def cstr (s : List Nat) : List Nat := s.take (strlen s)

/-- C `strcmp`: the difference of the first pair of bytes that differ, `0`
when the strings agree up to and including the terminator. -/
def strcmp : List Nat → List Nat → Int
  | [], [] => 0
  | [], y :: _ => 0 - (y : Int)
  | x :: _, [] => (x : Int)
  | x :: xs, y :: ys =>
    if x = y then (if x = 0 then 0 else strcmp xs ys) else (x : Int) - (y : Int)

/-- C `memcpy(dst, src, n)` on buffers: the first `n` bytes of `dst` are
replaced by the first `n` bytes of `src`. -/
def memcpy (dst src : List Nat) (n : Nat) : List Nat :=
  src.take n ++ dst.drop n

/-- The store `buf[i] = b`. -/
def storeByte (buf : List Nat) (i b : Nat) : List Nat :=
  buf.take i ++ b :: buf.drop (i + 1)

/-- Subtraction of `size_t` values (64 bits, wrapping). -/
def size_sub (a b : Nat) : Nat := (a + 2 ^ 64 - b % 2 ^ 64) % 2 ^ 64

/-- Increment of an `int` (32 bits, two's complement wrap-around, as on the
usual targets). -/
def int_incr (n : Int) : Int := (n + 1 + 2 ^ 31) % 2 ^ 32 - 2 ^ 31

/-! ## list.h -/

/-- Modelled from the spec: `list.h` is included by `queue.c` but is not among
the sources.  `init(node)` sets `next = prev = node`. -/
def INIT_LIST_HEAD (h : Heap) (head : Ptr) : Heap :=
  (h.setNext head head).setPrev head head

/-- Modelled from the spec: `insert_between(new, left, right)` of `list.h`,
which splices `new` so that `left.next == new` and `new.next == right`, with
the symmetric `prev` links. -/
def list_insert_between (h : Heap) (node left right : Ptr) : Heap :=
  (((h.setPrev right node).setNext node right).setPrev node left).setNext left node

/-- Modelled from the spec: `list_add` of `list.h`, insertion immediately
after `head`. -/
def list_add (h : Heap) (node head : Ptr) : Heap :=
  list_insert_between h node head (h.next head)

/-- Modelled from the spec: `list_add_tail` of `list.h`, insertion immediately
before `head`. -/
def list_add_tail (h : Heap) (node head : Ptr) : Heap :=
  list_insert_between h node (h.prev head) head

/-- Modelled from the spec: `list_del` of `list.h`, which re-links
`node.prev.next = node.next` and `node.next.prev = node.prev` and leaves the
fields of `node` alone. -/
def list_del (h : Heap) (node : Ptr) : Heap :=
  let next := h.next node
  let prev := h.prev node
  (h.setPrev next prev).setNext prev next

/-- Modelled from the spec: `list_empty` of `list.h`, true iff
`sentinel.next == sentinel`. -/
def list_empty (h : Heap) (head : Ptr) : Bool :=
  h.next head == head

/-! ## queue.c -/

/-- `q_new`.  `m` is what `malloc` returns: `0` when it fails. -/
def q_new (h : Heap) (m : Ptr) : Heap × Ptr :=
  if m = 0 then (h, 0)
  else (INIT_LIST_HEAD (h.alloc m) m, m)

/-- `q_release_element`: `free(e->value); free(e);`.  The payload buffer has
no address of its own in the model, so the two calls are one release. -/
def q_release_element (h : Heap) (e : Ptr) : Heap :=
  h.free e

/-- The loop of `q_free`, `list_for_each_entry_safe (entry, safe, l, list)`. -/
def q_free_loop : Nat → Heap → Ptr → Ptr → Ptr → Option Heap
  | 0, _, _, _, _ => none
  | fuel + 1, h, l, entry, safe =>
    if entry = l then some h
    else
      let h1 := q_release_element h entry
      q_free_loop fuel h1 l safe (h1.next safe)

/-- `q_free`. -/
def q_free (fuel : Nat) (h : Heap) (l : Ptr) : Option Heap :=
  if l = 0 then some h
  else
    match q_free_loop fuel h l (h.next l) (h.next (h.next l)) with
    | none => none
    | some h1 => some (h1.free l)

/-- `q_insert_head`.  `e` is what `malloc(sizeof(element_t))` returns (`0`
when it fails) and `v` tells whether `malloc(len)` succeeds. -/
def q_insert_head (h : Heap) (head : Ptr) (s : List Nat) (e : Ptr) (v : Bool) :
    Heap × Bool :=
  if head = 0 then (h, false)
  else if e = 0 then (h, false)
  else
    let h1 := h.alloc e
    let len := strlen s + 1
    if v = false then (h1.free e, false)
    else
      let h2 := h1.setValue e (memcpy [] s len)
      (list_add h2 e head, true)

/-- `q_insert_tail`, with the same two allocation results. -/
def q_insert_tail (h : Heap) (head : Ptr) (s : List Nat) (e : Ptr) (v : Bool) :
    Heap × Bool :=
  if head = 0 then (h, false)
  else if e = 0 then (h, false)
  else
    let h1 := h.alloc e
    let len := strlen s + 1
    if v = false then (h1.free e, false)
    else
      let h2 := h1.setValue e (memcpy [] s len)
      (list_add_tail h2 e head, true)

/-- The result of a remove: the memory, the caller's buffer and the returned
element (`0` for `NULL`). -/
structure Removed where
  heap : Heap
  buf : Option (List Nat)
  entry : Ptr

/-- `q_remove_head`.  `sp` is `none` for a null buffer pointer, otherwise the
bytes the caller's buffer holds. -/
def q_remove_head (h : Heap) (head : Ptr) (sp : Option (List Nat)) (bufsize : Nat) :
    Removed :=
  if head = 0 ∨ list_empty h head = true then ⟨h, sp, 0⟩
  else
    match sp with
    | some buf =>
      let entry := h.next head
      let len := strlen (h.value entry)
      let len := if size_sub bufsize 1 > len then len else size_sub bufsize 1
      let buf1 := memcpy buf (h.value entry) len
      let buf2 := storeByte buf1 len 0
      ⟨list_del h entry, some buf2, entry⟩
    | none => ⟨h, sp, 0⟩

/-- `q_remove_tail`. -/
def q_remove_tail (h : Heap) (head : Ptr) (sp : Option (List Nat)) (bufsize : Nat) :
    Removed :=
  if head = 0 ∨ list_empty h head = true then ⟨h, sp, 0⟩
  else
    match sp with
    | some buf =>
      let entry := h.prev head
      let len := strlen (h.value entry)
      let len := if size_sub bufsize 1 > len then len else size_sub bufsize 1
      let buf1 := memcpy buf (h.value entry) len
      let buf2 := storeByte buf1 len 0
      ⟨list_del h entry, some buf2, entry⟩
    | none => ⟨h, sp, 0⟩

/-- The loop of `q_size`, `list_for_each (li, head) len++`. -/
def q_size_loop : Nat → Heap → Ptr → Ptr → Int → Option Int
  | 0, _, _, _, _ => none
  | fuel + 1, h, head, li, len =>
    if li = head then some len
    else q_size_loop fuel h head (h.next li) (int_incr len)

/-- `q_size`. -/
def q_size (fuel : Nat) (h : Heap) (head : Ptr) : Option Int :=
  if head = 0 then some 0
  else q_size_loop fuel h head (h.next head) 0

/-- The loop of `q_delete_mid`: `list_for_each (slow, head)` with the break on
`fast`.  Returns `slow` when the loop is left. -/
def q_delete_mid_loop : Nat → Heap → Ptr → Ptr → Ptr → Option Ptr
  | 0, _, _, _, _ => none
  | fuel + 1, h, head, slow, fast =>
    if slow = head then some slow
    else if fast = head ∨ h.next fast = head then some slow
    else q_delete_mid_loop fuel h head (h.next slow) (h.next (h.next fast))

/-- `q_delete_mid`. -/
def q_delete_mid (fuel : Nat) (h : Heap) (head : Ptr) : Option (Heap × Bool) :=
  if head = 0 ∨ list_empty h head = true then some (h, false)
  else
    match q_delete_mid_loop fuel h head (h.next head) (h.next head) with
    | none => none
    | some slow =>
      let h1 := list_del h slow
      some (q_release_element h1 slow, true)

/-- The bytes `prev_value` of `q_delete_dup` points to: the literal `""`
before the first retained element (`none`), afterwards the payload buffer of
the retained element. -/
def prev_bytes (h : Heap) : Option Ptr → List Nat
  | none => [0]
  | some p => h.value p

/-- The loop of `q_delete_dup`,
`list_for_each_entry_safe (node, safe, head, list)`. -/
def q_delete_dup_loop : Nat → Heap → Ptr → Ptr → Ptr → Option Ptr → Option Heap
  | 0, _, _, _, _, _ => none
  | fuel + 1, h, head, node, safe, prev_value =>
    if node = head then some h
    else if strcmp (prev_bytes h prev_value) (h.value node) = 0 then
      let h1 := list_del h node
      let h2 := q_release_element h1 node
      q_delete_dup_loop fuel h2 head safe (h2.next safe) prev_value
    else
      q_delete_dup_loop fuel h head safe (h.next safe) (some node)

/-- `q_delete_dup`. -/
def q_delete_dup (fuel : Nat) (h : Heap) (head : Ptr) : Option (Heap × Bool) :=
  if head = 0 then some (h, false)
  else
    match q_delete_dup_loop fuel h head (h.next head) (h.next (h.next head)) none with
    | none => none
    | some h1 => some (h1, true)

/-- The loop of `q_swap`. -/
def q_swap_loop : Nat → Heap → Ptr → Ptr → Option Heap
  | 0, _, _, _ => none
  | fuel + 1, h, head, node =>
    if h.next node ≠ head ∧ h.next (h.next node) ≠ head then
      let tmp := h.next (h.next node)
      let h1 := list_del h tmp
      let h2 := list_add h1 tmp node
      q_swap_loop fuel h2 head (h2.next (h2.next node))
    else some h

/-- `q_swap`. -/
def q_swap (fuel : Nat) (h : Heap) (head : Ptr) : Option Heap :=
  if head = 0 ∨ list_empty h head = true then some h
  else q_swap_loop fuel h head head

/-- The loop of `q_reverse`. -/
def q_reverse_loop : Nat → Heap → Ptr → Ptr → Option Heap
  | 0, _, _, _ => none
  | fuel + 1, h, head, curr =>
    if curr ≠ head then
      let temp := h.next curr
      let h1 := h.setNext curr (h.prev curr)
      let h2 := h1.setPrev curr temp
      q_reverse_loop fuel h2 head temp
    else some h

/-- `q_reverse`. -/
def q_reverse (fuel : Nat) (h : Heap) (head : Ptr) : Option Heap :=
  if head = 0 ∨ list_empty h head = true then some h
  else
    match q_reverse_loop fuel h head (h.next head) with
    | none => none
    | some h1 =>
      let temp := h1.next head
      let h2 := h1.setNext head (h1.prev head)
      some (h2.setPrev head temp)

/-- The state of the loop of `merge`.  `indirect` is `none` while it points to
the local variable `head` and `some p` when it points to the field `p->next`. -/
structure MergeState where
  heap : Heap
  head : Ptr
  indirect : Option Ptr
  l1 : Ptr
  l2 : Ptr

/-- The store `*indirect = v`. -/
def MergeState.store (s : MergeState) (v : Ptr) : MergeState :=
  match s.indirect with
  | none => { s with head := v }
  | some p => { s with heap := s.heap.setNext p v }

/-- The load `*indirect`. -/
def MergeState.load (s : MergeState) : Ptr :=
  match s.indirect with
  | none => s.head
  | some p => s.heap.next p

/-- The `while (l1 && l2)` loop of `merge`. -/
def merge_loop : Nat → MergeState → Option MergeState
  | 0, _ => none
  | fuel + 1, s =>
    if s.l1 ≠ 0 ∧ s.l2 ≠ 0 then
      let s1 :=
        if strcmp (s.heap.value s.l1) (s.heap.value s.l2) > 0 then
          let s2 := s.store s.l2
          { s2 with l2 := s2.heap.next s2.l2 }
        else
          let s2 := s.store s.l1
          { s2 with l1 := s2.heap.next s2.l1 }
      merge_loop fuel { s1 with indirect := some s1.load }
    else some s

/-- `merge`. -/
def merge (fuel : Nat) (h : Heap) (l1 l2 : Ptr) : Option (Heap × Ptr) :=
  match merge_loop fuel ⟨h, 0, none, l1, l2⟩ with
  | none => none
  | some s =>
    let s1 := if s.l1 ≠ 0 then s.store s.l1 else s
    let s2 := if s1.l2 ≠ 0 then s1.store s1.l2 else s1
    some (s2.heap, s2.head)

/-- The `while (fast && fast->next)` loop of `merge_sort_list`.  Returns
`slow`. -/
def split_loop : Nat → Heap → Ptr → Ptr → Option Ptr
  | 0, _, _, _ => none
  | fuel + 1, h, slow, fast =>
    if fast ≠ 0 ∧ h.next fast ≠ 0 then
      split_loop fuel h (h.next slow) (h.next (h.next fast))
    else some slow

/-- `merge_sort_list`.  The bound limits the depth of the recursion and the
iterations of each loop. -/
def merge_sort_list : Nat → Heap → Ptr → Option (Heap × Ptr)
  | 0, _, _ => none
  | fuel + 1, h, head =>
    if head = 0 ∨ h.next head = 0 then some (h, head)
    else
      match split_loop fuel h head (h.next head) with
      | none => none
      | some slow =>
        let fast := h.next slow
        let h1 := h.setNext slow 0
        match merge_sort_list fuel h1 head with
        | none => none
        | some (h2, l1) =>
          match merge_sort_list fuel h2 fast with
          | none => none
          | some (h3, l2) => merge fuel h3 l1 l2

/-- The loop of `q_sort` that restores the `prev` links.  Returns the memory
and the last node. -/
def q_sort_loop : Nat → Heap → Ptr → Ptr → Option (Heap × Ptr)
  | 0, _, _, _ => none
  | fuel + 1, h, prev, tmp =>
    if tmp ≠ 0 then
      let h1 := h.setPrev tmp prev
      q_sort_loop fuel h1 (h1.next prev) (h1.next tmp)
    else some (h, prev)

/-- `q_sort`. -/
def q_sort (fuel : Nat) (h : Heap) (head : Ptr) : Option Heap :=
  if head = 0 ∨ list_empty h head = true then some h
  else
    let h1 := h.setNext (h.prev head) 0
    match merge_sort_list fuel h1 (h1.next head) with
    | none => none
    | some (h2, r) =>
      let h3 := h2.setNext head r
      match q_sort_loop fuel h3 head (h3.next head) with
      | none => none
      | some (h4, prev) =>
        let h5 := h4.setNext prev head
        some (h5.setPrev head prev)

/-! ## Well-formed queues -/

/-- The nodes of `l` are doubly linked in the order of `l`: each one's `next`
is its successor in `l` and each one's `prev` is its predecessor. -/
def Linked (h : Heap) : List Ptr → Prop
  | a :: b :: l => (h.next a = b ∧ h.prev b = a) ∧ Linked h (b :: l)
  | _ => True

instance Linked.decidable (h : Heap) : (l : List Ptr) → Decidable (Linked h l)
  | [] => isTrue trivial
  | [_] => isTrue trivial
  | a :: b :: l =>
    @instDecidableAnd (h.next a = b ∧ h.prev b = a) (Linked h (b :: l)) inferInstance
      (Linked.decidable h (b :: l))

/-- The memory holds a well-formed queue with sentinel `head` whose elements,
read forward from the sentinel, are the nodes `xs`. -/
def IsQueue (h : Heap) (head : Ptr) (xs : List Ptr) : Prop :=
  Linked h (head :: xs ++ [head]) ∧ (head :: xs).Nodup ∧ 0 ∉ head :: xs ∧
    ∀ p ∈ head :: xs, p ∈ h.live

instance (h : Heap) (head : Ptr) (xs : List Ptr) : Decidable (IsQueue h head xs) := by
  unfold IsQueue; infer_instance

/-- The nodes of `l` are singly linked in the order of `l`: each one's `next`
is its successor in `l`. -/
def NextPath (h : Heap) : List Ptr → Prop
  | a :: b :: l => h.next a = b ∧ NextPath h (b :: l)
  | _ => True

instance NextPath.decidable (h : Heap) : (l : List Ptr) → Decidable (NextPath h l)
  | [] => isTrue trivial
  | [_] => isTrue trivial
  | a :: b :: l =>
    @instDecidableAnd (h.next a = b) (NextPath h (b :: l)) inferInstance
      (NextPath.decidable h (b :: l))

/-- The payload sequence of the nodes `xs`: the C string each one holds. -/
def payloads (h : Heap) (xs : List Ptr) : List (List Nat) :=
  xs.map (fun p => cstr (h.value p))

/-! ## Functions of the contract and of the proofs -/

/-- What a remove leaves in the caller's buffer according to the contract: the
first `min(length(payload), cap - 1)` bytes of the payload, a terminator, and
the bytes of the buffer after it untouched. -/
def truncated_copy (payload buf : List Nat) (cap : Nat) : List Nat :=
  (cstr payload).take (min (strlen payload) (cap - 1)) ++
    0 :: buf.drop (min (strlen payload) (cap - 1) + 1)

/-- The value of an `int` after counting up from `0` to `n` with wrap-around. -/
def int_wrap (n : Int) : Int := (n + 2 ^ 31) % 2 ^ 32 - 2 ^ 31

/-- The pairwise exchange the contract of `swap_pairs` describes: first with
second, third with fourth, and so on; an odd element at the end stays. -/
def swap_pairs : List Ptr → List Ptr
  | a :: b :: l => b :: a :: swap_pairs l
  | l => l

/-- The nodes the traversal of `q_delete_dup` retains among `l`, when
`prev_value` is `pv` on entry: a node is dropped when its payload compares
equal to the bytes `prev_value` points to, otherwise it is kept and becomes
the new `prev_value`. -/
def dedup_from (h : Heap) : Option Ptr → List Ptr → List Ptr
  | _, [] => []
  | pv, x :: l =>
    if strcmp (prev_bytes h pv) (h.value x) = 0 then dedup_from h pv l
    else x :: dedup_from h (some x) l

/-- The nodes the traversal of `q_delete_dup` deletes among `l`, in the order
they are released. -/
def dups_from (h : Heap) : Option Ptr → List Ptr → List Ptr
  | _, [] => []
  | pv, x :: l =>
    if strcmp (prev_bytes h pv) (h.value x) = 0 then x :: dups_from h pv l
    else dups_from h (some x) l

/-- The order `merge` sorts by: node `a` may stay in front of node `b` unless
`strcmp(a->value, b->value) > 0`. -/
def node_le (h : Heap) (a b : Ptr) : Bool :=
  !decide (strcmp (h.value a) (h.value b) > 0)

/-- The tail of `merge` after its loop: the two conditional stores through
`indirect`. -/
def merge_finish (s : MergeState) : MergeState :=
  let s1 := if s.l1 ≠ 0 then s.store s.l1 else s
  if s1.l2 ≠ 0 then s1.store s1.l2 else s1

/-- The pointer held in the cell `indirect` designates, in memory `h` with the
local variable `head` equal to `hd`. -/
def read_cell (ind : Option Ptr) (h : Heap) (hd : Ptr) : Ptr :=
  match ind with
  | none => hd
  | some c => h.next c

/-! ## Sequences of calls -/

/-- A call of one of the four insert and remove operations.  For an insert,
`ok1` and `ok2` tell whether the two allocations succeed. -/
inductive Op where
  | insert_head (s : List Nat) (ok1 ok2 : Bool)
  | insert_tail (s : List Nat) (ok1 ok2 : Bool)
  | remove_head (sp : Option (List Nat)) (bufsize : Nat)
  | remove_tail (sp : Option (List Nat)) (bufsize : Nat)

/-- The memory after a sequence of calls, with the number of inserts and of
removes that succeeded. -/
structure Trace where
  heap : Heap
  inserted : Nat
  removed : Nat

/-- One call on the queue `head`.  `malloc live` is the address `malloc`
returns when the blocks `live` are allocated. -/
def step (malloc : List Ptr → Ptr) (head : Ptr) (t : Trace) : Op → Trace
  | Op.insert_head s ok1 ok2 =>
    let r := q_insert_head t.heap head s (if ok1 then malloc t.heap.live else 0) ok2
    ⟨r.1, t.inserted + (if r.2 then 1 else 0), t.removed⟩
  | Op.insert_tail s ok1 ok2 =>
    let r := q_insert_tail t.heap head s (if ok1 then malloc t.heap.live else 0) ok2
    ⟨r.1, t.inserted + (if r.2 then 1 else 0), t.removed⟩
  | Op.remove_head sp bufsize =>
    let r := q_remove_head t.heap head sp bufsize
    ⟨r.heap, t.inserted, t.removed + (if r.entry = 0 then 0 else 1)⟩
  | Op.remove_tail sp bufsize =>
    let r := q_remove_tail t.heap head sp bufsize
    ⟨r.heap, t.inserted, t.removed + (if r.entry = 0 then 0 else 1)⟩

/-- A sequence of calls on the queue `head`. -/
def run (malloc : List Ptr → Ptr) (head : Ptr) (t : Trace) (ops : List Op) : Trace :=
  ops.foldl (step malloc head) t

/-- An allocator: the first address above every allocated block. -/
def bump (live : List Ptr) : Ptr := live.foldr max 0 + 1

/-- The trace that starts with the queue `q_new` makes at address `m`. -/
def new_trace (h : Heap) (m : Ptr) : Trace := ⟨(q_new h m).1, 0, 0⟩

/-! ## Example queues -/

/-- The calls `insert_tail("b")`, `insert_tail("a")`, `insert_head("c")`, all
succeeding. -/
def ops_cba : List Op :=
  [Op.insert_tail [98, 0] true true, Op.insert_tail [97, 0] true true,
    Op.insert_head [99, 0] true true]

/-- A memory holding the queue `["c", "b", "a"]` at sentinel `1`, built by the
calls `ops_cba` on a new queue: the nodes are `4`, `2`, `3`. -/
def heap_cba : Heap :=
  (run bump 1 (new_trace Heap.empty 1) ops_cba).heap

/-- A memory holding the queue `["a", "b", "a"]` at sentinel `1`: the nodes are
`2`, `3`, `4`. -/
def heap_aba : Heap :=
  (run bump 1 (new_trace Heap.empty 1)
    [Op.insert_tail [97, 0] true true, Op.insert_tail [98, 0] true true,
      Op.insert_tail [97, 0] true true]).heap

/-- A memory holding the sorted queue `["", "a"]` at sentinel `1`, built by the
insert operations. -/
def heap_empty_a : Heap :=
  (run bump 1 (new_trace Heap.empty 1)
    [Op.insert_tail [0] true true, Op.insert_tail [97, 0] true true]).heap

/-- The value of `len` in `q_remove_head` and `q_remove_tail` after the clamp
`len = (bufsize - 1) > len ? len : (bufsize - 1)`: the number of payload bytes
`memcpy` copies.  The terminator is then stored at offset `len`, so the
function writes the `len + 1` bytes at offsets `0 .. len` of the buffer. -/
def copy_len (payload : List Nat) (bufsize : Nat) : Nat :=
  if size_sub bufsize 1 > strlen payload then strlen payload else size_sub bufsize 1

/-- The nodes of `l` are linked backwards in the order of `l`: each one's
`prev` is its successor in `l`. -/
def PrevPath (h : Heap) : List Ptr → Prop
  | a :: b :: l => h.prev a = b ∧ PrevPath h (b :: l)
  | _ => True

instance PrevPath.decidable (h : Heap) : (l : List Ptr) → Decidable (PrevPath h l)
  | [] => isTrue trivial
  | [_] => isTrue trivial
  | a :: b :: l =>
    @instDecidableAnd (h.prev a = b) (PrevPath h (b :: l)) inferInstance
      (PrevPath.decidable h (b :: l))

/-- Link consistency in the words of the spec, for the cycle of the sentinel
`head` and the elements `ys`: every node `x` of the cycle has
`x.next.prev == x` and `x.prev.next == x`; walking `next` from the sentinel
visits the elements `ys`, each exactly once, and returns to the sentinel; and
walking `prev` from the sentinel visits them in the reverse order. -/
def LinkConsistent (h : Heap) (head : Ptr) (ys : List Ptr) : Prop :=
  (∀ x ∈ head :: ys, h.prev (h.next x) = x ∧ h.next (h.prev x) = x) ∧
    NextPath h (head :: ys ++ [head]) ∧ (head :: ys).Nodup ∧
    PrevPath h (head :: ys.reverse ++ [head])

instance (h : Heap) (head : Ptr) (ys : List Ptr) : Decidable (LinkConsistent h head ys) := by
  unfold LinkConsistent; infer_instance

/-- The cycle of the sentinel `head` is a well-formed queue, consistently
linked. -/
def Consistent (h : Heap) (head : Ptr) : Prop :=
  ∃ ys, IsQueue h head ys ∧ LinkConsistent h head ys

/-- In the words of the contract: the elements left when every leading
element whose payload is the empty string is deleted. -/
def drop_empty (h : Heap) (xs : List Ptr) : List Ptr :=
  xs.dropWhile (fun x => decide (cstr (h.value x) = []))

/-- In the words of the contract: the elements of `l` that stay when exactly
those are deleted whose payload equals the payload of the nearest preceding
retained element; `r` is the retained element that precedes `l`. -/
def retain_after (h : Heap) : Ptr → List Ptr → List Ptr
  | _, [] => []
  | r, y :: l =>
    if cstr (h.value y) = cstr (h.value r) then retain_after h r l
    else y :: retain_after h y l

/-- The result of `delete_duplicates` in the words of the contract. -/
def spec_dedup (h : Heap) (xs : List Ptr) : List Ptr :=
  match drop_empty h xs with
  | [] => []
  | x :: l => x :: retain_after h x l

/-- The elements of `l` that start a run of adjacent equal payloads; `p` is
the element of the input just before `l`. -/
def run_heads (h : Heap) : Ptr → List Ptr → List Ptr
  | _, [] => []
  | p, y :: l =>
    if cstr (h.value y) = cstr (h.value p) then run_heads h y l
    else y :: run_heads h y l

/-- The input with each run of adjacent equal payloads collapsed to its first
element. -/
def collapse_runs (h : Heap) : List Ptr → List Ptr
  | [] => []
  | x :: l => x :: run_heads h x l

/-- In the words of the contract: the elements `delete_duplicates` deletes,
that is unlinks and releases: those of the queue that are not retained. -/
def spec_deleted (h : Heap) (xs : List Ptr) : List Ptr :=
  xs.filter (fun x => decide (x ∉ spec_dedup h xs))

/-- A memory holding the queue `["", "a", "a", "b"]` at sentinel `1`: the nodes
are `2`, `3`, `4`, `5`. -/
def heap_dups : Heap :=
  (run bump 1 (new_trace Heap.empty 1)
    [Op.insert_tail [0] true true, Op.insert_tail [97, 0] true true,
      Op.insert_tail [97, 0] true true, Op.insert_tail [98, 0] true true]).heap

/-! ## Memory updates -/

@[simp] theorem setNext_next (h : Heap) (p v q : Ptr) :
    (h.setNext p v).next q = if q = p then v else h.next q := rfl
@[simp] theorem setNext_prev (h : Heap) (p v : Ptr) : (h.setNext p v).prev = h.prev := rfl
@[simp] theorem setNext_value (h : Heap) (p v : Ptr) : (h.setNext p v).value = h.value := rfl
@[simp] theorem setNext_live (h : Heap) (p v : Ptr) : (h.setNext p v).live = h.live := rfl
@[simp] theorem setPrev_prev (h : Heap) (p v q : Ptr) :
    (h.setPrev p v).prev q = if q = p then v else h.prev q := rfl
@[simp] theorem setPrev_next (h : Heap) (p v : Ptr) : (h.setPrev p v).next = h.next := rfl
@[simp] theorem setPrev_value (h : Heap) (p v : Ptr) : (h.setPrev p v).value = h.value := rfl
@[simp] theorem setPrev_live (h : Heap) (p v : Ptr) : (h.setPrev p v).live = h.live := rfl
@[simp] theorem setValue_value (h : Heap) (p : Ptr) (bs : List Nat) (q : Ptr) :
    (h.setValue p bs).value q = if q = p then bs else h.value q := rfl
@[simp] theorem setValue_next (h : Heap) (p : Ptr) (bs : List Nat) :
    (h.setValue p bs).next = h.next := rfl
@[simp] theorem setValue_prev (h : Heap) (p : Ptr) (bs : List Nat) :
    (h.setValue p bs).prev = h.prev := rfl
@[simp] theorem setValue_live (h : Heap) (p : Ptr) (bs : List Nat) :
    (h.setValue p bs).live = h.live := rfl
@[simp] theorem alloc_next (h : Heap) (p : Ptr) : (h.alloc p).next = h.next := rfl
@[simp] theorem alloc_prev (h : Heap) (p : Ptr) : (h.alloc p).prev = h.prev := rfl
@[simp] theorem alloc_value (h : Heap) (p : Ptr) : (h.alloc p).value = h.value := rfl
@[simp] theorem alloc_live (h : Heap) (p : Ptr) : (h.alloc p).live = p :: h.live := rfl
@[simp] theorem free_next (h : Heap) (p : Ptr) : (h.free p).next = h.next := rfl
@[simp] theorem free_prev (h : Heap) (p : Ptr) : (h.free p).prev = h.prev := rfl
@[simp] theorem free_value (h : Heap) (p : Ptr) : (h.free p).value = h.value := rfl
@[simp] theorem free_live (h : Heap) (p : Ptr) : (h.free p).live = h.live.erase p := rfl

/-! ## Linked chains -/

theorem linked_iff_chain (h : Heap) (l : List Ptr) :
    Linked h l ↔ List.Chain' (fun a b => h.next a = b ∧ h.prev b = a) l := by
  induction l with
  | nil => simp [Linked]
  | cons a l ih =>
    cases l with
    | nil => simp [Linked]
    | cons b l => rw [List.chain'_cons, ← ih]; simp [Linked]

theorem Linked.linked_frame {h h1 : Heap} {l : List Ptr}
    (hn : ∀ a ∈ l.dropLast, h1.next a = h.next a)
    (hp : ∀ b ∈ l.tail, h1.prev b = h.prev b)
    (hl : Linked h l) : Linked h1 l := by
  induction l with
  | nil => trivial
  | cons a l ih =>
    cases l with
    | nil => trivial
    | cons b l =>
      refine ⟨⟨?_, ?_⟩, ih ?_ ?_ hl.2⟩
      · rw [hn a (by simp)]; exact hl.1.1
      · rw [hp b (by simp)]; exact hl.1.2
      · intro c hc; exact hn c (by simp [hc])
      · intro c hc; exact hp c (by simp at hc ⊢; exact Or.inr hc)

theorem linked_append_cons (h : Heap) (l1 : List Ptr) (a : Ptr) (l2 : List Ptr) :
    Linked h (l1 ++ a :: l2) ↔ Linked h (l1 ++ [a]) ∧ Linked h (a :: l2) := by
  induction l1 with
  | nil => simp [Linked]
  | cons x l1 ih =>
    cases l1 with
    | nil => simp [Linked]
    | cons y l1 =>
      have ih1 := ih
      simp only [List.cons_append] at ih1 ⊢
      simp only [Linked, ih1, and_assoc]

/-- Reading the links of two neighbours of a linked chain. -/
theorem Linked.adj {h : Heap} {l1 l2 : List Ptr} {a b : Ptr}
    (hl : Linked h (l1 ++ a :: b :: l2)) : h.next a = b ∧ h.prev b = a :=
  ((linked_append_cons h l1 a (b :: l2)).1 hl).2.1

theorem Linked.linked_del {h : Heap} {A B : List Ptr} {p x n : Ptr}
    (hl : Linked h (A ++ p :: x :: n :: B))
    (hpA : p ∉ A) (hpB : p ∉ (n :: B).dropLast) (hnB : n ∉ B)
    (hnA : n ∉ (A ++ [p]).tail) :
    Linked (list_del h x) (A ++ p :: n :: B) := by
  have h1 := (linked_append_cons h A p (x :: n :: B)).1 hl
  obtain ⟨hA, ⟨hpx, hxp⟩, ⟨hxn, hnx⟩, hB⟩ := h1
  rw [linked_append_cons]
  have e : list_del h x = (h.setPrev n p).setNext p n := by
    simp [list_del, hxn, hxp]
  rw [e]
  refine ⟨Linked.linked_frame ?_ ?_ hA, ⟨by simp, by simp⟩, Linked.linked_frame ?_ ?_ hB⟩
  · intro a ha
    have : a ≠ p := by rintro rfl; simp at ha; exact hpA ha
    simp [this]
  · intro b hb
    have : b ≠ n := by rintro rfl; exact hnA hb
    simp [this]
  · intro a ha
    have : a ≠ p := by rintro rfl; exact hpB ha
    simp [this]
  · intro b hb
    have : b ≠ n := by rintro rfl; exact hnB hb
    simp [this]

theorem Linked.linked_insert {h : Heap} {A B : List Ptr} {p x n : Ptr}
    (hl : Linked h (A ++ p :: n :: B))
    (hx : x ∉ A ++ p :: n :: B)
    (hpA : p ∉ A) (hpB : p ∉ (n :: B).dropLast) (hnB : n ∉ B)
    (hnA : n ∉ (A ++ [p]).tail) :
    Linked (list_insert_between h x p n) (A ++ p :: x :: n :: B) := by
  have h1 := (linked_append_cons h A p (n :: B)).1 hl
  obtain ⟨hA, ⟨hpn, hnp⟩, hB⟩ := h1
  rw [linked_append_cons]
  simp only [List.mem_append, List.mem_cons, not_or] at hx
  obtain ⟨hxA, hxp, hxn, hxB⟩ := hx
  refine ⟨Linked.linked_frame ?_ ?_ hA, ⟨?_, ?_⟩, ⟨?_, ?_⟩, Linked.linked_frame ?_ ?_ hB⟩
  · intro a ha
    have h1 : a ≠ p := by rintro rfl; simp at ha; exact hpA ha
    have h2 : a ≠ x := by rintro rfl; simp at ha; exact hxA ha
    simp [list_insert_between, h1, h2]
  · intro b hb
    have h1 : b ≠ n := by rintro rfl; exact hnA hb
    have h2 : b ≠ x := by
      rintro rfl
      have := List.mem_of_mem_tail hb
      simp at this
      rcases this with h | h
      · exact hxA h
      · exact hxp h
    simp [list_insert_between, h1, h2]
  · simp [list_insert_between]
  · simp [list_insert_between]
  · simp [list_insert_between, hxp]
  · simp [list_insert_between, Ne.symm hxn]
  · intro a ha
    have h1 : a ≠ p := by rintro rfl; exact hpB ha
    have h2 : a ≠ x := by
      rintro rfl
      have := List.mem_of_mem_dropLast ha
      simp at this
      rcases this with h | h
      · exact hxn h
      · exact hxB h
    simp [list_insert_between, h1, h2]
  · intro b hb
    have h1 : b ≠ n := by rintro rfl; exact hnB hb
    have h2 : b ≠ x := by rintro rfl; exact hxB hb
    simp [list_insert_between, h1, h2]


/-- The four separation facts about the neighbours `p` and `n` of a position in
the cycle `head :: l1 ++ l2 ++ [head]`. -/
theorem cycle_sep {head : Ptr} {l1 l2 A B : List Ptr} {p n : Ptr}
    (hnd : (head :: (l1 ++ l2)).Nodup)
    (hA : head :: l1 = A ++ [p]) (hB : l2 ++ [head] = n :: B) :
    p ∉ A ∧ p ∉ (n :: B).dropLast ∧ n ∉ B ∧ n ∉ (A ++ [p]).tail := by
  have hnd1 : (head :: l1).Nodup := by
    have := hnd
    simp only [List.nodup_cons, List.nodup_append, List.mem_append, not_or] at this ⊢
    exact ⟨this.1.1, this.2.1⟩
  have hnd2 : (l2 ++ [head]).Nodup := by
    have := hnd
    simp only [List.nodup_cons, List.nodup_append, List.mem_append, not_or] at this ⊢
    refine ⟨this.2.2.1, by simp, ?_⟩
    intro a ha hb
    simp at hb
    subst hb
    exact this.1.2 ha
  have hdisj : ∀ a, a ∈ head :: l1 → a ∈ l2 → False := by
    intro a ha hb
    have := hnd
    simp only [List.nodup_cons, List.nodup_append, List.mem_append, not_or] at this
    simp only [List.mem_cons] at ha
    rcases ha with rfl | ha
    · exact this.1.2 hb
    · exact this.2.2.2 ha hb
  refine ⟨?_, ?_, ?_, ?_⟩
  · rw [hA] at hnd1
    intro hp
    have := List.disjoint_of_nodup_append hnd1 hp
    simp at this
  · rw [← hB, List.dropLast_concat]
    exact fun hp => hdisj p (by rw [hA]; simp) hp
  · rw [hB] at hnd2
    exact (List.nodup_cons.1 hnd2).1
  · rw [← hA, List.tail_cons]
    intro hn
    have hn2 : n ∈ l2 ++ [head] := by rw [hB]; simp
    simp only [List.mem_append, List.mem_singleton] at hn2
    rcases hn2 with h | rfl
    · exact hdisj n (List.mem_cons_of_mem _ hn) h
    · exact (List.nodup_cons.1 hnd1).1 hn

theorem exists_concat (head : Ptr) (l1 : List Ptr) :
    ∃ A p, head :: l1 = A ++ [p] ∧ p = l1.getLastD head := by
  induction l1 generalizing head with
  | nil => exact ⟨[], head, rfl, rfl⟩
  | cons a l ih =>
    obtain ⟨A, p, hA, hp⟩ := ih a
    exact ⟨head :: A, p, by rw [hA]; rfl, by rw [List.getLastD_cons]; exact hp⟩

theorem exists_first (head : Ptr) (l2 : List Ptr) :
    ∃ n B, l2 ++ [head] = n :: B ∧ n = l2.headD head := by
  cases l2 with
  | nil => exact ⟨head, [], rfl, rfl⟩
  | cons a l => exact ⟨a, l ++ [head], rfl, rfl⟩

/-- In a well-formed queue the links of an element point to its neighbours. -/
theorem IsQueue.links {h : Heap} {head : Ptr} {l1 l2 : List Ptr} {x : Ptr}
    (hq : IsQueue h head (l1 ++ x :: l2)) :
    h.next x = l2.headD head ∧ h.prev x = l1.getLastD head := by
  obtain ⟨A, p, hA, hp⟩ := exists_concat head l1
  obtain ⟨n, B, hB, hn⟩ := exists_first head l2
  have hl := hq.1
  have e : head :: (l1 ++ x :: l2) ++ [head] = A ++ p :: x :: n :: B := by
    have : head :: (l1 ++ x :: l2) ++ [head] = (head :: l1) ++ x :: (l2 ++ [head]) := by simp
    rw [this, hA, hB]; simp
  rw [e] at hl
  have h1 := Linked.adj hl
  have h2 : Linked h ((A ++ [p]) ++ x :: n :: B) := by simpa using hl
  have h3 := Linked.adj h2
  rw [← hn, ← hp]
  exact ⟨h3.1, h1.2⟩

/-- In a well-formed queue the links of the sentinel point to the first and
the last element. -/
theorem IsQueue.head_links {h : Heap} {head : Ptr} {xs : List Ptr}
    (hq : IsQueue h head xs) :
    h.next head = xs.headD head ∧ h.prev head = xs.getLastD head := by
  obtain ⟨A, p, hA, hp⟩ := exists_concat head xs
  obtain ⟨n, B, hB, hn⟩ := exists_first head xs
  have hl := hq.1
  constructor
  · have e : head :: xs ++ [head] = [] ++ head :: n :: B := by simp [hB]
    rw [e] at hl
    rw [← hn]; exact (Linked.adj hl).1
  · have e : head :: xs ++ [head] = A ++ p :: head :: [] := by
      have : head :: xs ++ [head] = (head :: xs) ++ [head] := by simp
      rw [this, hA]; simp
    rw [e] at hl
    rw [← hp]; exact (Linked.adj hl).2

/-- Unlinking an element of a well-formed queue. -/
theorem IsQueue.del {h : Heap} {head : Ptr} {l1 l2 : List Ptr} {x : Ptr}
    (hq : IsQueue h head (l1 ++ x :: l2)) :
    IsQueue (list_del h x) head (l1 ++ l2) := by
  obtain ⟨A, p, hA, -⟩ := exists_concat head l1
  obtain ⟨n, B, hB, -⟩ := exists_first head l2
  obtain ⟨hl, hnd, h0, hlive⟩ := hq
  have hnd2 : (head :: (l1 ++ l2)).Nodup := by
    refine List.Nodup.sublist ?_ hnd
    exact List.Sublist.cons₂ _ (List.Sublist.append_left (List.sublist_cons_self x l2) l1)
  obtain ⟨s1, s2, s3, s4⟩ := cycle_sep hnd2 hA hB
  have e : head :: (l1 ++ x :: l2) ++ [head] = A ++ p :: x :: n :: B := by
    have : head :: (l1 ++ x :: l2) ++ [head] = (head :: l1) ++ x :: (l2 ++ [head]) := by simp
    rw [this, hA, hB]; simp
  have e2 : head :: (l1 ++ l2) ++ [head] = A ++ p :: n :: B := by
    have : head :: (l1 ++ l2) ++ [head] = (head :: l1) ++ (l2 ++ [head]) := by simp
    rw [this, hA, hB]; simp
  rw [e] at hl
  refine ⟨?_, hnd2, ?_, ?_⟩
  · rw [e2]; exact Linked.linked_del hl s1 s2 s3 s4
  · intro hm; apply h0
    simp only [List.mem_cons, List.mem_append] at hm ⊢
    tauto
  · intro q hm
    have : q ∈ head :: (l1 ++ x :: l2) := by
      simp only [List.mem_cons, List.mem_append] at hm ⊢
      tauto
    simpa [list_del] using hlive q this

/-- Splicing a fresh node into a well-formed queue, after the last node of
`head :: l1`. -/
theorem IsQueue.insert {h : Heap} {head : Ptr} {l1 l2 : List Ptr} {x : Ptr}
    (hq : IsQueue h head (l1 ++ l2)) (hx : x ∉ head :: (l1 ++ l2)) (hx0 : x ≠ 0)
    (hxl : x ∈ h.live) :
    IsQueue (list_insert_between h x (l1.getLastD head) (l2.headD head)) head
      (l1 ++ x :: l2) := by
  obtain ⟨A, p, hA, hp⟩ := exists_concat head l1
  obtain ⟨n, B, hB, hn⟩ := exists_first head l2
  obtain ⟨hl, hnd, h0, hlive⟩ := hq
  obtain ⟨s1, s2, s3, s4⟩ := cycle_sep hnd hA hB
  have e : head :: (l1 ++ x :: l2) ++ [head] = A ++ p :: x :: n :: B := by
    have : head :: (l1 ++ x :: l2) ++ [head] = (head :: l1) ++ x :: (l2 ++ [head]) := by simp
    rw [this, hA, hB]; simp
  have e2 : head :: (l1 ++ l2) ++ [head] = A ++ p :: n :: B := by
    have : head :: (l1 ++ l2) ++ [head] = (head :: l1) ++ (l2 ++ [head]) := by simp
    rw [this, hA, hB]; simp
  rw [e2] at hl
  have hx2 : x ∉ A ++ p :: n :: B := by
    rw [← e2]
    intro hm
    apply hx
    simp only [List.mem_cons, List.mem_append, List.mem_singleton] at hm ⊢
    tauto
  rw [← hp, ← hn]
  refine ⟨?_, ?_, ?_, ?_⟩
  · rw [e]; exact Linked.linked_insert hl hx2 s1 s2 s3 s4
  · have : (head :: (l1 ++ x :: l2)).Perm (x :: head :: (l1 ++ l2)) := by
      refine (List.Perm.cons head List.perm_middle).trans (List.Perm.swap _ _ _)
    exact this.nodup_iff.2 (List.nodup_cons.2 ⟨hx, hnd⟩)
  · intro hm; apply h0
    simp only [List.mem_cons, List.mem_append] at hm ⊢
    rcases hm with h | h | h | h
    · exact Or.inl h
    · exact Or.inr (Or.inl h)
    · exact absurd h.symm hx0
    · exact Or.inr (Or.inr h)
  · intro q hm
    simp only [list_insert_between, setNext_live, setPrev_live]
    simp only [List.mem_cons, List.mem_append] at hm
    rcases hm with h | h | h | h
    · exact hlive q (by simp [h])
    · exact hlive q (by simp [h])
    · exact h ▸ hxl
    · exact hlive q (by simp [h])

/-! ## Strings -/

theorem strlen_le_length (s : List Nat) : strlen s ≤ s.length := by
  induction s with
  | nil => simp [strlen]
  | cons b bs ih =>
    by_cases hb : b = 0
    · simp [strlen, hb]
    · simp [strlen, hb, ih]

theorem strlen_take (s : List Nat) (n : Nat) (hn : strlen s ≤ n) :
    strlen (s.take n) = strlen s := by
  induction s generalizing n with
  | nil => simp [strlen]
  | cons b bs ih =>
    by_cases hb : b = 0
    · cases n with
      | zero => simp [strlen, hb]
      | succ n => simp [strlen, hb]
    · cases n with
      | zero => simp [strlen, hb] at hn
      | succ n =>
        simp only [strlen, hb, if_false, Nat.add_le_add_iff_right] at hn
        simp [strlen, hb, ih n hn]

theorem cstr_take (s : List Nat) (n : Nat) (hn : strlen s ≤ n) :
    cstr (s.take n) = cstr s := by
  unfold cstr
  rw [strlen_take s n hn, List.take_take, min_eq_left hn]

/-- A terminated buffer cut right after its terminator is the string followed
by the zero byte. -/
theorem take_strlen_succ (s : List Nat) (hs : 0 ∈ s) :
    s.take (strlen s + 1) = cstr s ++ [0] := by
  induction s with
  | nil => simp at hs
  | cons b bs ih =>
    by_cases hb : b = 0
    · simp [strlen, cstr, hb]
    · have hs2 : 0 ∈ bs := by
        simp only [List.mem_cons] at hs
        rcases hs with h | h
        · exact absurd h.symm hb
        · exact h
      have := ih hs2
      simp only [cstr] at this
      simp [strlen, cstr, hb, this]

theorem cstr_no_zero (s : List Nat) : 0 ∉ cstr s := by
  induction s with
  | nil => simp [cstr]
  | cons b bs ih =>
    by_cases hb : b = 0
    · simp [strlen, cstr, hb]
    · simp only [cstr] at ih
      simp [strlen, cstr, hb, ih, Ne.symm hb]

theorem length_cstr (s : List Nat) : (cstr s).length = strlen s := by
  simp [cstr, strlen_le_length]

/-! ## Frames for well-formed queues -/

theorem IsQueue.frame {h h1 : Heap} {head : Ptr} {xs : List Ptr}
    (hq : IsQueue h head xs) (hn : h1.next = h.next) (hp : h1.prev = h.prev)
    (hl : ∀ p ∈ head :: xs, p ∈ h1.live) : IsQueue h1 head xs :=
  ⟨Linked.linked_frame (fun a _ => by rw [hn]) (fun a _ => by rw [hp]) hq.1, hq.2.1, hq.2.2.1, hl⟩

theorem IsQueue.fresh {h : Heap} {head : Ptr} {xs : List Ptr} {e : Ptr}
    (hq : IsQueue h head xs) (he : e ∉ h.live) : e ∉ head :: xs :=
  fun hm => he (hq.2.2.2 e hm)

theorem IsQueue.head_ne_zero {h : Heap} {head : Ptr} {xs : List Ptr}
    (hq : IsQueue h head xs) : head ≠ 0 := by
  rintro rfl; exact hq.2.2.1 (by simp)

theorem IsQueue.mem_ne_head {h : Heap} {head : Ptr} {xs : List Ptr} {x : Ptr}
    (hq : IsQueue h head xs) (hx : x ∈ xs) : x ≠ head := by
  rintro rfl; exact (List.nodup_cons.1 hq.2.1).1 hx

theorem IsQueue.mem_ne_zero {h : Heap} {head : Ptr} {xs : List Ptr} {x : Ptr}
    (hq : IsQueue h head xs) (hx : x ∈ xs) : x ≠ 0 := by
  rintro rfl; exact hq.2.2.1 (by simp [hx])

theorem IsQueue.list_empty_iff {h : Heap} {head : Ptr} {xs : List Ptr}
    (hq : IsQueue h head xs) : list_empty h head = true ↔ xs = [] := by
  unfold list_empty
  rw [hq.head_links.1]
  cases xs with
  | nil => simp
  | cons x xs =>
    have := hq.mem_ne_head (List.mem_cons_self x xs)
    simp [this]

/-! ## Insertion -/

theorem q_insert_head_ok {h : Heap} {head : Ptr} {xs : List Ptr} (s : List Nat) {e : Ptr}
    (hq : IsQueue h head xs) (he : e ≠ 0) :
    q_insert_head h head s e true =
      (list_add ((h.alloc e).setValue e (s.take (strlen s + 1))) e head, true) := by
  simp [q_insert_head, hq.head_ne_zero, he, memcpy]

theorem q_insert_tail_ok {h : Heap} {head : Ptr} {xs : List Ptr} (s : List Nat) {e : Ptr}
    (hq : IsQueue h head xs) (he : e ≠ 0) :
    q_insert_tail h head s e true =
      (list_add_tail ((h.alloc e).setValue e (s.take (strlen s + 1))) e head, true) := by
  simp [q_insert_tail, hq.head_ne_zero, he, memcpy]

theorem q_insert_head_isQueue {h : Heap} {head : Ptr} {xs : List Ptr} (s : List Nat)
    {e : Ptr} (hq : IsQueue h head xs) (he : e ≠ 0) (hf : e ∉ h.live) :
    IsQueue (q_insert_head h head s e true).1 head (e :: xs) := by
  rw [q_insert_head_ok s hq he]
  have hq2 : IsQueue ((h.alloc e).setValue e (s.take (strlen s + 1))) head ([] ++ xs) :=
    hq.frame rfl rfl (fun p hp => by simp [hq.2.2.2 p hp])
  have := IsQueue.insert hq2 (by simpa using hq.fresh hf) he (by simp)
  simpa [list_add, hq2.head_links.1] using this

theorem q_insert_tail_isQueue {h : Heap} {head : Ptr} {xs : List Ptr} (s : List Nat)
    {e : Ptr} (hq : IsQueue h head xs) (he : e ≠ 0) (hf : e ∉ h.live) :
    IsQueue (q_insert_tail h head s e true).1 head (xs ++ [e]) := by
  rw [q_insert_tail_ok s hq he]
  have hq2 : IsQueue ((h.alloc e).setValue e (s.take (strlen s + 1))) head (xs ++ []) := by
    rw [List.append_nil]
    exact hq.frame rfl rfl (fun p hp => by simp [hq.2.2.2 p hp])
  have := IsQueue.insert hq2 (by simpa using hq.fresh hf) he (by simp)
  have hp := hq2.head_links.2
  simp only [List.append_nil] at hp
  simpa [list_add_tail, hp] using this

/-! ## Removal -/

theorem size_sub_one {n : Nat} (h1 : 1 ≤ n) (h2 : n < 2 ^ 64) : size_sub n 1 = n - 1 := by
  unfold size_sub
  have hM1 : 1 < 2 ^ 64 := by norm_num
  generalize (2 : Nat) ^ 64 = M at *
  rw [Nat.mod_eq_of_lt hM1]
  have : n + M - 1 = (n - 1) + M := by omega
  rw [this, Nat.add_mod_right, Nat.mod_eq_of_lt (by omega)]

theorem copy_out (buf v : List Nat) (len : Nat) (hl : len ≤ strlen v) :
    storeByte (memcpy buf v len) len 0 = (cstr v).take len ++ 0 :: buf.drop (len + 1) := by
  have hlen : (v.take len).length = len := by
    rw [List.length_take]; exact min_eq_left (le_trans hl (strlen_le_length v))
  have e1 : (cstr v).take len = v.take len := by
    unfold cstr; rw [List.take_take, min_eq_left hl]
  unfold storeByte memcpy
  rw [e1, List.take_append_of_le_length (by rw [hlen]), List.take_of_length_le (by rw [hlen])]
  congr 2
  rw [List.drop_append_eq_append_drop, hlen]
  rw [List.drop_of_length_le (by rw [hlen]; omega)]
  simp [List.drop_drop, Nat.add_comm]

theorem remove_len (v : List Nat) {n : Nat} (h1 : 1 ≤ n) (h2 : n < 2 ^ 64) :
    (if size_sub n 1 > strlen v then strlen v else size_sub n 1) = min (strlen v) (n - 1) := by
  rw [size_sub_one h1 h2]
  split <;> omega

theorem q_remove_head_ok {h : Heap} {head x : Ptr} {xs : List Ptr} (buf : List Nat)
    {bufsize : Nat} (hq : IsQueue h head (x :: xs)) (hb1 : 1 ≤ bufsize)
    (hb2 : bufsize < 2 ^ 64) :
    q_remove_head h head (some buf) bufsize =
      ⟨list_del h x, some (truncated_copy (h.value x) buf bufsize), x⟩ := by
  have hne : ¬ (list_empty h head = true) := by rw [hq.list_empty_iff]; simp
  have hx : h.next head = x := hq.head_links.1
  unfold q_remove_head
  rw [if_neg (by simp [hq.head_ne_zero, hne])]
  simp only [hx, remove_len _ hb1 hb2]
  rw [copy_out _ _ _ (min_le_left _ _)]
  rfl

theorem q_remove_tail_ok {h : Heap} {head x : Ptr} {xs : List Ptr} (buf : List Nat)
    {bufsize : Nat} (hq : IsQueue h head (xs ++ [x])) (hb1 : 1 ≤ bufsize)
    (hb2 : bufsize < 2 ^ 64) :
    q_remove_tail h head (some buf) bufsize =
      ⟨list_del h x, some (truncated_copy (h.value x) buf bufsize), x⟩ := by
  have hne : ¬ (list_empty h head = true) := by rw [hq.list_empty_iff]; simp
  have hx : h.prev head = x := by rw [hq.head_links.2]; simp
  unfold q_remove_tail
  rw [if_neg (by simp [hq.head_ne_zero, hne])]
  simp only [hx, remove_len _ hb1 hb2]
  rw [copy_out _ _ _ (min_le_left _ _)]
  rfl

theorem list_del_value (h : Heap) (x : Ptr) : (list_del h x).value = h.value := rfl
theorem list_del_live (h : Heap) (x : Ptr) : (list_del h x).live = h.live := rfl

/-- C3: when both allocations succeed (`e` is a fresh non-null block and the
buffer allocation succeeds), `q_insert_head` returns true and the queue
becomes the new element followed by the old ones, `q_insert_tail` returns
true and the queue becomes the old elements followed by the new one; the
payload sequence is `s` in front of (resp. behind) the old payloads; the
stored buffer is the first `strlen(s) + 1` bytes of `s`, which for a
terminated `s` is the string followed by its terminator; the old elements
keep their payloads. -/
theorem q_insert_spec (h : Heap) (head : Ptr) (xs : List Ptr) (s : List Nat) (e : Ptr)
    (hq : IsQueue h head xs) (he : e ≠ 0) (hf : e ∉ h.live) :
    ((q_insert_head h head s e true).2 = true ∧
      IsQueue (q_insert_head h head s e true).1 head (e :: xs) ∧
      payloads (q_insert_head h head s e true).1 (e :: xs) = cstr s :: payloads h xs ∧
      (q_insert_head h head s e true).1.value e = s.take (strlen s + 1) ∧
      (0 ∈ s → (q_insert_head h head s e true).1.value e = cstr s ++ [0]) ∧
      ∀ x ∈ xs, (q_insert_head h head s e true).1.value x = h.value x) ∧
    ((q_insert_tail h head s e true).2 = true ∧
      IsQueue (q_insert_tail h head s e true).1 head (xs ++ [e]) ∧
      payloads (q_insert_tail h head s e true).1 (xs ++ [e]) = payloads h xs ++ [cstr s] ∧
      (q_insert_tail h head s e true).1.value e = s.take (strlen s + 1) ∧
      (0 ∈ s → (q_insert_tail h head s e true).1.value e = cstr s ++ [0]) ∧
      ∀ x ∈ xs, (q_insert_tail h head s e true).1.value x = h.value x) := by
  have hex : ∀ x ∈ xs, x ≠ e := by
    rintro x hx rfl
    exact hq.fresh hf (List.mem_cons_of_mem _ hx)
  have hv1 : (q_insert_head h head s e true).1.value =
      fun q => if q = e then s.take (strlen s + 1) else h.value q := by
    rw [q_insert_head_ok s hq he]; rfl
  have hv2 : (q_insert_tail h head s e true).1.value =
      fun q => if q = e then s.take (strlen s + 1) else h.value q := by
    rw [q_insert_tail_ok s hq he]; rfl
  have hpay : ∀ g : Heap, (g.value = fun q => if q = e then s.take (strlen s + 1) else h.value q) →
      payloads g xs = payloads h xs := by
    intro g hg
    unfold payloads
    apply List.map_congr_left
    intro x hx
    simp [hg, hex x hx]
  refine ⟨⟨?_, q_insert_head_isQueue s hq he hf, ?_, ?_, ?_, ?_⟩,
    ⟨?_, q_insert_tail_isQueue s hq he hf, ?_, ?_, ?_, ?_⟩⟩
  · rw [q_insert_head_ok s hq he]
  · have := hpay _ hv1
    simp only [payloads, List.map_cons] at this ⊢
    rw [this, hv1]
    simp [cstr_take]
  · rw [hv1]; simp
  · intro hs; rw [hv1]; simp [take_strlen_succ s hs]
  · intro x hx; rw [hv1]; simp [hex x hx]
  · rw [q_insert_tail_ok s hq he]
  · have := hpay _ hv2
    simp only [payloads, List.map_append, List.map_cons, List.map_nil] at this ⊢
    rw [this, hv2]
    simp [cstr_take]
  · rw [hv2]; simp
  · intro hs; rw [hv2]; simp [take_strlen_succ s hs]
  · intro x hx; rw [hv2]; simp [hex x hx]

/-- C4: on a non-empty queue, with a buffer present and `1 ≤ bufsize`,
`q_remove_head` (resp. `q_remove_tail`) returns the first (resp. last)
element, leaves the other elements in their order, changes no payload and
releases nothing, and leaves in the buffer the first
`min(strlen(payload), bufsize - 1)` bytes of the payload followed by a
terminator. -/
theorem q_remove_spec (h : Heap) (head : Ptr) (xs : List Ptr) (buf : List Nat)
    (bufsize : Nat) (hq : IsQueue h head xs) (hne : xs ≠ []) (hb1 : 1 ≤ bufsize)
    (hb2 : bufsize < 2 ^ 64) :
    ((q_remove_head h head (some buf) bufsize).entry = xs.head hne ∧
      IsQueue (q_remove_head h head (some buf) bufsize).heap head xs.tail ∧
      (q_remove_head h head (some buf) bufsize).heap.value = h.value ∧
      (q_remove_head h head (some buf) bufsize).heap.live = h.live ∧
      (q_remove_head h head (some buf) bufsize).buf =
        some (truncated_copy (h.value (xs.head hne)) buf bufsize)) ∧
    ((q_remove_tail h head (some buf) bufsize).entry = xs.getLast hne ∧
      IsQueue (q_remove_tail h head (some buf) bufsize).heap head xs.dropLast ∧
      (q_remove_tail h head (some buf) bufsize).heap.value = h.value ∧
      (q_remove_tail h head (some buf) bufsize).heap.live = h.live ∧
      (q_remove_tail h head (some buf) bufsize).buf =
        some (truncated_copy (h.value (xs.getLast hne)) buf bufsize)) := by
  constructor
  · cases xs with
    | nil => exact absurd rfl hne
    | cons x xs =>
      rw [q_remove_head_ok buf hq hb1 hb2]
      have hq2 : IsQueue h head ([] ++ x :: xs) := hq
      exact ⟨rfl, by simpa using hq2.del, rfl, rfl, rfl⟩
  · have e := List.dropLast_append_getLast hne
    have hq2 : IsQueue h head (xs.dropLast ++ [xs.getLast hne]) := by rw [e]; exact hq
    rw [q_remove_tail_ok buf hq2 hb1 hb2]
    exact ⟨rfl, by simpa using hq2.del, rfl, rfl, rfl⟩

/-! ## Size -/

theorem int_incr_wrap (n : Int) : int_incr (int_wrap n) = int_wrap (n + 1) := by
  unfold int_incr int_wrap
  have : (n + 2 ^ 31) % 2 ^ 32 - 2 ^ 31 + 1 + 2 ^ 31 = (n + 2 ^ 31) % 2 ^ 32 + 1 := by ring
  rw [this, Int.emod_add_emod]
  congr 2
  ring

theorem q_size_loop_spec {h : Heap} {head : Ptr} (l2 : List Ptr) :
    ∀ (l1 : List Ptr) (fuel : Nat) (n : Int), IsQueue h head (l1 ++ l2) → l2.length < fuel →
      q_size_loop fuel h head (l2.headD head) (int_wrap n) =
        some (int_wrap (n + l2.length)) := by
  induction l2 with
  | nil =>
    intro l1 fuel n _ hf
    cases fuel with
    | zero => simp at hf
    | succ fuel => simp [q_size_loop]
  | cons x l2 ih =>
    intro l1 fuel n hq hf
    cases fuel with
    | zero => simp at hf
    | succ fuel =>
      have hx : x ≠ head := hq.mem_ne_head (by simp)
      have hq2 : IsQueue h head ((l1 ++ [x]) ++ l2) := by simpa using hq
      have := ih (l1 ++ [x]) fuel (n + 1) hq2 (by simpa using hf)
      simp only [q_size_loop, List.headD_cons, hx, if_false, hq.links.1, int_incr_wrap, this]
      congr 2
      simp only [List.length_cons]
      push_cast
      ring

/-- On a well-formed queue `q_size` returns the number of elements, as an
`int`. -/
theorem q_size_spec {h : Heap} {head : Ptr} {xs : List Ptr} (hq : IsQueue h head xs)
    {fuel : Nat} (hf : xs.length < fuel) :
    q_size fuel h head = some (int_wrap xs.length) := by
  have hq2 : IsQueue h head ([] ++ xs) := hq
  have := q_size_loop_spec xs [] fuel 0 hq2 hf
  have h0 : int_wrap 0 = 0 := by decide
  rw [h0] at this
  unfold q_size
  rw [if_neg hq.head_ne_zero, hq.head_links.1, this]
  simp

/-! ## Sequences of inserts and removes -/

theorem heap_ext {a b : Heap} (h1 : a.next = b.next) (h2 : a.prev = b.prev)
    (h3 : a.value = b.value) (h4 : a.live = b.live) : a = b := by
  cases a; cases b; simp_all

theorem alloc_free (h : Heap) (e : Ptr) : (h.alloc e).free e = h :=
  heap_ext rfl rfl rfl (by simp)

theorem q_insert_head_fail (h : Heap) (head : Ptr) (s : List Nat) (e : Ptr) (v : Bool)
    (hf : (q_insert_head h head s e v).2 = false) : (q_insert_head h head s e v).1 = h := by
  unfold q_insert_head at hf ⊢
  by_cases h1 : head = 0
  · simp [h1]
  · by_cases h2 : e = 0
    · simp [h1, h2]
    · cases v with
      | false => simp [h1, h2, alloc_free]
      | true => simp [h1, h2] at hf

theorem q_insert_tail_fail (h : Heap) (head : Ptr) (s : List Nat) (e : Ptr) (v : Bool)
    (hf : (q_insert_tail h head s e v).2 = false) : (q_insert_tail h head s e v).1 = h := by
  unfold q_insert_tail at hf ⊢
  by_cases h1 : head = 0
  · simp [h1]
  · by_cases h2 : e = 0
    · simp [h1, h2]
    · cases v with
      | false => simp [h1, h2, alloc_free]
      | true => simp [h1, h2] at hf

theorem q_insert_head_true {h : Heap} {head : Ptr} {s : List Nat} {e : Ptr} {v : Bool}
    (hf : (q_insert_head h head s e v).2 = true) : e ≠ 0 ∧ v = true := by
  unfold q_insert_head at hf
  by_cases h1 : head = 0
  · simp [h1] at hf
  · by_cases h2 : e = 0
    · simp [h1, h2] at hf
    · cases v with
      | false => simp [h1, h2] at hf
      | true => exact ⟨h2, rfl⟩

theorem q_insert_tail_true {h : Heap} {head : Ptr} {s : List Nat} {e : Ptr} {v : Bool}
    (hf : (q_insert_tail h head s e v).2 = true) : e ≠ 0 ∧ v = true := by
  unfold q_insert_tail at hf
  by_cases h1 : head = 0
  · simp [h1] at hf
  · by_cases h2 : e = 0
    · simp [h1, h2] at hf
    · cases v with
      | false => simp [h1, h2] at hf
      | true => exact ⟨h2, rfl⟩

/-- Removing from the head of a non-empty queue with a buffer present: the
element returned and the memory, whatever the buffer size. -/
theorem q_remove_head_some {h : Heap} {head x : Ptr} {xs : List Ptr} (buf : List Nat)
    (bufsize : Nat) (hq : IsQueue h head (x :: xs)) :
    (q_remove_head h head (some buf) bufsize).entry = x ∧
      (q_remove_head h head (some buf) bufsize).heap = list_del h x := by
  have hne : ¬ (list_empty h head = true) := by rw [hq.list_empty_iff]; simp
  have hx : h.next head = x := hq.head_links.1
  unfold q_remove_head
  rw [if_neg (by simp [hq.head_ne_zero, hne])]
  simp [hx]

theorem q_remove_tail_some {h : Heap} {head x : Ptr} {xs : List Ptr} (buf : List Nat)
    (bufsize : Nat) (hq : IsQueue h head (xs ++ [x])) :
    (q_remove_tail h head (some buf) bufsize).entry = x ∧
      (q_remove_tail h head (some buf) bufsize).heap = list_del h x := by
  have hne : ¬ (list_empty h head = true) := by rw [hq.list_empty_iff]; simp
  have hx : h.prev head = x := by rw [hq.head_links.2]; simp
  unfold q_remove_tail
  rw [if_neg (by simp [hq.head_ne_zero, hne])]
  simp [hx]

theorem q_remove_head_none (h : Heap) (head : Ptr) (bufsize : Nat) :
    (q_remove_head h head none bufsize).entry = 0 ∧
      (q_remove_head h head none bufsize).heap = h := by
  unfold q_remove_head; split <;> simp

theorem q_remove_tail_none (h : Heap) (head : Ptr) (bufsize : Nat) :
    (q_remove_tail h head none bufsize).entry = 0 ∧
      (q_remove_tail h head none bufsize).heap = h := by
  unfold q_remove_tail; split <;> simp

theorem q_remove_head_empty {h : Heap} {head : Ptr} (sp : Option (List Nat)) (bufsize : Nat)
    (hq : IsQueue h head []) :
    (q_remove_head h head sp bufsize).entry = 0 ∧
      (q_remove_head h head sp bufsize).heap = h := by
  have hne : list_empty h head = true := by rw [hq.list_empty_iff]
  unfold q_remove_head; simp [hne]

theorem q_remove_tail_empty {h : Heap} {head : Ptr} (sp : Option (List Nat)) (bufsize : Nat)
    (hq : IsQueue h head []) :
    (q_remove_tail h head sp bufsize).entry = 0 ∧
      (q_remove_tail h head sp bufsize).heap = h := by
  have hne : list_empty h head = true := by rw [hq.list_empty_iff]
  unfold q_remove_tail; simp [hne]

theorem IsQueue.links_unique {h h2 : Heap} {head : Ptr} {xs : List Ptr}
    (hq : IsQueue h head xs) (hq2 : IsQueue h2 head xs) :
    ∀ p ∈ head :: xs, h2.next p = h.next p ∧ h2.prev p = h.prev p := by
  intro p hp
  simp only [List.mem_cons] at hp
  rcases hp with rfl | hp
  · exact ⟨by rw [hq.head_links.1, hq2.head_links.1], by rw [hq.head_links.2, hq2.head_links.2]⟩
  · obtain ⟨l1, l2, rfl⟩ := List.append_of_mem hp
    exact ⟨by rw [hq.links.1, hq2.links.1], by rw [hq.links.2, hq2.links.2]⟩

theorem cstr_append_zero (a rest : List Nat) (ha : 0 ∉ a) : cstr (a ++ 0 :: rest) = a := by
  induction a with
  | nil => simp [cstr, strlen]
  | cons b bs ih =>
    simp only [List.mem_cons, not_or] at ha
    have hb : b ≠ 0 := Ne.symm ha.1
    have := ih ha.2
    simp only [cstr] at this
    simp [cstr, strlen, hb, this]

/-- C5: a successful `q_insert_head` of `s` followed at once by
`q_remove_head` returns the inserted element, whose payload is `s`, and
leaves the queue with the elements, links and payloads it had before the
insert; when `strlen(s) < bufsize` the buffer holds `s` and its terminator. -/
theorem insert_remove_roundtrip (h : Heap) (head : Ptr) (xs : List Ptr) (s : List Nat)
    (e : Ptr) (buf : List Nat) (bufsize : Nat)
    (hq : IsQueue h head xs) (he : e ≠ 0) (hf : e ∉ h.live) (hb : bufsize < 2 ^ 64) :
    (q_insert_head h head s e true).2 = true ∧
    (q_remove_head (q_insert_head h head s e true).1 head (some buf) bufsize).entry = e ∧
    cstr ((q_remove_head (q_insert_head h head s e true).1 head (some buf)
      bufsize).heap.value e) = cstr s ∧
    IsQueue (q_remove_head (q_insert_head h head s e true).1 head (some buf)
      bufsize).heap head xs ∧
    (∀ p ∈ head :: xs,
      (q_remove_head (q_insert_head h head s e true).1 head (some buf)
          bufsize).heap.next p = h.next p ∧
      (q_remove_head (q_insert_head h head s e true).1 head (some buf)
          bufsize).heap.prev p = h.prev p ∧
      (q_remove_head (q_insert_head h head s e true).1 head (some buf)
          bufsize).heap.value p = h.value p) ∧
    (strlen s < bufsize →
      (q_remove_head (q_insert_head h head s e true).1 head (some buf) bufsize).buf =
        some (cstr s ++ 0 :: buf.drop (strlen s + 1))) := by
  have hq1 := q_insert_head_isQueue s hq he hf
  have hv1 : (q_insert_head h head s e true).1.value =
      fun q => if q = e then s.take (strlen s + 1) else h.value q := by
    rw [q_insert_head_ok s hq he]; rfl
  obtain ⟨r1, r2⟩ := q_remove_head_some buf bufsize hq1
  have hq2 : IsQueue (q_insert_head h head s e true).1 head ([] ++ e :: xs) := hq1
  have hq3 : IsQueue (list_del (q_insert_head h head s e true).1 e) head xs := by
    simpa using hq2.del
  have hlive : ∀ p ∈ head :: xs, p ∈ h.live → p ≠ e := by
    rintro p _ hl rfl; exact hf hl
  refine ⟨by rw [q_insert_head_ok s hq he], r1, ?_, ?_, ?_, ?_⟩
  · rw [r2, list_del_value, hv1]; simp [cstr_take]
  · rw [r2]; exact hq3
  · intro p hp
    rw [r2]
    obtain ⟨a, b⟩ := hq.links_unique hq3 p hp
    refine ⟨a, b, ?_⟩
    rw [list_del_value, hv1]
    simp [hlive p hp (hq.2.2.2 p hp)]
  · intro hlt
    have hb1 : 1 ≤ bufsize := by omega
    rw [q_remove_head_ok buf hq1 hb1 hb]
    simp only [truncated_copy, hv1, if_true]
    rw [strlen_take _ _ (Nat.le_succ _), min_eq_left (by omega), cstr_take _ _ (Nat.le_succ _),
      ← length_cstr, List.take_length]

theorem Linked.nextPath {h : Heap} {l : List Ptr} (hl : Linked h l) : NextPath h l := by
  induction l with
  | nil => trivial
  | cons a l ih =>
    cases l with
    | nil => trivial
    | cons b l => exact ⟨hl.1.1, ih hl.2⟩

theorem NextPath.path_frame {h h1 : Heap} {l : List Ptr}
    (hn : ∀ a ∈ l.dropLast, h1.next a = h.next a) (hl : NextPath h l) : NextPath h1 l := by
  induction l with
  | nil => trivial
  | cons a l ih =>
    cases l with
    | nil => trivial
    | cons b l =>
      refine ⟨?_, ih ?_ hl.2⟩
      · rw [hn a (by simp)]; exact hl.1
      · intro c hc; exact hn c (by simp [hc])

theorem NextPath.tail {h : Heap} {a : Ptr} {l : List Ptr} (hl : NextPath h (a :: l)) :
    NextPath h l := by
  cases l with
  | nil => trivial
  | cons b l => exact hl.2

theorem q_reverse_loop_spec {head : Ptr} (l : List Ptr) :
    ∀ (h : Heap) (fuel : Nat), NextPath h (l ++ [head]) → l.Nodup → head ∉ l →
      l.length < fuel →
      ∃ h1, q_reverse_loop fuel h head (l.headD head) = some h1 ∧
        (∀ x ∈ l, h1.next x = h.prev x ∧ h1.prev x = h.next x) ∧
        (∀ x, x ∉ l → h1.next x = h.next x ∧ h1.prev x = h.prev x) ∧
        h1.value = h.value ∧ h1.live = h.live := by
  induction l with
  | nil =>
    intro h fuel _ _ _ hf
    cases fuel with
    | zero => simp at hf
    | succ fuel => exact ⟨h, by simp [q_reverse_loop], by simp, by simp, rfl, rfl⟩
  | cons x l ih =>
    intro h fuel hp hnd hh hf
    cases fuel with
    | zero => simp at hf
    | succ fuel =>
      have hx : x ≠ head := by rintro rfl; exact hh (by simp)
      have hxl : x ∉ l := (List.nodup_cons.1 hnd).1
      have hnext : h.next x = l.headD head := by
        cases l with
        | nil => exact hp.1
        | cons b l => exact hp.1
      have hp2 : NextPath ((h.setNext x (h.prev x)).setPrev x (h.next x)) (l ++ [head]) := by
        refine NextPath.path_frame ?_ (NextPath.tail hp)
        intro a ha
        rw [List.dropLast_concat] at ha
        have : a ≠ x := by rintro rfl; exact hxl ha
        simp [this]
      obtain ⟨h1, e1, e2, e3, e4, e5⟩ := ih _ fuel hp2 (List.nodup_cons.1 hnd).2
        (fun hm => hh (List.mem_cons_of_mem _ hm)) (by simpa using hf)
      refine ⟨h1, ?_, ?_, ?_, ?_, ?_⟩
      · simp only [q_reverse_loop, List.headD_cons, ne_eq, hx, not_false_eq_true, if_true]
        rw [hnext]; rw [hnext] at e1; exact e1
      · intro y hy
        simp only [List.mem_cons] at hy
        rcases hy with rfl | hy
        · have := e3 y hxl
          simpa using this
        · have hyx : y ≠ x := by rintro rfl; exact hxl hy
          have := e2 y hy
          simpa [hyx] using this
      · intro y hy
        simp only [List.mem_cons, not_or] at hy
        have := e3 y hy.2
        simpa [hy.1] using this
      · rw [e4]; rfl
      · rw [e5]; rfl

theorem Linked.reverse_swap {h h1 : Heap} (l : List Ptr)
    (hs : ∀ x ∈ l, h1.next x = h.prev x ∧ h1.prev x = h.next x) (hl : Linked h l) :
    Linked h1 l.reverse := by
  induction l with
  | nil => trivial
  | cons a l ih =>
    cases l with
    | nil => trivial
    | cons b l =>
      have ih2 := ih (fun x hx => hs x (List.mem_cons_of_mem _ hx)) hl.2
      have e : (a :: b :: l).reverse = l.reverse ++ b :: [a] := by simp
      rw [e, linked_append_cons]
      refine ⟨by simpa using ih2, ⟨?_, ?_⟩, trivial⟩
      · rw [(hs b (by simp)).1]; exact hl.1.2
      · rw [(hs a (by simp)).2]; exact hl.1.1

/-- On a well-formed queue `q_reverse` terminates and leaves the same nodes in
the reverse order, with payloads and allocations untouched. -/
theorem q_reverse_run {h : Heap} {head : Ptr} {xs : List Ptr} {fuel : Nat}
    (hq : IsQueue h head xs) (hf : xs.length < fuel) :
    ∃ h1, q_reverse fuel h head = some h1 ∧ IsQueue h1 head xs.reverse ∧
      h1.value = h.value ∧ h1.live = h.live := by
  by_cases hxs : xs = []
  · subst hxs
    refine ⟨h, ?_, hq, rfl, rfl⟩
    simp [q_reverse, hq.list_empty_iff]
  · have hne : ¬ (list_empty h head = true) := by rw [hq.list_empty_iff]; exact hxs
    have hnd := hq.2.1
    obtain ⟨h1, e1, e2, e3, e4, e5⟩ := q_reverse_loop_spec xs h fuel
      (Linked.nextPath hq.1).tail (List.nodup_cons.1 hnd).2 (List.nodup_cons.1 hnd).1 hf
    rw [← hq.head_links.1] at e1
    have hh := e3 head (List.nodup_cons.1 hnd).1
    refine ⟨(h1.setNext head (h1.prev head)).setPrev head (h1.next head), ?_, ?_, ?_, ?_⟩
    · simp [q_reverse, hq.head_ne_zero, hne, e1]
    · refine ⟨?_, ?_, ?_, ?_⟩
      · have e : head :: xs.reverse ++ [head] = (head :: xs ++ [head]).reverse := by simp
        rw [e]
        refine Linked.reverse_swap _ ?_ hq.1
        intro x hx
        by_cases hxh : x = head
        · subst hxh; simp [hh.1, hh.2]
        · have hx2 : x ∈ xs := by
            simp only [List.cons_append, List.mem_cons, List.mem_append, List.mem_singleton] at hx
            tauto
          simpa [hxh] using e2 x hx2
      · simpa using hnd
      · simpa using hq.2.2.1
      · intro p hp
        simp only [setPrev_live, setNext_live, e5]
        exact hq.2.2.2 p (by simpa using hp)
    · simp [e4]
    · simp [e5]

/-- C7: on a well-formed queue `q_reverse` terminates and leaves the same
nodes in the reverse order; no payload changes and nothing is allocated or
released, so the payload sequence is reversed. -/
theorem q_reverse_spec (h : Heap) (head : Ptr) (xs : List Ptr) (fuel : Nat)
    (hq : IsQueue h head xs) (hf : xs.length < fuel) :
    ∃ h1, q_reverse fuel h head = some h1 ∧ IsQueue h1 head xs.reverse ∧
      h1.value = h.value ∧ h1.live = h.live ∧
      payloads h1 xs.reverse = (payloads h xs).reverse := by
  obtain ⟨h1, e1, e2, e3, e4⟩ := q_reverse_run hq hf
  exact ⟨h1, e1, e2, e3, e4, by simp [payloads, e3, List.map_reverse]⟩

/-! ## Swapping pairs -/

/-- The successor of the last node of `head :: l1` is the first node of
`l2 ++ [head]`. -/
theorem IsQueue.next_last {h : Heap} {head : Ptr} {l1 l2 : List Ptr}
    (hq : IsQueue h head (l1 ++ l2)) : h.next (l1.getLastD head) = l2.headD head := by
  rcases List.eq_nil_or_concat l1 with rfl | ⟨ys, x, hc⟩
  · simpa using hq.head_links.1
  · rw [List.concat_eq_append] at hc
    subst hc
    have hq2 : IsQueue h head (ys ++ x :: l2) := by simpa using hq
    simpa using hq2.links.1

theorem q_swap_loop_spec {head : Ptr} (fuel : Nat) :
    ∀ (h : Heap) (l1 l2 : List Ptr) (node : Ptr), IsQueue h head (l1 ++ l2) →
      node = l1.getLastD head → l2.length < fuel →
      ∃ h1, q_swap_loop fuel h head node = some h1 ∧
        IsQueue h1 head (l1 ++ swap_pairs l2) ∧ h1.value = h.value ∧ h1.live = h.live := by
  induction fuel with
  | zero => intro h l1 l2 _ _ _ hf; simp at hf
  | succ fuel ih =>
    intro h l1 l2 node hq hnode hf
    have hn : h.next node = l2.headD head := by rw [hnode]; exact hq.next_last
    match l2, hq, hf, hn with
    | [], hq, _, hn =>
      refine ⟨h, ?_, by simpa [swap_pairs] using hq, rfl, rfl⟩
      simp only [List.headD_nil] at hn
      simp [q_swap_loop, hn]
    | [a], hq, _, hn =>
      refine ⟨h, ?_, by simpa [swap_pairs] using hq, rfl, rfl⟩
      simp only [List.headD_cons] at hn
      have ha : h.next a = head := by simpa using hq.links.1
      simp [q_swap_loop, hn, ha]
    | a :: b :: r, hq, hf, hn =>
      simp only [List.headD_cons] at hn
      have hab : h.next a = b := by simpa using hq.links.1
      have ha : a ≠ head := hq.mem_ne_head (by simp)
      have hb : b ≠ head := hq.mem_ne_head (by simp)
      have hq1 : IsQueue h head ((l1 ++ [a]) ++ b :: r) := by simpa using hq
      have hq2 : IsQueue (list_del h b) head (l1 ++ a :: r) := by simpa using hq1.del
      have hn2 : (list_del h b).next node = a := by
        rw [hnode]; exact hq2.next_last
      have hbn : b ∉ head :: (l1 ++ a :: r) := by
        have hnd := hq.2.1
        have hp : (head :: (l1 ++ a :: b :: r)).Perm (b :: head :: (l1 ++ a :: r)) := by
          refine (List.Perm.cons head ?_).trans (List.Perm.swap _ _ _)
          have : l1 ++ a :: b :: r = (l1 ++ [a]) ++ b :: r := by simp
          rw [this]
          refine List.perm_middle.trans ?_
          simp
        exact (List.nodup_cons.1 (hp.nodup_iff.1 hnd)).1
      have hq3 := IsQueue.insert hq2 hbn (hq.mem_ne_zero (by simp))
        (by simpa [list_del] using hq.2.2.2 b (by simp))
      rw [← hnode, List.headD_cons] at hq3
      have hadd : list_add (list_del h b) b node =
          list_insert_between (list_del h b) b node a := by
        unfold list_add; rw [hn2]
      rw [← hadd] at hq3
      have hq4 : IsQueue (list_add (list_del h b) b node) head
          ((l1 ++ [b, a]) ++ r) := by simpa using hq3
      have hnode2 : (list_add (list_del h b) b node).next
          ((list_add (list_del h b) b node).next node) = a := by
        have h1 := hq3.next_last
        rw [← hnode, List.headD_cons] at h1
        have hq5 : IsQueue (list_add (list_del h b) b node) head
            ((l1 ++ [b]) ++ a :: r) := by simpa using hq3
        have h2 := hq5.next_last
        rw [List.getLastD_concat, List.headD_cons] at h2
        rw [h1, h2]
      have hlast : a = (l1 ++ [b, a]).getLastD head := by
        have : l1 ++ [b, a] = (l1 ++ [b]) ++ [a] := by simp
        rw [this, List.getLastD_concat]
      obtain ⟨h1, e1, e2, e3, e4⟩ := ih _ (l1 ++ [b, a]) r a hq4 hlast
        (by simp only [List.length_cons] at hf; omega)
      refine ⟨h1, ?_, by simpa [swap_pairs] using e2, ?_, ?_⟩
      · simp only [q_swap_loop, hn, hab, ne_eq, ha, hb, not_false_eq_true, and_self, if_true]
        rw [hnode2]; exact e1
      · rw [e3]; rfl
      · rw [e4]; rfl

theorem swap_pairs_length (l : List Ptr) : (swap_pairs l).length = l.length := by
  induction l using swap_pairs.induct with
  | case1 a b l ih => simp [swap_pairs, ih]
  | case2 l h => 
    unfold swap_pairs
    split
    · exact absurd rfl (h _ _ _)
    · rfl

theorem swap_pairs_get (l : List Ptr) :
    ∀ i, 2 * i + 1 < l.length →
      (swap_pairs l)[2 * i]? = l[2 * i + 1]? ∧ (swap_pairs l)[2 * i + 1]? = l[2 * i]? := by
  induction l using swap_pairs.induct with
  | case1 a b l ih =>
    intro i hi
    cases i with
    | zero => simp [swap_pairs]
    | succ i =>
      have := ih i (by simp only [List.length_cons] at hi; omega)
      have e1 : 2 * (i + 1) = (2 * i + 1) + 1 := by ring
      have e2 : 2 * (i + 1) + 1 = ((2 * i + 1) + 1) + 1 := by ring
      rw [e2, e1]
      simp only [swap_pairs, List.getElem?_cons_succ]
      exact this
  | case2 l h =>
    intro i hi
    match l, h, hi with
    | [], _, hi => simp at hi
    | [a], _, hi => simp at hi
    | a :: b :: l, h, _ => exact absurd rfl (h a b l)

theorem swap_pairs_last (l : List Ptr) (hodd : l.length % 2 = 1) :
    (swap_pairs l)[l.length - 1]? = l[l.length - 1]? := by
  induction l using swap_pairs.induct with
  | case1 a b l ih =>
    simp only [List.length_cons] at hodd ⊢
    have hl : l.length % 2 = 1 := by omega
    have hpos : 0 < l.length := by omega
    have e : l.length + 1 + 1 - 1 = (l.length - 1) + 1 + 1 := by omega
    rw [e]
    simp only [swap_pairs, List.getElem?_cons_succ]
    exact ih hl
  | case2 l h =>
    unfold swap_pairs
    split
    · exact absurd rfl (h _ _ _)
    · rfl

/-- On a well-formed queue `q_swap` terminates and leaves the nodes with every
pair exchanged, with payloads and allocations untouched. -/
theorem q_swap_run {h : Heap} {head : Ptr} {xs : List Ptr} {fuel : Nat}
    (hq : IsQueue h head xs) (hf : xs.length < fuel) :
    ∃ h1, q_swap fuel h head = some h1 ∧ IsQueue h1 head (swap_pairs xs) ∧
      h1.value = h.value ∧ h1.live = h.live := by
  by_cases hxs : xs = []
  · subst hxs
    refine ⟨h, ?_, hq, rfl, rfl⟩
    simp [q_swap, hq.list_empty_iff]
  · have hne : ¬ (list_empty h head = true) := by rw [hq.list_empty_iff]; exact hxs
    have hq2 : IsQueue h head ([] ++ xs) := hq
    obtain ⟨h1, e1, e2, e3, e4⟩ := q_swap_loop_spec fuel h [] xs head hq2 rfl hf
    refine ⟨h1, ?_, by simpa using e2, e3, e4⟩
    simp [q_swap, hq.head_ne_zero, hne, e1]

/-- C10: on a well-formed queue `q_swap` terminates and leaves the nodes with
every pair exchanged: the nodes at positions `2i` and `2i+1` change places for
every `2i+1 < n`, a last node at an odd length stays, and the nodes are
relinked, not copied (same addresses, payloads and allocations untouched). -/
theorem q_swap_spec (h : Heap) (head : Ptr) (xs : List Ptr) (fuel : Nat)
    (hq : IsQueue h head xs) (hf : xs.length < fuel) :
    ∃ h1, q_swap fuel h head = some h1 ∧ IsQueue h1 head (swap_pairs xs) ∧
      h1.value = h.value ∧ h1.live = h.live ∧
      (swap_pairs xs).length = xs.length ∧
      (∀ i, 2 * i + 1 < xs.length →
        (swap_pairs xs)[2 * i]? = xs[2 * i + 1]? ∧ (swap_pairs xs)[2 * i + 1]? = xs[2 * i]?) ∧
      (xs.length % 2 = 1 → (swap_pairs xs)[xs.length - 1]? = xs[xs.length - 1]?) := by
  obtain ⟨h1, e1, e2, e3, e4⟩ := q_swap_run hq hf
  exact ⟨h1, e1, e2, e3, e4, swap_pairs_length xs, swap_pairs_get xs, swap_pairs_last xs⟩

/-! ## Deleting the middle -/

/-- The node at position `i` of the cycle, counted from the first element; the
sentinel from position `n` on. -/
theorem IsQueue.next_drop {h : Heap} {head : Ptr} {xs : List Ptr} (hq : IsQueue h head xs)
    {i : Nat} (hi : i < xs.length) :
    (xs.drop i).headD head ∈ xs ∧
      h.next ((xs.drop i).headD head) = (xs.drop (i + 1)).headD head := by
  have e : xs.drop i = xs[i] :: xs.drop (i + 1) := List.drop_eq_getElem_cons hi
  have e2 : xs = xs.take i ++ xs[i] :: xs.drop (i + 1) := by
    rw [← e, List.take_append_drop]
  have hq2 : IsQueue h head (xs.take i ++ xs[i] :: xs.drop (i + 1)) := by
    rw [← e2]; exact hq
  rw [e, List.headD_cons]
  exact ⟨List.getElem_mem _, hq2.links.1⟩

theorem q_delete_mid_loop_spec {h : Heap} {head : Ptr} {xs : List Ptr}
    (hq : IsQueue h head xs) (hne : xs ≠ []) (fuel : Nat) :
    ∀ k, 2 * k ≤ xs.length → xs.length - 2 * k < fuel →
      q_delete_mid_loop fuel h head ((xs.drop k).headD head) ((xs.drop (2 * k)).headD head) =
        some ((xs.drop (xs.length / 2)).headD head) := by
  have hpos : 0 < xs.length := List.length_pos.2 hne
  induction fuel with
  | zero => intro k _ hf; simp at hf
  | succ fuel ih =>
    intro k hk hf
    have hslow := hq.next_drop (show k < xs.length by omega)
    have hs : (xs.drop k).headD head ≠ head := hq.mem_ne_head hslow.1
    unfold q_delete_mid_loop
    rw [if_neg hs]
    by_cases h1 : 2 * k = xs.length
    · have : (xs.drop (2 * k)).headD head = head := by
        rw [h1, List.drop_length]; rfl
      rw [if_pos (Or.inl this)]
      congr 3
      omega
    · have hfast := hq.next_drop (show 2 * k < xs.length by omega)
      have hf1 : (xs.drop (2 * k)).headD head ≠ head := hq.mem_ne_head hfast.1
      by_cases h2 : 2 * k + 1 = xs.length
      · have : h.next ((xs.drop (2 * k)).headD head) = head := by
          rw [hfast.2, h2, List.drop_length]; rfl
        rw [if_pos (Or.inr this)]
        congr 3
        omega
      · have hfast2 := hq.next_drop (show 2 * k + 1 < xs.length by omega)
        have hf2 : h.next ((xs.drop (2 * k)).headD head) ≠ head := by
          rw [hfast.2]; exact hq.mem_ne_head hfast2.1
        rw [if_neg (not_or.2 ⟨hf1, hf2⟩)]
        rw [hslow.2, hfast.2, hfast2.2]
        have := ih (k + 1) (by omega) (by omega)
        have e : 2 * (k + 1) = 2 * k + 1 + 1 := by ring
        rw [e] at this
        exact this

theorem IsQueue.free {h : Heap} {head : Ptr} {xs : List Ptr} {x : Ptr}
    (hq : IsQueue h head xs) (hx : x ∉ head :: xs) : IsQueue (q_release_element h x) head xs := by
  refine hq.frame rfl rfl ?_
  intro p hp
  have : p ≠ x := by rintro rfl; exact hx hp
  simpa [q_release_element, List.mem_erase_of_ne this] using hq.2.2.2 p hp

/-- Unlinking and releasing an element of a well-formed queue. -/
theorem IsQueue.del_free {h : Heap} {head : Ptr} {l1 l2 : List Ptr} {x : Ptr}
    (hq : IsQueue h head (l1 ++ x :: l2)) :
    IsQueue (q_release_element (list_del h x) x) head (l1 ++ l2) := by
  refine hq.del.free ?_
  have hnd := hq.2.1
  have hp : (head :: (l1 ++ x :: l2)).Perm (x :: head :: (l1 ++ l2)) :=
    (List.Perm.cons head List.perm_middle).trans (List.Perm.swap _ _ _)
  exact (List.nodup_cons.1 (hp.nodup_iff.1 hnd)).1

/-- On a well-formed queue `q_delete_mid` returns false on an empty queue and
otherwise unlinks and releases the node at index `n / 2`. -/
theorem q_delete_mid_run {h : Heap} {head : Ptr} {xs : List Ptr} {fuel : Nat}
    (hq : IsQueue h head xs) (hf : xs.length < fuel) :
    (xs = [] → q_delete_mid fuel h head = some (h, false)) ∧
    (xs ≠ [] → ∃ h1 m, q_delete_mid fuel h head = some (h1, true) ∧
      xs[xs.length / 2]? = some m ∧
      IsQueue h1 head (xs.eraseIdx (xs.length / 2)) ∧
      h1.value = h.value ∧ h1.live = h.live.erase m) := by
  constructor
  · intro hxs
    subst hxs
    simp [q_delete_mid, hq.list_empty_iff]
  · intro hxs
    have hne : ¬ (list_empty h head = true) := by rw [hq.list_empty_iff]; exact hxs
    have hpos : 0 < xs.length := List.length_pos.2 hxs
    have hmid : xs.length / 2 < xs.length := Nat.div_lt_self hpos (by decide)
    have hloop := q_delete_mid_loop_spec hq hxs fuel 0 (by omega) (by omega)
    simp only [Nat.mul_zero, List.drop_zero] at hloop
    rw [← hq.head_links.1] at hloop
    have e : xs.drop (xs.length / 2) = xs[xs.length / 2] :: xs.drop (xs.length / 2 + 1) :=
      List.drop_eq_getElem_cons hmid
    rw [e, List.headD_cons] at hloop
    have hq2 : IsQueue h head
        (xs.take (xs.length / 2) ++ xs[xs.length / 2] :: xs.drop (xs.length / 2 + 1)) := by
      rw [← e, List.take_append_drop]; exact hq
    refine ⟨q_release_element (list_del h xs[xs.length / 2]) xs[xs.length / 2],
      xs[xs.length / 2], ?_, ?_, ?_, rfl, rfl⟩
    · unfold q_delete_mid
      rw [if_neg (by simp [hq.head_ne_zero, hne]), hloop]
    · exact List.getElem?_eq_getElem hmid
    · rw [List.eraseIdx_eq_take_drop_succ]
      exact hq2.del_free

/-- C9: on a well-formed queue `q_delete_mid` fails exactly when the queue is
empty, leaving it unchanged; on `n ≥ 1` elements it returns true and unlinks
and releases the element at 0-based index `n / 2`, leaving the others in
their order with their payloads. -/
theorem q_delete_mid_spec (h : Heap) (head : Ptr) (xs : List Ptr) (fuel : Nat)
    (hq : IsQueue h head xs) (hf : xs.length < fuel) :
    (xs = [] → q_delete_mid fuel h head = some (h, false)) ∧
    (xs ≠ [] → ∃ h1 m, q_delete_mid fuel h head = some (h1, true) ∧
      xs[xs.length / 2]? = some m ∧
      IsQueue h1 head (xs.eraseIdx (xs.length / 2)) ∧
      h1.value = h.value ∧ h1.live = h.live.erase m) := by
  exact q_delete_mid_run hq hf

/-! ## Deleting duplicates -/

theorem prev_bytes_congr {h h1 : Heap} (hv : h1.value = h.value) (pv : Option Ptr) :
    prev_bytes h1 pv = prev_bytes h pv := by
  cases pv <;> simp [prev_bytes, hv]

theorem dedup_from_congr {h h1 : Heap} (hv : h1.value = h.value) (l : List Ptr) :
    ∀ pv, dedup_from h1 pv l = dedup_from h pv l := by
  induction l with
  | nil => intro pv; rfl
  | cons x l ih => intro pv; simp [dedup_from, prev_bytes_congr hv, hv, ih]

theorem dups_from_congr {h h1 : Heap} (hv : h1.value = h.value) (l : List Ptr) :
    ∀ pv, dups_from h1 pv l = dups_from h pv l := by
  induction l with
  | nil => intro pv; rfl
  | cons x l ih => intro pv; simp [dups_from, prev_bytes_congr hv, hv, ih]

theorem q_delete_dup_loop_spec {head : Ptr} (l2 : List Ptr) :
    ∀ (h : Heap) (l1 : List Ptr) (pv : Option Ptr) (fuel : Nat),
      IsQueue h head (l1 ++ l2) → l2.length < fuel →
      ∃ h1, q_delete_dup_loop fuel h head (l2.headD head) (h.next (l2.headD head)) pv =
          some h1 ∧
        IsQueue h1 head (l1 ++ dedup_from h pv l2) ∧ h1.value = h.value ∧
        h1.live = h.live.diff (dups_from h pv l2) := by
  induction l2 with
  | nil =>
    intro h l1 pv fuel hq hf
    cases fuel with
    | zero => simp at hf
    | succ fuel => exact ⟨h, by simp [q_delete_dup_loop], by simpa [dedup_from] using hq, rfl, rfl⟩
  | cons x l2 ih =>
    intro h l1 pv fuel hq hf
    cases fuel with
    | zero => simp at hf
    | succ fuel =>
      have hx : x ≠ head := hq.mem_ne_head (by simp)
      have hnx : h.next x = l2.headD head := hq.links.1
      simp only [List.headD_cons, q_delete_dup_loop, if_neg hx, hnx]
      by_cases hc : strcmp (prev_bytes h pv) (h.value x) = 0
      · have hq2 : IsQueue (q_release_element (list_del h x) x) head (l1 ++ l2) := hq.del_free
        obtain ⟨h1, e1, e2, e3, e4⟩ := ih _ l1 pv fuel hq2 (by simpa using hf)
        have hv : (q_release_element (list_del h x) x).value = h.value := rfl
        rw [dedup_from_congr hv] at e2
        rw [dups_from_congr hv] at e4
        refine ⟨h1, ?_, ?_, ?_, ?_⟩
        · rw [if_pos hc]; exact e1
        · simpa [dedup_from, hc] using e2
        · rw [e3]; rfl
        · rw [e4]; simp [dups_from, hc, q_release_element, list_del]
      · have hq2 : IsQueue h head ((l1 ++ [x]) ++ l2) := by simpa using hq
        obtain ⟨h1, e1, e2, e3, e4⟩ := ih h (l1 ++ [x]) (some x) fuel hq2 (by simpa using hf)
        refine ⟨h1, ?_, ?_, e3, ?_⟩
        · rw [if_neg hc]; exact e1
        · simpa [dedup_from, hc] using e2
        · rw [e4]; simp [dups_from, hc]

/-- On a well-formed queue `q_delete_dup` terminates, returns true and leaves
the nodes its traversal retains; the others are released. -/
theorem q_delete_dup_run {h : Heap} {head : Ptr} {xs : List Ptr} {fuel : Nat}
    (hq : IsQueue h head xs) (hf : xs.length < fuel) :
    ∃ h1, q_delete_dup fuel h head = some (h1, true) ∧
      IsQueue h1 head (dedup_from h none xs) ∧ h1.value = h.value ∧
      h1.live = h.live.diff (dups_from h none xs) := by
  have hq2 : IsQueue h head ([] ++ xs) := hq
  obtain ⟨h1, e1, e2, e3, e4⟩ := q_delete_dup_loop_spec xs h [] none fuel hq2 hf
  rw [← hq.head_links.1] at e1
  refine ⟨h1, ?_, by simpa using e2, e3, e4⟩
  simp [q_delete_dup, hq.head_ne_zero, e1]

/-! ## The order of `strcmp` -/

theorem strcmp_antisymm (a : List Nat) : ∀ b, strcmp b a = - strcmp a b := by
  induction a with
  | nil =>
    intro b
    cases b with
    | nil => simp [strcmp]
    | cons y ys => simp [strcmp]
  | cons x xs ih =>
    intro b
    cases b with
    | nil => simp [strcmp]
    | cons y ys =>
      simp only [strcmp]
      by_cases hxy : x = y
      · subst hxy
        by_cases hx : x = 0
        · simp [hx]
        · simp [hx, ih ys]
      · have hyx : ¬ y = x := fun h => hxy h.symm
        simp [hxy, hyx]

theorem strcmp_trans (a : List Nat) :
    ∀ b c, strcmp a b ≤ 0 → strcmp b c ≤ 0 → strcmp a c ≤ 0 := by
  induction a with
  | nil =>
    intro b c _ _
    cases c with
    | nil => simp [strcmp]
    | cons z zs => simp [strcmp]
  | cons x xs ih =>
    intro b c hab hbc
    cases b with
    | nil =>
      simp only [strcmp] at hab
      have hx : x = 0 := by omega
      cases c with
      | nil => simp [strcmp, hx]
      | cons z zs =>
        simp only [strcmp]
        subst hx
        by_cases hz : 0 = z
        · simp [hz]
        · simp [hz]
    | cons y ys =>
      cases c with
      | nil =>
        simp only [strcmp] at hbc hab ⊢
        have hy : y = 0 := by omega
        subst hy
        by_cases hx : x = 0
        · simp [hx]
        · simp [hx] at hab
      | cons z zs =>
        simp only [strcmp] at hab hbc ⊢
        by_cases hxy : x = y
        · subst hxy
          by_cases hxz : x = z
          · subst hxz
            by_cases hx : x = 0
            · simp [hx]
            · simp only [if_true, hx, if_false] at hab hbc ⊢
              exact ih ys zs hab hbc
          · simpa [hxz] using hbc
        · by_cases hyz : y = z
          · subst hyz
            simpa [hxy] using hab
          · simp only [hxy, hyz, if_false] at hab hbc
            have hxz : x ≠ z := by omega
            simp only [hxz, if_false]
            omega

theorem node_le_iff (h : Heap) (a b : Ptr) :
    node_le h a b = true ↔ strcmp (h.value a) (h.value b) ≤ 0 := by
  simp [node_le]

theorem node_le_trans (h : Heap) (a b c : Ptr) :
    node_le h a b = true → node_le h b c = true → node_le h a c = true := by
  simp only [node_le_iff]
  exact strcmp_trans _ _ _

theorem node_le_total (h : Heap) (a b : Ptr) : (node_le h a b || node_le h b a) = true := by
  simp only [Bool.or_eq_true, node_le_iff]
  rw [strcmp_antisymm (h.value a) (h.value b)]
  omega

theorem node_le_congr {h h1 : Heap} (hv : h1.value = h.value) : node_le h1 = node_le h := by
  funext a b; simp [node_le, hv]

/-! ## Merging -/

theorem merge_eq (fuel : Nat) (h : Heap) (l1 l2 : Ptr) :
    merge fuel h l1 l2 =
      (merge_loop fuel ⟨h, 0, none, l1, l2⟩).map
        (fun s => ((merge_finish s).heap, (merge_finish s).head)) := by
  unfold merge
  cases merge_loop fuel ⟨h, 0, none, l1, l2⟩ <;> rfl

theorem NextPath.next_head {h : Heap} {x : Ptr} {l : List Ptr} {e : Ptr}
    (hp : NextPath h (x :: l ++ [e])) : h.next x = l.headD e := by
  cases l with
  | nil => exact hp.1
  | cons b l => exact hp.1

theorem merge_finish_right (h : Heap) (hd : Ptr) (ind : Option Ptr) {y : Ptr} (hy : y ≠ 0) :
    merge_finish ⟨h, hd, ind, 0, y⟩ = MergeState.store ⟨h, hd, ind, 0, y⟩ y := by
  simp [merge_finish, hy]

theorem merge_finish_left (h : Heap) (hd : Ptr) (ind : Option Ptr) {x : Ptr} (hx : x ≠ 0) :
    merge_finish ⟨h, hd, ind, x, 0⟩ = MergeState.store ⟨h, hd, ind, x, 0⟩ x := by
  have e : (MergeState.store ⟨h, hd, ind, x, 0⟩ x).l2 = 0 := by
    cases ind <;> rfl
  simp [merge_finish, hx, e]

/-- Storing the head of a linked list through `indirect`, which does not point
into the list. -/
theorem store_post (h : Heap) (hd : Ptr) (ind : Option Ptr) (a b v : Ptr) (l : List Ptr)
    (hp : NextPath h (v :: l ++ [0])) (hind : ∀ c, ind = some c → c ∉ v :: l) :
    read_cell ind (MergeState.store ⟨h, hd, ind, a, b⟩ v).heap
        (MergeState.store ⟨h, hd, ind, a, b⟩ v).head = v ∧
      NextPath (MergeState.store ⟨h, hd, ind, a, b⟩ v).heap (v :: l ++ [0]) ∧
      (∀ c, ind ≠ some c → (MergeState.store ⟨h, hd, ind, a, b⟩ v).heap.next c = h.next c) ∧
      (ind ≠ none → (MergeState.store ⟨h, hd, ind, a, b⟩ v).head = hd) ∧
      (MergeState.store ⟨h, hd, ind, a, b⟩ v).heap.prev = h.prev ∧
      (MergeState.store ⟨h, hd, ind, a, b⟩ v).heap.value = h.value ∧
      (MergeState.store ⟨h, hd, ind, a, b⟩ v).heap.live = h.live := by
  cases ind with
  | none =>
    exact ⟨rfl, hp, fun _ _ => rfl, fun hc => absurd rfl hc, rfl, rfl, rfl⟩
  | some c =>
    have hc := hind c rfl
    refine ⟨by simp [MergeState.store, read_cell], ?_, ?_, fun _ => rfl, rfl, rfl, rfl⟩
    · refine NextPath.path_frame ?_ hp
      intro x hx
      have hxc : x ≠ c := by
        rintro rfl
        have e : v :: l ++ [0] = (v :: l) ++ [0] := rfl
        rw [e, List.dropLast_concat] at hx
        exact hc hx
      simp [MergeState.store, hxc]
    · intro d hd2
      have : d ≠ c := fun e => hd2 (by rw [e])
      simp [MergeState.store, this]

/-- One iteration of the loop of `merge` that takes the node of `l2`. -/
theorem merge_loop_step_right {h : Heap} (hd : Ptr) (ind : Option Ptr) {x y : Ptr} (fuel : Nat)
    (hx0 : x ≠ 0) (hy0 : y ≠ 0) (hc : strcmp (h.value x) (h.value y) > 0)
    (hind : ind ≠ some y) :
    merge_loop (fuel + 1) ⟨h, hd, ind, x, y⟩ =
      merge_loop fuel ⟨(MergeState.store ⟨h, hd, ind, x, y⟩ y).heap,
        (MergeState.store ⟨h, hd, ind, x, y⟩ y).head, some y, x, h.next y⟩ := by
  rw [merge_loop]
  simp only [ne_eq, hx0, hy0, not_false_eq_true, and_self, if_true, hc]
  congr 1
  cases ind with
  | none => simp [MergeState.store, MergeState.load]
  | some c =>
    have hyc : y ≠ c := fun e => hind (by rw [e])
    simp [MergeState.store, MergeState.load, hyc]

/-- One iteration of the loop of `merge` that takes the node of `l1`. -/
theorem merge_loop_step_left {h : Heap} (hd : Ptr) (ind : Option Ptr) {x y : Ptr} (fuel : Nat)
    (hx0 : x ≠ 0) (hy0 : y ≠ 0) (hc : ¬ strcmp (h.value x) (h.value y) > 0)
    (hind : ind ≠ some x) :
    merge_loop (fuel + 1) ⟨h, hd, ind, x, y⟩ =
      merge_loop fuel ⟨(MergeState.store ⟨h, hd, ind, x, y⟩ x).heap,
        (MergeState.store ⟨h, hd, ind, x, y⟩ x).head, some x, h.next x, y⟩ := by
  rw [merge_loop]
  simp only [ne_eq, hx0, hy0, not_false_eq_true, and_self, if_true, hc, if_false]
  congr 1
  cases ind with
  | none => simp [MergeState.store, MergeState.load]
  | some c =>
    have hxc : x ≠ c := fun e => hind (by rw [e])
    simp [MergeState.store, MergeState.load, hxc]

/-- The state after the rest of the merge, seen from the cell the first node
was stored through. -/
theorem chain_post {h h1 : Heap} {hd hd1 : Ptr} {ind : Option Ptr} {v : Ptr}
    {L M : List Ptr} {sf : MergeState}
    (a1 : read_cell ind h1 hd1 = v)
    (a3 : ∀ c, ind ≠ some c → h1.next c = h.next c)
    (a4 : ind ≠ none → hd1 = hd)
    (b2 : read_cell (some v) sf.heap sf.head = M.headD 0)
    (b3 : NextPath sf.heap (M ++ [0]))
    (b4 : ∀ c, c ∉ L → some v ≠ some c → sf.heap.next c = h1.next c)
    (b5 : sf.head = hd1)
    (hM : M ≠ [])
    (hind : ∀ c, ind = some c → c ∉ v :: L) :
    read_cell ind sf.heap sf.head = v ∧ NextPath sf.heap (v :: M ++ [0]) ∧
      (∀ c, c ∉ v :: L → ind ≠ some c → sf.heap.next c = h.next c) ∧
      (ind ≠ none → sf.head = hd) := by
  refine ⟨?_, ?_, ?_, ?_⟩
  · cases ind with
    | none => simp only [read_cell] at a1 ⊢; rw [b5]; exact a1
    | some c =>
      have hc := hind c rfl
      simp only [List.mem_cons, not_or] at hc
      simp only [read_cell] at a1 ⊢
      rw [b4 c hc.2 (by intro e; cases e; exact hc.1 rfl)]
      exact a1
  · obtain ⟨m, ms, hms⟩ := List.exists_cons_of_ne_nil hM
    rw [hms] at b2 b3 ⊢
    simp only [read_cell, List.headD_cons] at b2
    exact ⟨b2, b3⟩
  · intro c hc1 hc2
    simp only [List.mem_cons, not_or] at hc1
    rw [b4 c hc1.2 (by intro e; cases e; exact hc1.1 rfl)]
    exact a3 c hc2
  · intro hi
    rw [b5]; exact a4 hi

theorem merge_loop_spec (fuel : Nat) :
    ∀ (h : Heap) (hd : Ptr) (ind : Option Ptr) (xs ys : List Ptr),
      NextPath h (xs ++ [0]) → NextPath h (ys ++ [0]) →
      (xs ++ ys).Nodup → 0 ∉ xs ++ ys →
      (∀ c, ind = some c → c ∉ xs ++ ys) →
      (xs ≠ [] ∨ ys ≠ []) →
      xs.length + ys.length ≤ fuel →
      ∃ s1, merge_loop fuel ⟨h, hd, ind, xs.headD 0, ys.headD 0⟩ = some s1 ∧
        read_cell ind (merge_finish s1).heap (merge_finish s1).head =
          (List.merge xs ys (node_le h)).headD 0 ∧
        NextPath (merge_finish s1).heap (List.merge xs ys (node_le h) ++ [0]) ∧
        (∀ c, c ∉ xs ++ ys → ind ≠ some c → (merge_finish s1).heap.next c = h.next c) ∧
        (ind ≠ none → (merge_finish s1).head = hd) ∧
        (merge_finish s1).heap.prev = h.prev ∧
        (merge_finish s1).heap.value = h.value ∧
        (merge_finish s1).heap.live = h.live := by
  induction fuel with
  | zero =>
    intro h hd ind xs ys _ _ _ _ _ hne hf
    have h1 : xs = [] := List.length_eq_zero.1 (by omega)
    have h2 : ys = [] := List.length_eq_zero.1 (by omega)
    rcases hne with h | h
    · exact absurd h1 h
    · exact absurd h2 h
  | succ fuel ih =>
    intro h hd ind xs ys hpx hpy hnd h0 hind hne hf
    cases xs with
    | nil =>
      cases ys with
      | nil => simp at hne
      | cons y ys =>
        have hy0 : y ≠ 0 := by rintro rfl; exact h0 (by simp)
        refine ⟨⟨h, hd, ind, 0, y⟩, by simp [merge_loop], ?_⟩
        rw [merge_finish_right h hd ind hy0, List.nil_merge, List.headD_cons]
        obtain ⟨a1, a2, a3, a4, a5, a6, a7⟩ := store_post h hd ind 0 y y ys hpy
          (fun c hc => by simpa using hind c hc)
        exact ⟨a1, a2, fun c _ hc => a3 c hc, a4, a5, a6, a7⟩
    | cons x xs =>
      have hx0 : x ≠ 0 := by rintro rfl; exact h0 (by simp)
      cases ys with
      | nil =>
        refine ⟨⟨h, hd, ind, x, 0⟩, by simp [merge_loop], ?_⟩
        rw [merge_finish_left h hd ind hx0, List.merge_right, List.headD_cons]
        obtain ⟨a1, a2, a3, a4, a5, a6, a7⟩ := store_post h hd ind x 0 x xs hpx
          (fun c hc => by simpa using hind c hc)
        exact ⟨a1, a2, fun c _ hc => a3 c hc, a4, a5, a6, a7⟩
      | cons y ys =>
        have hy0 : y ≠ 0 := by rintro rfl; exact h0 (by simp)
        have hnx : h.next x = xs.headD 0 := NextPath.next_head hpx
        have hny : h.next y = ys.headD 0 := NextPath.next_head hpy
        have hix : ind ≠ some x := fun e => hind x e (by simp)
        have hiy : ind ≠ some y := fun e => hind y e (by simp)
        have hsub : ∀ c, c ∈ (x :: xs) ++ ys → c ∈ (x :: xs) ++ y :: ys := by
          intro c hc
          rcases List.mem_append.1 hc with h1 | h1
          · exact List.mem_append_left _ h1
          · exact List.mem_append_right _ (List.mem_cons_of_mem _ h1)
        simp only [List.headD_cons]
        by_cases hc : strcmp (h.value x) (h.value y) > 0
        · -- the node of `l2` goes first
          have hm : List.merge (x :: xs) (y :: ys) (node_le h) =
              y :: List.merge (x :: xs) ys (node_le h) := by
            have hle : node_le h x y = false := by simp [node_le, hc]
            rw [List.merge]; simp [hle]
          have hp : ((x :: xs) ++ y :: ys).Perm (y :: ((x :: xs) ++ ys)) := List.perm_middle
          have hnd1 := hp.nodup_iff.1 hnd
          obtain ⟨a1, a2, a3, a4, a5, a6, a7⟩ := store_post h hd ind x y y ys hpy
            (fun c hc hm0 => hind c hc (List.mem_append_right _ hm0))
          have hpx2 : NextPath (MergeState.store ⟨h, hd, ind, x, y⟩ y).heap (x :: xs ++ [0]) := by
            refine NextPath.path_frame ?_ hpx
            intro c hc
            have e : x :: xs ++ [0] = (x :: xs) ++ [0] := rfl
            rw [e, List.dropLast_concat] at hc
            exact a3 c (fun e => hind c e (List.mem_append_left _ hc))
          obtain ⟨s1, b1, b2, b3, b4, b5, b6, b7, b8⟩ :=
            ih (MergeState.store ⟨h, hd, ind, x, y⟩ y).heap
              (MergeState.store ⟨h, hd, ind, x, y⟩ y).head (some y) (x :: xs) ys hpx2
              (NextPath.tail a2) (List.nodup_cons.1 hnd1).2 (fun hm0 => h0 (hsub 0 hm0))
              (fun c hc => by cases hc; exact (List.nodup_cons.1 hnd1).1) (Or.inl (by simp))
              (by simp only [List.length_cons] at hf ⊢; omega)
          rw [node_le_congr a6] at b2 b3
          have hne2 : List.merge (x :: xs) ys (node_le h) ≠ [] := by
            intro e
            have : x ∈ List.merge (x :: xs) ys (node_le h) :=
              List.mem_merge_left _ (List.mem_cons_self x xs)
            rw [e] at this; exact List.not_mem_nil _ this
          obtain ⟨c1, c2, c3, c4⟩ := chain_post a1 a3 a4 b2 b3 b4 (b5 (by simp)) hne2
            (fun c hc hm0 => hind c hc (hp.mem_iff.2 hm0))
          refine ⟨s1, ?_, ?_, ?_, ?_, c4, ?_, ?_, ?_⟩
          · rw [merge_loop_step_right hd ind fuel hx0 hy0 hc hiy, hny]; exact b1
          · rw [hm, List.headD_cons]; exact c1
          · rw [hm]; exact c2
          · intro c hc1 hc2
            exact c3 c (fun hm0 => hc1 (hp.mem_iff.2 hm0)) hc2
          · rw [b6, a5]
          · rw [b7, a6]
          · rw [b8, a7]
        · -- the node of `l1` goes first
          have hm : List.merge (x :: xs) (y :: ys) (node_le h) =
              x :: List.merge xs (y :: ys) (node_le h) := by
            have hle : node_le h x y = true := by simp [node_le, hc]
            rw [List.merge]; simp [hle]
          have hnd1 : (x :: (xs ++ y :: ys)).Nodup := hnd
          obtain ⟨a1, a2, a3, a4, a5, a6, a7⟩ := store_post h hd ind x y x xs hpx
            (fun c hc hm0 => hind c hc (List.mem_append_left _ hm0))
          have hpy2 : NextPath (MergeState.store ⟨h, hd, ind, x, y⟩ x).heap (y :: ys ++ [0]) := by
            refine NextPath.path_frame ?_ hpy
            intro c hc
            have e : y :: ys ++ [0] = (y :: ys) ++ [0] := rfl
            rw [e, List.dropLast_concat] at hc
            exact a3 c (fun e => hind c e (List.mem_append_right _ hc))
          obtain ⟨s1, b1, b2, b3, b4, b5, b6, b7, b8⟩ :=
            ih (MergeState.store ⟨h, hd, ind, x, y⟩ x).heap
              (MergeState.store ⟨h, hd, ind, x, y⟩ x).head (some x) xs (y :: ys)
              (NextPath.tail a2) hpy2 (List.nodup_cons.1 hnd1).2
              (fun hm0 => h0 (List.mem_cons_of_mem _ hm0))
              (fun c hc => by cases hc; exact (List.nodup_cons.1 hnd1).1) (Or.inr (by simp))
              (by simp only [List.length_cons] at hf ⊢; omega)
          rw [node_le_congr a6] at b2 b3
          have hne2 : List.merge xs (y :: ys) (node_le h) ≠ [] := by
            intro e
            have : y ∈ List.merge xs (y :: ys) (node_le h) :=
              List.mem_merge_right _ (List.mem_cons_self y ys)
            rw [e] at this; exact List.not_mem_nil _ this
          obtain ⟨c1, c2, c3, c4⟩ := chain_post a1 a3 a4 b2 b3 b4 (b5 (by simp)) hne2
            (fun c hc hm0 => hind c hc hm0)
          refine ⟨s1, ?_, ?_, ?_, ?_, c4, ?_, ?_, ?_⟩
          · rw [merge_loop_step_left hd ind fuel hx0 hy0 hc hix, hnx]; exact b1
          · rw [hm, List.headD_cons]; exact c1
          · rw [hm]; exact c2
          · intro c hc1 hc2
            exact c3 c hc1 hc2
          · rw [b6, a5]
          · rw [b7, a6]
          · rw [b8, a7]

/-- `merge` on two disjoint null-terminated lists, at least one of them
non-empty: it terminates and relinks the nodes into the merged list. -/
theorem merge_spec {h : Heap} (xs ys : List Ptr) {fuel : Nat}
    (hpx : NextPath h (xs ++ [0])) (hpy : NextPath h (ys ++ [0]))
    (hnd : (xs ++ ys).Nodup) (h0 : 0 ∉ xs ++ ys) (hne : xs ≠ [] ∨ ys ≠ [])
    (hf : xs.length + ys.length ≤ fuel) :
    ∃ h1, merge fuel h (xs.headD 0) (ys.headD 0) =
        some (h1, (List.merge xs ys (node_le h)).headD 0) ∧
      NextPath h1 (List.merge xs ys (node_le h) ++ [0]) ∧
      (∀ c, c ∉ xs ++ ys → h1.next c = h.next c) ∧
      h1.prev = h.prev ∧ h1.value = h.value ∧ h1.live = h.live := by
  obtain ⟨s1, b1, b2, b3, b4, _, b6, b7, b8⟩ :=
    merge_loop_spec fuel h 0 none xs ys hpx hpy hnd h0 (fun c hc => by cases hc) hne hf
  refine ⟨(merge_finish s1).heap, ?_, b3, fun c hc => b4 c hc (by simp), b6, b7, b8⟩
  rw [merge_eq, b1]
  simp only [Option.map_some', Option.some.injEq, Prod.mk.injEq, true_and]
  exact b2

theorem nextPath_append_cons (h : Heap) (l1 : List Ptr) (a : Ptr) (l2 : List Ptr) :
    NextPath h (l1 ++ a :: l2) ↔ NextPath h (l1 ++ [a]) ∧ NextPath h (a :: l2) := by
  induction l1 with
  | nil => simp [NextPath]
  | cons x l1 ih =>
    cases l1 with
    | nil => simp [NextPath]
    | cons y l1 =>
      have ih1 := ih
      simp only [List.cons_append] at ih1 ⊢
      simp only [NextPath, ih1, and_assoc]

/-- In a null-terminated list the node at position `i` is followed by the node
at position `i + 1`, or by null at the end. -/
theorem NextPath.path_next_drop {h : Heap} {xs : List Ptr} (hp : NextPath h (xs ++ [0]))
    {i : Nat} (hi : i < xs.length) :
    (xs.drop i).headD 0 ∈ xs ∧ h.next ((xs.drop i).headD 0) = (xs.drop (i + 1)).headD 0 := by
  have e : xs.drop i = xs[i] :: xs.drop (i + 1) := List.drop_eq_getElem_cons hi
  have e2 : xs ++ [0] = xs.take i ++ xs[i] :: (xs.drop (i + 1) ++ [0]) := by
    rw [← List.cons_append, ← e, ← List.append_assoc, List.take_append_drop]
  rw [e2, nextPath_append_cons] at hp
  rw [e, List.headD_cons]
  exact ⟨List.getElem_mem _, NextPath.next_head hp.2⟩

theorem split_loop_spec {h : Heap} {xs : List Ptr} (hp : NextPath h (xs ++ [0]))
    (h0 : 0 ∉ xs) (fuel : Nat) :
    ∀ k, 2 * k + 1 ≤ xs.length → xs.length - 2 * k ≤ fuel →
      split_loop fuel h ((xs.drop k).headD 0) ((xs.drop (2 * k + 1)).headD 0) =
        some ((xs.drop ((xs.length - 1) / 2)).headD 0) := by
  have hnz : ∀ p, p ∈ xs → p ≠ 0 := by rintro p hp rfl; exact h0 hp
  induction fuel with
  | zero => intro k hk hf; omega
  | succ fuel ih =>
    intro k hk hf
    unfold split_loop
    by_cases h1 : 2 * k + 1 = xs.length
    · have : (xs.drop (2 * k + 1)).headD 0 = 0 := by
        rw [h1, List.drop_length]; rfl
      rw [if_neg (fun hc => hc.1 this)]
      congr 3
      omega
    · have hfast := hp.path_next_drop (show 2 * k + 1 < xs.length by omega)
      have hf1 : (xs.drop (2 * k + 1)).headD 0 ≠ 0 := hnz _ hfast.1
      by_cases h2 : 2 * k + 2 = xs.length
      · have : h.next ((xs.drop (2 * k + 1)).headD 0) = 0 := by
          rw [hfast.2, h2, List.drop_length]; rfl
        rw [if_neg (fun hc => hc.2 this)]
        congr 3
        omega
      · have hfast2 := hp.path_next_drop (show 2 * k + 1 + 1 < xs.length by omega)
        have hf2 : h.next ((xs.drop (2 * k + 1)).headD 0) ≠ 0 := by
          rw [hfast.2]; exact hnz _ hfast2.1
        have hslow := hp.path_next_drop (show k < xs.length by omega)
        rw [if_pos ⟨hf1, hf2⟩, hslow.2, hfast.2, hfast2.2]
        have := ih (k + 1) (by omega) (by omega)
        have e : 2 * (k + 1) + 1 = 2 * k + 1 + 1 + 1 := by ring
        rw [e] at this
        exact this

/-- Cutting a linked list after the node `s`. -/
theorem NextPath.cut {h : Heap} {l1 l2 : List Ptr} {s : Ptr} (e : Ptr)
    (hp : NextPath h (l1 ++ s :: l2)) (h1 : s ∉ l1) (h2 : s ∉ l2.dropLast) :
    NextPath (h.setNext s e) (l1 ++ [s, e]) ∧ NextPath (h.setNext s e) l2 := by
  rw [nextPath_append_cons] at hp
  constructor
  · rw [nextPath_append_cons]
    refine ⟨NextPath.path_frame ?_ hp.1, by simp [NextPath]⟩
    intro a ha
    rw [List.dropLast_concat] at ha
    have : a ≠ s := by rintro rfl; exact h1 ha
    simp [this]
  · refine NextPath.path_frame ?_ (NextPath.tail hp.2)
    intro a ha
    have : a ≠ s := by rintro rfl; exact h2 ha
    simp [this]

/-! ## Merge sort -/

theorem mergeSort_split (le : Ptr → Ptr → Bool) (xs : List Ptr) (hlen : 2 ≤ xs.length) :
    xs.mergeSort le =
      List.merge ((xs.take ((xs.length + 1) / 2)).mergeSort le)
        ((xs.drop ((xs.length + 1) / 2)).mergeSort le) le := by
  match xs, hlen with
  | a :: b :: r, _ =>
    rw [List.mergeSort]
    simp only [List.splitInTwo_fst, List.splitInTwo_snd, List.length_cons]

/-- The recursive case of `merge_sort_list`, given the function on shorter
lists. -/
theorem merge_sort_list_step {fuel : Nat}
    (ih : ∀ (h : Heap) (xs : List Ptr), NextPath h (xs ++ [0]) → xs.Nodup → 0 ∉ xs →
      xs.length < fuel →
      ∃ h1, merge_sort_list fuel h (xs.headD 0) =
          some (h1, (xs.mergeSort (node_le h)).headD 0) ∧
        NextPath h1 (xs.mergeSort (node_le h) ++ [0]) ∧
        (∀ c, c ∉ xs → h1.next c = h.next c) ∧
        h1.prev = h.prev ∧ h1.value = h.value ∧ h1.live = h.live)
    (h : Heap) (xs : List Ptr) (hp : NextPath h (xs ++ [0])) (hnd : xs.Nodup) (h0 : 0 ∉ xs)
    (hlen : 2 ≤ xs.length) (hf : xs.length ≤ fuel) :
    ∃ h1, merge_sort_list (fuel + 1) h (xs.headD 0) =
        some (h1, (xs.mergeSort (node_le h)).headD 0) ∧
      NextPath h1 (xs.mergeSort (node_le h) ++ [0]) ∧
      (∀ c, c ∉ xs → h1.next c = h.next c) ∧
      h1.prev = h.prev ∧ h1.value = h.value ∧ h1.live = h.live := by
  have hnz : ∀ p, p ∈ xs → p ≠ 0 := by rintro p hp rfl; exact h0 hp
  -- the first two nodes
  have hhead := hp.path_next_drop (show 0 < xs.length by omega)
  have hsnd := hp.path_next_drop (show 1 < xs.length by omega)
  rw [List.drop_zero] at hhead
  have hh0 : xs.headD 0 ≠ 0 := hnz _ hhead.1
  have hh1 : h.next (xs.headD 0) ≠ 0 := by rw [hhead.2]; exact hnz _ hsnd.1
  -- the split
  have hsplit := split_loop_spec hp h0 fuel 0 (by omega) (by omega)
  simp only [Nat.mul_zero, Nat.zero_add, List.drop_zero] at hsplit
  rw [← hhead.2] at hsplit
  have hm : (xs.length - 1) / 2 < xs.length := by omega
  have hm1 : (xs.length - 1) / 2 + 1 = (xs.length + 1) / 2 := by omega
  have hslow := hp.path_next_drop hm
  have e : xs.drop ((xs.length - 1) / 2) =
      xs[(xs.length - 1) / 2] :: xs.drop ((xs.length - 1) / 2 + 1) :=
    List.drop_eq_getElem_cons hm
  have es : (xs.drop ((xs.length - 1) / 2)).headD 0 = xs[(xs.length - 1) / 2] := by
    rw [e, List.headD_cons]
  rw [es] at hsplit hslow
  generalize hsl : xs[(xs.length - 1) / 2] = slow at *
  have hL : xs.take ((xs.length + 1) / 2) = xs.take ((xs.length - 1) / 2) ++ [slow] := by
    rw [← hm1, ← hsl, List.take_concat_get']
  have hxs : xs = xs.take ((xs.length - 1) / 2) ++ slow :: xs.drop ((xs.length + 1) / 2) := by
    rw [← hm1, ← e, List.take_append_drop]
  rw [hm1] at hslow
  generalize hLL : xs.take ((xs.length + 1) / 2) = L at *
  generalize hRR : xs.drop ((xs.length + 1) / 2) = R at *
  generalize xs.take ((xs.length - 1) / 2) = L0 at *
  have hlenL : L.length < xs.length := by
    rw [← hLL, List.length_take]; omega
  have hlenR : R.length < xs.length := by
    rw [← hRR, List.length_drop]; omega
  have hlenLR : L.length + R.length = xs.length := by
    rw [← hLL, ← hRR, List.length_take, List.length_drop]; omega
  have hxs2 : xs = L ++ R := by rw [hL, hxs]; simp
  have hndLR : (L ++ R).Nodup := by rw [← hxs2]; exact hnd
  have hndL : L.Nodup := (List.nodup_append.1 hndLR).1
  have hndR : R.Nodup := (List.nodup_append.1 hndLR).2.1
  have hdisj : ∀ c, c ∈ L → c ∉ R := fun c h1 h2 => (List.nodup_append.1 hndLR).2.2 h1 h2
  have hsL : slow ∈ L := by rw [hL]; simp
  -- cutting the list after `slow`
  have hcut : NextPath (h.setNext slow 0) (L ++ [0]) ∧ NextPath (h.setNext slow 0) (R ++ [0]) := by
    have hp2 : NextPath h (L0 ++ slow :: (R ++ [0])) := by
      have : xs ++ [0] = L0 ++ slow :: (R ++ [0]) := by
        conv_lhs => rw [hxs]
        simp
      rw [← this]; exact hp
    have hs1 : slow ∉ L0 := by
      rw [hL] at hndL
      intro hmem
      have := List.disjoint_of_nodup_append hndL hmem
      simp at this
    have := NextPath.cut 0 hp2 hs1 (by rw [List.dropLast_concat]; exact hdisj slow hsL)
    rw [hL]
    simpa using this
  -- the two recursive calls
  obtain ⟨h2, r1, r2, r3, r4, r5, r6⟩ := ih (h.setNext slow 0) L hcut.1 hndL
    (fun hm0 => h0 (by rw [hxs2]; exact List.mem_append_left _ hm0)) (by omega)
  have hle1 : node_le (h.setNext slow 0) = node_le h := node_le_congr rfl
  rw [hle1] at r1 r2
  have hpR : NextPath h2 (R ++ [0]) := by
    refine NextPath.path_frame ?_ hcut.2
    intro c hc
    rw [List.dropLast_concat] at hc
    exact r3 c (fun hcl => hdisj c hcl hc)
  obtain ⟨h3, q1, q2, q3, q4, q5, q6⟩ := ih h2 R hpR hndR
    (fun hm0 => h0 (by rw [hxs2]; exact List.mem_append_right _ hm0)) (by omega)
  have hle2 : node_le h2 = node_le h := node_le_congr (by rw [r5]; rfl)
  rw [hle2] at q1 q2
  have hpL : NextPath h3 (L.mergeSort (node_le h) ++ [0]) := by
    refine NextPath.path_frame ?_ r2
    intro c hc
    rw [List.dropLast_concat] at hc
    exact q3 c (fun hcr => hdisj c (List.mem_mergeSort.1 hc) hcr)
  -- the merge
  have hperm : (L.mergeSort (node_le h) ++ R.mergeSort (node_le h)).Perm (L ++ R) :=
    (List.mergeSort_perm L _).append (List.mergeSort_perm R _)
  have hLne : L.mergeSort (node_le h) ≠ [] := by
    intro e0
    have := (List.mergeSort_perm L (node_le h)).mem_iff.2 hsL
    rw [e0] at this; exact List.not_mem_nil _ this
  obtain ⟨h4, m1, m2, m3, m4, m5, m6⟩ := merge_spec (L.mergeSort (node_le h))
    (R.mergeSort (node_le h)) hpL q2 (hperm.nodup_iff.2 hndLR)
    (fun hm0 => h0 (by rw [hxs2]; exact hperm.mem_iff.1 hm0)) (Or.inl hLne)
    (show (L.mergeSort (node_le h)).length + (R.mergeSort (node_le h)).length ≤ fuel by
      rw [List.length_mergeSort, List.length_mergeSort]; omega)
  have hle3 : node_le h3 = node_le h := node_le_congr (by rw [q5, r5]; rfl)
  rw [hle3] at m1 m2
  have hms : xs.mergeSort (node_le h) =
      List.merge (L.mergeSort (node_le h)) (R.mergeSort (node_le h)) (node_le h) := by
    rw [mergeSort_split _ xs hlen, hLL, hRR]
  have hLh : L.headD 0 = xs.headD 0 := by
    rw [hxs2, hL]; cases L0 <;> rfl
  rw [hLh] at r1
  refine ⟨h4, ?_, ?_, ?_, ?_, ?_, ?_⟩
  · rw [merge_sort_list, if_neg (not_or.2 ⟨hh0, hh1⟩), hsplit]
    simp only [setNext_next, hslow.2]
    rw [r1]
    simp only []
    rw [q1]
    simp only []
    rw [hms]
    exact m1
  · rw [hms]; exact m2
  · intro c hc
    have hcL : c ∉ L := fun hm0 => hc (by rw [hxs2]; exact List.mem_append_left _ hm0)
    have hcR : c ∉ R := fun hm0 => hc (by rw [hxs2]; exact List.mem_append_right _ hm0)
    rw [m3 c (fun hm0 => by
      rcases List.mem_append.1 hm0 with h1 | h1
      · exact hcL (List.mem_mergeSort.1 h1)
      · exact hcR (List.mem_mergeSort.1 h1)), q3 c hcR, r3 c hcL]
    have : c ≠ slow := by rintro rfl; exact hcL hsL
    simp [this]
  · rw [m4, q4, r4]; rfl
  · rw [m5, q5, r5]; rfl
  · rw [m6, q6, r6]; rfl

/-- `merge_sort_list` on a null-terminated list of distinct nodes terminates
and relinks the nodes into the list sorted by the stable merge sort. -/
theorem merge_sort_list_spec (fuel : Nat) :
    ∀ (h : Heap) (xs : List Ptr), NextPath h (xs ++ [0]) → xs.Nodup → 0 ∉ xs →
      xs.length < fuel →
      ∃ h1, merge_sort_list fuel h (xs.headD 0) =
          some (h1, (xs.mergeSort (node_le h)).headD 0) ∧
        NextPath h1 (xs.mergeSort (node_le h) ++ [0]) ∧
        (∀ c, c ∉ xs → h1.next c = h.next c) ∧
        h1.prev = h.prev ∧ h1.value = h.value ∧ h1.live = h.live := by
  induction fuel with
  | zero => intro h xs _ _ _ hf; simp at hf
  | succ fuel ih =>
    intro h xs hp hnd h0 hf
    match xs, hp, hnd, h0, hf with
    | [], _, _, _, _ =>
      exact ⟨h, by simp [merge_sort_list, List.mergeSort], by simp [List.mergeSort, NextPath],
        fun _ _ => rfl, rfl, rfl, rfl⟩
    | [a], hp, _, _, _ =>
      have ha : h.next a = 0 := hp.1
      exact ⟨h, by simp [merge_sort_list, List.mergeSort, ha],
        by simpa [List.mergeSort] using hp, fun _ _ => rfl, rfl, rfl, rfl⟩
    | a :: b :: r, hp, hnd, h0, hf =>
      exact merge_sort_list_step ih h (a :: b :: r) hp hnd h0 (by simp)
        (by simp only [List.length_cons] at hf ⊢; omega)

/-! ## Sorting the queue -/

theorem q_sort_loop_spec (l : List Ptr) :
    ∀ (h : Heap) (p : Ptr) (fuel : Nat), NextPath h (p :: l ++ [0]) → (p :: l).Nodup →
      0 ∉ l → l.length < fuel →
      ∃ h1, q_sort_loop fuel h p (l.headD 0) = some (h1, l.getLastD p) ∧
        Linked h1 (p :: l) ∧ h1.next = h.next ∧
        (∀ c, c ∉ l → h1.prev c = h.prev c) ∧
        h1.value = h.value ∧ h1.live = h.live := by
  induction l with
  | nil =>
    intro h p fuel _ _ _ hf
    cases fuel with
    | zero => simp at hf
    | succ fuel =>
      exact ⟨h, by simp [q_sort_loop], trivial, rfl, fun _ _ => rfl, rfl, rfl⟩
  | cons x l ih =>
    intro h p fuel hp hnd h0 hf
    cases fuel with
    | zero => simp at hf
    | succ fuel =>
      have hx0 : x ≠ 0 := by rintro rfl; exact h0 (by simp)
      have hpx : h.next p = x := hp.1
      have hnx : h.next x = l.headD 0 := NextPath.next_head hp.2
      have hxl : x ∉ l := (List.nodup_cons.1 (List.nodup_cons.1 hnd).2).1
      have hp2 : NextPath (h.setPrev x p) (x :: l ++ [0]) :=
        @NextPath.path_frame h (h.setPrev x p) _ (fun _ _ => rfl) hp.2
      obtain ⟨h1, e1, e2, e3, e4, e5, e6⟩ := ih (h.setPrev x p) x fuel
        hp2 (List.nodup_cons.1 hnd).2
        (fun hm0 => h0 (List.mem_cons_of_mem _ hm0)) (by simpa using hf)
      refine ⟨h1, ?_, ?_, ?_, ?_, ?_, ?_⟩
      · rw [List.headD_cons, q_sort_loop, if_pos hx0]
        simp only [setPrev_next, hpx, hnx]
        rw [e1, List.getLastD_cons]
      · refine ⟨⟨?_, ?_⟩, e2⟩
        · rw [e3]; exact hpx
        · rw [e4 x hxl]; simp
      · rw [e3]; rfl
      · intro c hc
        simp only [List.mem_cons, not_or] at hc
        rw [e4 c hc.2]
        simp [hc.1]
      · rw [e5]; rfl
      · rw [e6]; rfl

/-- Closing a doubly linked chain into a cycle. -/
theorem Linked.close {h : Heap} {head : Ptr} {l : List Ptr} (hl : Linked h (head :: l))
    (hnd : (head :: l).Nodup) :
    Linked ((h.setNext (l.getLastD head) head).setPrev head (l.getLastD head))
      (head :: l ++ [head]) := by
  obtain ⟨A, p, hA, hp⟩ := exists_concat head l
  rw [← hp]
  have e : head :: l ++ [head] = A ++ p :: [head] := by
    have : head :: l ++ [head] = (head :: l) ++ [head] := rfl
    rw [this, hA]; simp
  rw [e, linked_append_cons]
  rw [hA] at hl hnd
  refine ⟨Linked.linked_frame ?_ ?_ hl, ⟨by simp, by simp⟩, trivial⟩
  · intro a ha
    rw [List.dropLast_concat] at ha
    have : a ≠ p := by
      rintro rfl
      have := List.disjoint_of_nodup_append hnd ha
      simp at this
    simp [this]
  · intro b hb
    have : b ≠ head := by
      rintro rfl
      have hh : (A ++ [p]).head? = some b := by rw [← hA]; rfl
      cases A with
      | nil => simp at hb
      | cons a A =>
        simp only [List.cons_append, List.head?_cons, Option.some.injEq] at hh
        subst hh
        simp only [List.cons_append, List.tail_cons] at hb
        have hnd2 : (a :: (A ++ [p])).Nodup := hnd
        exact (List.nodup_cons.1 hnd2).1 hb
    simp [this]

/-- On a well-formed queue `q_sort` terminates and leaves the nodes in the
order of the stable merge sort by `strcmp`, with payloads and allocations
untouched. -/
theorem q_sort_run {h : Heap} {head : Ptr} {xs : List Ptr} {fuel : Nat}
    (hq : IsQueue h head xs) (hf : xs.length < fuel) :
    ∃ h1, q_sort fuel h head = some h1 ∧ IsQueue h1 head (xs.mergeSort (node_le h)) ∧
      h1.value = h.value ∧ h1.live = h.live := by
  by_cases hxs : xs = []
  · subst hxs
    refine ⟨h, ?_, by simpa [List.mergeSort] using hq, rfl, rfl⟩
    simp [q_sort, hq.list_empty_iff]
  · have hne : ¬ (list_empty h head = true) := by rw [hq.list_empty_iff]; exact hxs
    obtain ⟨hl, hnd, h0, hlive⟩ := hq
    have hq : IsQueue h head xs := ⟨hl, hnd, h0, hlive⟩
    obtain ⟨A, p, hA, hp⟩ := exists_concat head xs
    have hh0 : head ≠ 0 := hq.head_ne_zero
    have hndx : xs.Nodup := (List.nodup_cons.1 hnd).2
    have hhx : head ∉ xs := (List.nodup_cons.1 hnd).1
    have h0x : 0 ∉ xs := fun hm0 => h0 (List.mem_cons_of_mem _ hm0)
    -- the last element, whose `next` is cut
    obtain ⟨B, last, hB⟩ : ∃ B last, xs = B ++ [last] := by
      rcases List.eq_nil_or_concat xs with h1 | ⟨B, last, h1⟩
      · exact absurd h1 hxs
      · exact ⟨B, last, by rw [h1, List.concat_eq_append]⟩
    have hprev : h.prev head = last := by rw [hq.head_links.2, hB, List.getLastD_concat]
    have hlast : last ∈ xs := by rw [hB]; simp
    have hlh : last ≠ head := hq.mem_ne_head hlast
    have hp1 : NextPath (h.setNext last 0) (xs ++ [0]) := by
      have hnp : NextPath h (B ++ last :: [head]) := by
        have := (Linked.nextPath hl).tail
        rw [hB] at this
        simpa using this
      have hlB : last ∉ B := by
        rw [hB] at hndx
        intro hm0
        have := List.disjoint_of_nodup_append hndx hm0
        simp at this
      have := (NextPath.cut 0 hnp hlB (by simp)).1
      rw [hB]; simpa using this
    have hfirst : (h.setNext last 0).next head = xs.headD 0 := by
      simp only [setNext_next, if_neg (Ne.symm hlh)]
      rw [hq.head_links.1]
      cases xs with
      | nil => exact absurd rfl hxs
      | cons a r => rfl
    obtain ⟨h2, r1, r2, r3, r4, r5, r6⟩ :=
      merge_sort_list_spec fuel (h.setNext last 0) xs hp1 hndx h0x hf
    have hle : node_le (h.setNext last 0) = node_le h := node_le_congr rfl
    rw [hle] at r1 r2
    generalize hS : xs.mergeSort (node_le h) = S at *
    have hperm : S.Perm xs := by rw [← hS]; exact List.mergeSort_perm xs _
    have hndS : (head :: S).Nodup :=
      List.nodup_cons.2 ⟨fun hm0 => hhx (hperm.mem_iff.1 hm0), hperm.nodup_iff.2 hndx⟩
    have h0S : 0 ∉ S := fun hm0 => h0x (hperm.mem_iff.1 hm0)
    -- the pass that restores `prev`
    have hp3 : NextPath (h2.setNext head (S.headD 0)) (head :: S ++ [0]) := by
      have hfr : NextPath (h2.setNext head (S.headD 0)) (S ++ [0]) := by
        refine NextPath.path_frame ?_ r2
        intro a ha
        rw [List.dropLast_concat] at ha
        have : a ≠ head := by rintro rfl; exact (List.nodup_cons.1 hndS).1 ha
        simp [this]
      cases S with
      | nil => exact ⟨by simp, trivial⟩
      | cons s S => exact ⟨by simp, hfr⟩
    obtain ⟨h4, s1, s2, s3, s4, s5, s6⟩ := q_sort_loop_spec S (h2.setNext head (S.headD 0))
      head fuel hp3 hndS h0S (by rw [hperm.length_eq]; exact hf)
    have hclose := Linked.close s2 hndS
    refine ⟨(h4.setNext (S.getLastD head) head).setPrev head (S.getLastD head), ?_,
      ⟨hclose, hndS, ?_, ?_⟩, ?_, ?_⟩
    · unfold q_sort
      rw [if_neg (by simp [hh0, hne])]
      simp only [hprev, hfirst, r1, setNext_next, if_true, s1]
    · intro hm0
      simp only [List.mem_cons] at hm0
      rcases hm0 with h1 | h1
      · exact hh0 h1.symm
      · exact h0S h1
    · intro q hqm
      simp only [setPrev_live, setNext_live, s6, r6]
      apply hlive
      simp only [List.mem_cons] at hqm ⊢
      rcases hqm with h1 | h1
      · exact Or.inl h1
      · exact Or.inr (hperm.mem_iff.1 h1)
    · simp only [setPrev_value, setNext_value, s5, r5]
    · simp only [setPrev_live, setNext_live, s6, r6]

/-! ## Sorting: order, permutation, stability -/

theorem strcmp_cstr (a : List Nat) : ∀ b, strcmp (cstr a) (cstr b) = strcmp a b := by
  have hc : ∀ (x : Nat) (l : List Nat), cstr (x :: l) = if x = 0 then [] else x :: cstr l := by
    intro x l
    by_cases hx : x = 0 <;> simp [cstr, strlen, hx]
  induction a with
  | nil =>
    intro b
    cases b with
    | nil => rfl
    | cons y ys =>
      rw [hc]
      by_cases hy : y = 0
      · simp [hy, cstr, strlen, strcmp]
      · simp [hy, cstr, strlen, strcmp]
  | cons x xs ih =>
    intro b
    cases b with
    | nil =>
      rw [hc]
      by_cases hx : x = 0
      · simp [hx, cstr, strlen, strcmp]
      · simp [hx, cstr, strlen, strcmp]
    | cons y ys =>
      rw [hc, hc]
      by_cases hx : x = 0
      · by_cases hy : y = 0
        · simp [hx, hy, strcmp]
        · have : ¬ (0 = y) := fun e => hy e.symm
          simp [hx, hy, strcmp, this]
      · by_cases hy : y = 0
        · simp [hx, hy, strcmp]
        · simp only [hx, hy, if_false, strcmp, ih ys]

/-- C1: on a well-formed queue with any number of elements `q_sort`
terminates and leaves a well-formed queue of the same nodes (a permutation,
payloads untouched, nothing allocated or released) in ascending `strcmp`
order, so the payload sequence is sorted and is a permutation of the old one;
a queue of at most one element keeps its sequence. -/
theorem q_sort_spec (h : Heap) (head : Ptr) (xs : List Ptr) (fuel : Nat)
    (hq : IsQueue h head xs) (hf : xs.length < fuel) :
    ∃ h1 ys, q_sort fuel h head = some h1 ∧ IsQueue h1 head ys ∧
      ys.Perm xs ∧ h1.value = h.value ∧ h1.live = h.live ∧
      ys.Pairwise (fun a b => strcmp (h1.value a) (h1.value b) ≤ 0) ∧
      (payloads h1 ys).Pairwise (fun s t => strcmp s t ≤ 0) ∧
      (payloads h1 ys).Perm (payloads h xs) ∧
      (xs.length ≤ 1 → ys = xs) := by
  obtain ⟨h1, e1, e2, e3, e4⟩ := q_sort_run hq hf
  have hsorted : (xs.mergeSort (node_le h)).Pairwise
      (fun a b => strcmp (h1.value a) (h1.value b) ≤ 0) := by
    have := List.sorted_mergeSort (node_le_trans h) (node_le_total h) xs
    refine this.imp ?_
    intro a b hab
    rw [e3]
    exact (node_le_iff h a b).1 hab
  refine ⟨h1, xs.mergeSort (node_le h), e1, e2, List.mergeSort_perm xs _, e3, e4, hsorted,
    ?_, ?_, ?_⟩
  · unfold payloads
    rw [List.pairwise_map]
    refine hsorted.imp ?_
    intro a b hab
    rw [strcmp_cstr]; exact hab
  · unfold payloads
    rw [e3]
    exact (List.mergeSort_perm xs _).map _
  · intro hlen
    match xs, hlen with
    | [], _ => simp [List.mergeSort]
    | [a], _ => simp [List.mergeSort]

/-- C2: `q_sort` is stable.  If node `a` comes before node `b` in the queue
(the pair is a sublist of the node sequence) and their payloads compare equal,
then `a` still comes before `b` after the sort; nodes are told apart by their
addresses. -/
theorem q_sort_stable (h : Heap) (head : Ptr) (xs : List Ptr) (fuel : Nat) (a b : Ptr)
    (hq : IsQueue h head xs) (hf : xs.length < fuel)
    (hab : List.Sublist [a, b] xs) (heq : strcmp (h.value a) (h.value b) = 0) :
    ∃ h1 ys, q_sort fuel h head = some h1 ∧ IsQueue h1 head ys ∧ ys.Perm xs ∧
      h1.value = h.value ∧ List.Sublist [a, b] ys := by
  obtain ⟨h1, e1, e2, e3, _⟩ := q_sort_run hq hf
  refine ⟨h1, xs.mergeSort (node_le h), e1, e2, List.mergeSort_perm xs _, e3, ?_⟩
  exact List.pair_sublist_mergeSort (node_le_trans h) (node_le_total h)
    ((node_le_iff h a b).2 (by rw [heq])) hab

/-! ## Uniqueness of the node sequence -/

theorem IsQueue.suffix_unique {h : Heap} {head : Ptr} (xs : List Ptr) :
    ∀ (l1 ys : List Ptr), IsQueue h head (l1 ++ xs) → IsQueue h head (l1 ++ ys) → xs = ys := by
  induction xs with
  | nil =>
    intro l1 ys h1 h2
    have e1 := h1.next_last
    have e2 := h2.next_last
    rw [e1] at e2
    cases ys with
    | nil => rfl
    | cons y ys =>
      simp only [List.headD_nil, List.headD_cons] at e2
      exact absurd e2.symm (h2.mem_ne_head (by simp))
  | cons x xs ih =>
    intro l1 ys h1 h2
    have e1 := h1.next_last
    have e2 := h2.next_last
    rw [e1] at e2
    cases ys with
    | nil =>
      simp only [List.headD_nil, List.headD_cons] at e2
      exact absurd e2 (h1.mem_ne_head (by simp))
    | cons y ys =>
      simp only [List.headD_cons] at e2
      subst e2
      have h3 : IsQueue h head ((l1 ++ [x]) ++ xs) := by simpa using h1
      have h4 : IsQueue h head ((l1 ++ [x]) ++ ys) := by simpa using h2
      rw [ih (l1 ++ [x]) ys h3 h4]

/-- The node sequence of a well-formed queue is determined by the memory and
the sentinel. -/
theorem IsQueue.unique {h : Heap} {head : Ptr} {xs ys : List Ptr}
    (h1 : IsQueue h head xs) (h2 : IsQueue h head ys) : xs = ys :=
  IsQueue.suffix_unique xs [] ys h1 h2

/-! ## Deleting duplicates from a sorted queue -/

theorem strcmp_lt_of_lt_of_le {a b c : List Nat} (h1 : strcmp a b < 0) (h2 : strcmp b c ≤ 0) :
    strcmp a c < 0 := by
  by_contra hc
  have h3 : strcmp c a ≤ 0 := by rw [strcmp_antisymm a c]; omega
  have h4 := strcmp_trans b c a h2 h3
  rw [strcmp_antisymm a b] at h4
  omega

theorem dedup_from_sorted (h : Heap) (l : List Ptr) :
    ∀ p, (p :: l).Pairwise (fun a b => strcmp (h.value a) (h.value b) ≤ 0) →
      List.Sublist (dedup_from h (some p) l) l ∧
        (p :: dedup_from h (some p) l).Pairwise
          (fun a b => strcmp (h.value a) (h.value b) < 0) ∧
        ∀ x ∈ l, ∃ y ∈ p :: dedup_from h (some p) l, strcmp (h.value y) (h.value x) = 0 := by
  induction l with
  | nil =>
    intro p _
    exact ⟨List.Sublist.slnil, by simp [dedup_from], by simp⟩
  | cons x l ih =>
    intro p hs
    have hpx : strcmp (h.value p) (h.value x) ≤ 0 := List.rel_of_pairwise_cons hs (by simp)
    by_cases hc : strcmp (h.value p) (h.value x) = 0
    · have hs2 : (p :: l).Pairwise (fun a b => strcmp (h.value a) (h.value b) ≤ 0) :=
        hs.sublist (List.Sublist.cons₂ p (List.sublist_cons_self x l))
      obtain ⟨a1, a2, a3⟩ := ih p hs2
      have e : dedup_from h (some p) (x :: l) = dedup_from h (some p) l := by
        simp [dedup_from, prev_bytes, hc]
      rw [e]
      refine ⟨List.Sublist.cons x a1, a2, ?_⟩
      intro z hz
      simp only [List.mem_cons] at hz
      rcases hz with rfl | hz
      · exact ⟨p, by simp, hc⟩
      · exact a3 z hz
    · have hlt : strcmp (h.value p) (h.value x) < 0 := by omega
      obtain ⟨a1, a2, a3⟩ := ih x hs.tail
      have e : dedup_from h (some p) (x :: l) = x :: dedup_from h (some x) l := by
        simp [dedup_from, prev_bytes, hc]
      rw [e]
      refine ⟨List.Sublist.cons₂ x a1, List.Pairwise.cons ?_ a2, ?_⟩
      · intro z hz
        simp only [List.mem_cons] at hz
        rcases hz with rfl | hz
        · exact hlt
        · exact strcmp_lt_of_lt_of_le hlt (le_of_lt (List.rel_of_pairwise_cons a2 hz))
      · intro z hz
        simp only [List.mem_cons] at hz
        rcases hz with rfl | hz
        · refine ⟨z, by simp, ?_⟩
          have := strcmp_antisymm (h.value z) (h.value z)
          omega
        · obtain ⟨y, hy, hyz⟩ := a3 z hz
          exact ⟨y, List.mem_cons_of_mem _ hy, hyz⟩

/-- On a sorted queue whose first payload is not the empty string
`q_delete_dup` returns true and keeps, in their order, the first element and
one element for each distinct payload: the retained payloads are strictly
ascending and every payload of the queue is the payload of a retained
element. -/
theorem q_delete_dup_sorted {h : Heap} {head : Ptr} {x : Ptr} {xs : List Ptr} {fuel : Nat}
    (hq : IsQueue h head (x :: xs)) (hf : (x :: xs).length < fuel)
    (hs : (x :: xs).Pairwise (fun a b => strcmp (h.value a) (h.value b) ≤ 0))
    (hx : strcmp [0] (h.value x) ≠ 0) :
    ∃ h1 ys, q_delete_dup fuel h head = some (h1, true) ∧ IsQueue h1 head (x :: ys) ∧
      h1.value = h.value ∧ List.Sublist ys xs ∧
      (x :: ys).Pairwise (fun a b => strcmp (h.value a) (h.value b) < 0) ∧
      ∀ z ∈ x :: xs, ∃ y ∈ x :: ys, strcmp (h.value y) (h.value z) = 0 := by
  obtain ⟨h1, e1, e2, e3, _⟩ := q_delete_dup_run hq hf
  obtain ⟨a1, a2, a3⟩ := dedup_from_sorted h xs x hs
  have e : dedup_from h none (x :: xs) = x :: dedup_from h (some x) xs := by
    simp [dedup_from, prev_bytes, hx]
  rw [e] at e2
  refine ⟨h1, dedup_from h (some x) xs, e1, e2, e3, a1, a2, ?_⟩
  intro z hz
  simp only [List.mem_cons] at hz
  rcases hz with rfl | hz
  · refine ⟨z, by simp, ?_⟩
    have := strcmp_antisymm (h.value z) (h.value z)
    omega
  · exact a3 z hz

/-- C8, at the failing input: on the sorted queue `["", "a"]` `q_delete_dup`
returns true and deletes the first element, whose payload is the empty string
and duplicates nothing, leaving `["a"]`. -/
theorem q_delete_dup_empty_string :
    IsQueue heap_empty_a 1 [2, 3] ∧ payloads heap_empty_a [2, 3] = [[], [97]] ∧
      strcmp (heap_empty_a.value 2) (heap_empty_a.value 3) ≤ 0 ∧
      ∃ h1, q_delete_dup 3 heap_empty_a 1 = some (h1, true) ∧ IsQueue h1 1 [3] ∧
        payloads h1 [3] = [[97]] := by
  have hq : IsQueue heap_empty_a 1 [2, 3] := by decide
  obtain ⟨h1, e1, e2, e3, _⟩ := q_delete_dup_run hq (show [2, 3].length < 3 by decide)
  have hd : dedup_from heap_empty_a none [2, 3] = [3] := by decide
  rw [hd] at e2
  refine ⟨hq, by decide, by decide, h1, e1, e2, ?_⟩
  unfold payloads
  rw [e3]
  decide

/-! ## The theorems at concrete queues -/

theorem q_sort_spec_witness :
    IsQueue heap_cba 1 [4, 2, 3] ∧
      ∃ h1 ys, q_sort 4 heap_cba 1 = some h1 ∧ IsQueue h1 1 ys ∧ ys.Perm [4, 2, 3] ∧
        ys.Pairwise (fun a b => strcmp (h1.value a) (h1.value b) ≤ 0) ∧
        (payloads h1 ys).Perm [[99], [98], [97]] := by
  obtain ⟨h1, ys, a, b, c, _, _, d, _, e, _⟩ :=
    q_sort_spec heap_cba 1 [4, 2, 3] 4 (by decide) (by decide)
  exact ⟨by decide, h1, ys, a, b, c, d, e⟩

theorem q_sort_stable_witness :
    IsQueue heap_aba 1 [2, 3, 4] ∧ strcmp (heap_aba.value 2) (heap_aba.value 4) = 0 ∧
      ∃ h1 ys, q_sort 4 heap_aba 1 = some h1 ∧ IsQueue h1 1 ys ∧ List.Sublist [2, 4] ys := by
  obtain ⟨h1, ys, a, b, _, _, c⟩ :=
    q_sort_stable heap_aba 1 [2, 3, 4] 4 2 4 (by decide) (by decide)
      (List.Sublist.cons₂ 2 (List.Sublist.cons 3 (List.Sublist.cons₂ 4 List.Sublist.slnil)))
      (by decide)
  exact ⟨by decide, by decide, h1, ys, a, b, c⟩

theorem q_insert_spec_witness :
    IsQueue heap_cba 1 [4, 2, 3] ∧
      IsQueue (q_insert_head heap_cba 1 [100, 0] 5 true).1 1 [5, 4, 2, 3] ∧
      payloads (q_insert_head heap_cba 1 [100, 0] 5 true).1 [5, 4, 2, 3] =
        [100] :: payloads heap_cba [4, 2, 3] ∧
      IsQueue (q_insert_tail heap_cba 1 [100, 0] 5 true).1 1 [4, 2, 3, 5] :=
  ⟨by decide,
    (q_insert_spec heap_cba 1 [4, 2, 3] [100, 0] 5 (by decide) (by decide) (by decide)).1.2.1,
    (q_insert_spec heap_cba 1 [4, 2, 3] [100, 0] 5 (by decide) (by decide) (by decide)).1.2.2.1,
    (q_insert_spec heap_cba 1 [4, 2, 3] [100, 0] 5 (by decide) (by decide) (by decide)).2.2.1⟩

theorem q_remove_spec_witness :
    IsQueue heap_cba 1 [4, 2, 3] ∧
      (q_remove_head heap_cba 1 (some [1, 1, 1, 1]) 4).entry = 4 ∧
      IsQueue (q_remove_head heap_cba 1 (some [1, 1, 1, 1]) 4).heap 1 [2, 3] ∧
      (q_remove_tail heap_cba 1 (some [1, 1, 1, 1]) 4).entry = 3 ∧
      IsQueue (q_remove_tail heap_cba 1 (some [1, 1, 1, 1]) 4).heap 1 [4, 2] :=
  ⟨by decide,
    (q_remove_spec heap_cba 1 [4, 2, 3] [1, 1, 1, 1] 4 (by decide) (by decide) (by decide)
      (by norm_num)).1.1,
    (q_remove_spec heap_cba 1 [4, 2, 3] [1, 1, 1, 1] 4 (by decide) (by decide) (by decide)
      (by norm_num)).1.2.1,
    (q_remove_spec heap_cba 1 [4, 2, 3] [1, 1, 1, 1] 4 (by decide) (by decide) (by decide)
      (by norm_num)).2.1,
    (q_remove_spec heap_cba 1 [4, 2, 3] [1, 1, 1, 1] 4 (by decide) (by decide) (by decide)
      (by norm_num)).2.2.1⟩

theorem insert_remove_roundtrip_witness :
    IsQueue heap_cba 1 [4, 2, 3] ∧
      (q_remove_head (q_insert_head heap_cba 1 [100, 0] 5 true).1 1 (some [1, 1, 1, 1])
        4).entry = 5 ∧
      IsQueue (q_remove_head (q_insert_head heap_cba 1 [100, 0] 5 true).1 1
        (some [1, 1, 1, 1]) 4).heap 1 [4, 2, 3] :=
  ⟨by decide,
    (insert_remove_roundtrip heap_cba 1 [4, 2, 3] [100, 0] 5 [1, 1, 1, 1] 4 (by decide)
      (by decide) (by decide) (by norm_num)).2.1,
    (insert_remove_roundtrip heap_cba 1 [4, 2, 3] [100, 0] 5 [1, 1, 1, 1] 4 (by decide)
      (by decide) (by decide) (by norm_num)).2.2.2.1⟩

theorem q_reverse_spec_witness :
    IsQueue heap_cba 1 [4, 2, 3] ∧
      ∃ h1, q_reverse 4 heap_cba 1 = some h1 ∧ IsQueue h1 1 [3, 2, 4] ∧
        payloads h1 [3, 2, 4] = [[97], [98], [99]] := by
  obtain ⟨h1, a, b, _, _, c⟩ := q_reverse_spec heap_cba 1 [4, 2, 3] 4 (by decide) (by decide)
  exact ⟨by decide, h1, a, b, c⟩

theorem q_delete_mid_spec_witness :
    IsQueue heap_cba 1 [4, 2, 3] ∧
      ∃ h1, q_delete_mid 4 heap_cba 1 = some (h1, true) ∧ IsQueue h1 1 [4, 3] := by
  obtain ⟨h1, m, a, _, b, _, _⟩ :=
    (q_delete_mid_spec heap_cba 1 [4, 2, 3] 4 (by decide) (by decide)).2 (by decide)
  exact ⟨by decide, h1, a, b⟩

theorem q_swap_spec_witness :
    IsQueue heap_cba 1 [4, 2, 3] ∧
      ∃ h1, q_swap 4 heap_cba 1 = some h1 ∧ IsQueue h1 1 [2, 4, 3] := by
  obtain ⟨h1, a, b, _⟩ := q_swap_spec heap_cba 1 [4, 2, 3] 4 (by decide) (by decide)
  exact ⟨by decide, h1, a, b⟩

/-! ## Failure cases -/

theorem q_remove_head_null (h : Heap) (sp : Option (List Nat)) (bufsize : Nat) :
    q_remove_head h 0 sp bufsize = ⟨h, sp, 0⟩ := by
  simp [q_remove_head]

theorem q_remove_tail_null (h : Heap) (sp : Option (List Nat)) (bufsize : Nat) :
    q_remove_tail h 0 sp bufsize = ⟨h, sp, 0⟩ := by
  simp [q_remove_tail]

theorem q_remove_head_buf_fail {h : Heap} {head : Ptr} {xs : List Ptr}
    (sp : Option (List Nat)) (bufsize : Nat) (hq : IsQueue h head xs)
    (hc : xs = [] ∨ sp = none) :
    q_remove_head h head sp bufsize = ⟨h, sp, 0⟩ := by
  rcases hc with rfl | rfl
  · have hne : list_empty h head = true := by rw [hq.list_empty_iff]
    simp [q_remove_head, hne]
  · unfold q_remove_head; split <;> rfl

theorem q_remove_tail_buf_fail {h : Heap} {head : Ptr} {xs : List Ptr}
    (sp : Option (List Nat)) (bufsize : Nat) (hq : IsQueue h head xs)
    (hc : xs = [] ∨ sp = none) :
    q_remove_tail h head sp bufsize = ⟨h, sp, 0⟩ := by
  rcases hc with rfl | rfl
  · have hne : list_empty h head = true := by rw [hq.list_empty_iff]
    simp [q_remove_tail, hne]
  · unfold q_remove_tail; split <;> rfl

/-- C11: `q_remove_head` and `q_remove_tail` return `NULL` if and only if the
handle is null, the queue is empty or the buffer pointer is null, and in each
of these cases the memory (hence the queue: no element is unlinked) and the
caller's buffer are exactly as before the call. -/
theorem q_remove_absent_iff (h : Heap) (head : Ptr) (xs : List Ptr)
    (sp : Option (List Nat)) (bufsize : Nat) (hq : head = 0 ∨ IsQueue h head xs) :
    (((q_remove_head h head sp bufsize).entry = 0 ↔ (head = 0 ∨ xs = [] ∨ sp = none)) ∧
      ((q_remove_head h head sp bufsize).entry = 0 →
        (q_remove_head h head sp bufsize).heap = h ∧
        (q_remove_head h head sp bufsize).buf = sp)) ∧
    (((q_remove_tail h head sp bufsize).entry = 0 ↔ (head = 0 ∨ xs = [] ∨ sp = none)) ∧
      ((q_remove_tail h head sp bufsize).entry = 0 →
        (q_remove_tail h head sp bufsize).heap = h ∧
        (q_remove_tail h head sp bufsize).buf = sp)) := by
  rcases hq with rfl | hq
  · rw [q_remove_head_null, q_remove_tail_null]
    simp
  · have hh := hq.head_ne_zero
    by_cases hc : xs = [] ∨ sp = none
    · rw [q_remove_head_buf_fail sp bufsize hq hc, q_remove_tail_buf_fail sp bufsize hq hc]
      exact ⟨⟨⟨fun _ => Or.inr hc, fun _ => rfl⟩, fun _ => ⟨rfl, rfl⟩⟩,
        ⟨⟨fun _ => Or.inr hc, fun _ => rfl⟩, fun _ => ⟨rfl, rfl⟩⟩⟩
    · have hxs : xs ≠ [] := fun e => hc (Or.inl e)
      obtain ⟨buf, rfl⟩ : ∃ buf, sp = some buf := by
        cases sp with
        | none => exact absurd (Or.inr rfl) hc
        | some buf => exact ⟨buf, rfl⟩
      constructor
      · obtain ⟨x, l, rfl⟩ := List.exists_cons_of_ne_nil hxs
        have e := (q_remove_head_some buf bufsize hq).1
        have hx : x ≠ 0 := hq.mem_ne_zero (by simp)
        rw [e]
        simp [hx, hh]
      · have e0 := List.dropLast_append_getLast hxs
        have hq2 : IsQueue h head (xs.dropLast ++ [xs.getLast hxs]) := by rw [e0]; exact hq
        have e := (q_remove_tail_some buf bufsize hq2).1
        have hx : xs.getLast hxs ≠ 0 := hq.mem_ne_zero (List.getLast_mem hxs)
        rw [e]
        simp [hx, hh, hxs]

/-- C12: `q_insert_head` and `q_insert_tail` return false exactly when the
handle is null, the element allocation fails (`e = 0`) or the buffer
allocation fails (`v = false`); in each of these cases the memory, hence the
element sequence and the links of the queue, is exactly as before the call;
and when the buffer allocation fails the element block `e` allocated just
before is released again. -/
theorem q_insert_atomic (h : Heap) (head : Ptr) (xs : List Ptr) (s : List Nat) (e : Ptr)
    (v : Bool) (hq : head = 0 ∨ IsQueue h head xs) (he : e = 0 ∨ e ∉ h.live) :
    (((q_insert_head h head s e v).2 = false ↔ (head = 0 ∨ e = 0 ∨ v = false)) ∧
      ((q_insert_head h head s e v).2 = false →
        (q_insert_head h head s e v).1 = h ∧
        (e ≠ 0 → e ∉ (q_insert_head h head s e v).1.live) ∧
        (head ≠ 0 → IsQueue (q_insert_head h head s e v).1 head xs))) ∧
    (((q_insert_tail h head s e v).2 = false ↔ (head = 0 ∨ e = 0 ∨ v = false)) ∧
      ((q_insert_tail h head s e v).2 = false →
        (q_insert_tail h head s e v).1 = h ∧
        (e ≠ 0 → e ∉ (q_insert_tail h head s e v).1.live) ∧
        (head ≠ 0 → IsQueue (q_insert_tail h head s e v).1 head xs))) := by
  have hfresh : e ≠ 0 → e ∉ h.live := fun h0 => he.resolve_left h0
  have hqq : head ≠ 0 → IsQueue h head xs := fun h0 => hq.resolve_left h0
  refine ⟨⟨?_, ?_⟩, ⟨?_, ?_⟩⟩
  · unfold q_insert_head
    by_cases h1 : head = 0
    · simp [h1]
    · by_cases h2 : e = 0
      · simp [h1, h2]
      · cases v <;> simp [h1, h2]
  · intro hf
    rw [q_insert_head_fail h head s e v hf]
    exact ⟨rfl, hfresh, hqq⟩
  · unfold q_insert_tail
    by_cases h1 : head = 0
    · simp [h1]
    · by_cases h2 : e = 0
      · simp [h1, h2]
      · cases v <;> simp [h1, h2]
  · intro hf
    rw [q_insert_tail_fail h head s e v hf]
    exact ⟨rfl, hfresh, hqq⟩

/-- C13: with a null handle every operation returns at once, whatever the
memory holds and even with no iteration allowed: `q_size` returns 0, the
inserts return false, the removes return `NULL`, `q_delete_mid` and
`q_delete_dup` return false, and `q_free`, `q_swap`, `q_reverse` and `q_sort`
return; the memory and the caller's buffer are unchanged in every case. -/
theorem null_handle (h : Heap) (fuel : Nat) (s : List Nat) (e : Ptr) (v : Bool)
    (sp : Option (List Nat)) (bufsize : Nat) :
    q_size fuel h 0 = some 0 ∧
      q_insert_head h 0 s e v = (h, false) ∧
      q_insert_tail h 0 s e v = (h, false) ∧
      q_remove_head h 0 sp bufsize = ⟨h, sp, 0⟩ ∧
      q_remove_tail h 0 sp bufsize = ⟨h, sp, 0⟩ ∧
      q_delete_mid fuel h 0 = some (h, false) ∧
      q_delete_dup fuel h 0 = some (h, false) ∧
      q_free fuel h 0 = some h ∧
      q_swap fuel h 0 = some h ∧
      q_reverse fuel h 0 = some h ∧
      q_sort fuel h 0 = some h := by
  refine ⟨by simp [q_size], by simp [q_insert_head], by simp [q_insert_tail],
    q_remove_head_null h sp bufsize, q_remove_tail_null h sp bufsize,
    by simp [q_delete_mid], by simp [q_delete_dup], by simp [q_free], by simp [q_swap],
    by simp [q_reverse], by simp [q_sort]⟩

theorem q_remove_absent_iff_witness :
    IsQueue heap_cba 1 [4, 2, 3] ∧
      (q_remove_head heap_cba 1 none 4).entry = 0 ∧
      (q_remove_head heap_cba 1 none 4).heap = heap_cba ∧
      (q_remove_tail heap_cba 1 none 4).entry = 0 ∧
      (q_remove_tail heap_cba 1 none 4).heap = heap_cba :=
  ⟨by decide,
    ((q_remove_absent_iff heap_cba 1 [4, 2, 3] none 4 (Or.inr (by decide))).1.1).2
      (Or.inr (Or.inr rfl)),
    (((q_remove_absent_iff heap_cba 1 [4, 2, 3] none 4 (Or.inr (by decide))).1.2)
      (((q_remove_absent_iff heap_cba 1 [4, 2, 3] none 4 (Or.inr (by decide))).1.1).2
        (Or.inr (Or.inr rfl)))).1,
    ((q_remove_absent_iff heap_cba 1 [4, 2, 3] none 4 (Or.inr (by decide))).2.1).2
      (Or.inr (Or.inr rfl)),
    (((q_remove_absent_iff heap_cba 1 [4, 2, 3] none 4 (Or.inr (by decide))).2.2)
      (((q_remove_absent_iff heap_cba 1 [4, 2, 3] none 4 (Or.inr (by decide))).2.1).2
        (Or.inr (Or.inr rfl)))).1⟩

theorem q_insert_atomic_witness :
    IsQueue heap_cba 1 [4, 2, 3] ∧ 5 ∉ heap_cba.live ∧
      (q_insert_head heap_cba 1 [100, 0] 5 false).2 = false ∧
      (q_insert_head heap_cba 1 [100, 0] 5 false).1 = heap_cba ∧
      5 ∉ (q_insert_head heap_cba 1 [100, 0] 5 false).1.live ∧
      IsQueue (q_insert_head heap_cba 1 [100, 0] 5 false).1 1 [4, 2, 3] := by
  have hw := (q_insert_atomic heap_cba 1 [4, 2, 3] [100, 0] 5 false (Or.inr (by decide))
    (Or.inr (by decide))).1
  have hf := hw.1.2 (Or.inr (Or.inr rfl))
  obtain ⟨a, b, c⟩ := hw.2 hf
  exact ⟨by decide, by decide, hf, a, b (by decide), c (by decide)⟩

/-! ## Reversing twice, sorting twice -/

/-- C15: `q_reverse` applied twice to a well-formed queue leaves the nodes in
their original order with their payloads, so the payload sequence is the one
before the first call. -/
theorem q_reverse_involution (h : Heap) (head : Ptr) (xs : List Ptr) (fuel : Nat)
    (hq : IsQueue h head xs) (hf : xs.length < fuel) :
    ∃ h1 h2, q_reverse fuel h head = some h1 ∧ q_reverse fuel h1 head = some h2 ∧
      IsQueue h2 head xs ∧ h2.value = h.value ∧ payloads h2 xs = payloads h xs := by
  obtain ⟨h1, a1, a2, a3, _⟩ := q_reverse_run hq hf
  obtain ⟨h2, b1, b2, b3, _⟩ := q_reverse_run a2 (by rw [List.length_reverse]; exact hf)
  rw [List.reverse_reverse] at b2
  have hv : h2.value = h.value := by rw [b3, a3]
  exact ⟨h1, h2, a1, b1, b2, hv, by simp [payloads, hv]⟩

theorem sorted_nodes_of_payloads {h : Heap} {xs : List Ptr}
    (hs : (payloads h xs).Pairwise (fun s t => strcmp s t ≤ 0)) :
    xs.Pairwise (fun a b => node_le h a b = true) := by
  unfold payloads at hs
  rw [List.pairwise_map] at hs
  refine hs.imp ?_
  intro a b hab
  rw [strcmp_cstr] at hab
  exact (node_le_iff h a b).2 hab

/-- C16: on a well-formed queue whose payload sequence is ascending `q_sort`
leaves the nodes, hence the payload sequence, as they are; and on any
well-formed queue a second `q_sort` leaves the node and payload sequence of
the first. -/
theorem q_sort_idempotent (h : Heap) (head : Ptr) (xs : List Ptr) (fuel : Nat)
    (hq : IsQueue h head xs) (hf : xs.length < fuel) :
    ((payloads h xs).Pairwise (fun s t => strcmp s t ≤ 0) →
      ∃ h1, q_sort fuel h head = some h1 ∧ IsQueue h1 head xs ∧
        payloads h1 xs = payloads h xs) ∧
    ∃ h1 h2 ys, q_sort fuel h head = some h1 ∧ IsQueue h1 head ys ∧
      q_sort fuel h1 head = some h2 ∧ IsQueue h2 head ys ∧
      payloads h2 ys = payloads h1 ys := by
  constructor
  · intro hs
    obtain ⟨h1, a1, a2, a3, _⟩ := q_sort_run hq hf
    rw [List.mergeSort_of_sorted (sorted_nodes_of_payloads hs)] at a2
    exact ⟨h1, a1, a2, by simp [payloads, a3]⟩
  · obtain ⟨h1, a1, a2, a3, _⟩ := q_sort_run hq hf
    obtain ⟨h2, b1, b2, b3, _⟩ := q_sort_run a2 (by rw [List.length_mergeSort]; exact hf)
    have hsorted := List.sorted_mergeSort (node_le_trans h) (node_le_total h) xs
    rw [node_le_congr a3, List.mergeSort_of_sorted hsorted] at b2
    exact ⟨h1, h2, xs.mergeSort (node_le h), a1, a2, b1, b2, by simp [payloads, b3]⟩

theorem q_reverse_involution_witness :
    IsQueue heap_cba 1 [4, 2, 3] ∧
      ∃ h1 h2, q_reverse 4 heap_cba 1 = some h1 ∧ q_reverse 4 h1 1 = some h2 ∧
        IsQueue h2 1 [4, 2, 3] ∧ payloads h2 [4, 2, 3] = [[99], [98], [97]] := by
  obtain ⟨h1, h2, a, b, c, _, d⟩ :=
    q_reverse_involution heap_cba 1 [4, 2, 3] 4 (by decide) (by decide)
  exact ⟨by decide, h1, h2, a, b, c, d⟩

theorem q_sort_idempotent_witness :
    IsQueue heap_cba 1 [4, 2, 3] ∧
      ∃ h1 h2 ys, q_sort 4 heap_cba 1 = some h1 ∧ IsQueue h1 1 ys ∧
        q_sort 4 h1 1 = some h2 ∧ IsQueue h2 1 ys ∧ payloads h2 ys = payloads h1 ys :=
  ⟨by decide, (q_sort_idempotent heap_cba 1 [4, 2, 3] 4 (by decide) (by decide)).2⟩

theorem mergeSort_cba : [4, 2, 3].mergeSort (node_le heap_cba) = [3, 2, 4] := by
  have h42 : node_le heap_cba 4 2 = false := by decide
  have h23 : node_le heap_cba 2 3 = false := by decide
  simp [List.mergeSort, List.merge, h42, h23]


/-- C17: the end-to-end scenario.  `q_new` gives an empty queue at sentinel
`1`; `insert_tail("b")`, `insert_tail("a")`, `insert_head("c")` succeed and
give `["c", "b", "a"]`; `q_sort` gives `["a", "b", "c"]`; `q_remove_head` with
a 4-byte buffer returns the element with payload `"a"` and leaves `"a"` and
its terminator in the buffer; `q_size` then returns 2 and the queue is
`["b", "c"]`. -/
theorem scenario_cba :
    q_new Heap.empty 1 = ((q_new Heap.empty 1).1, 1) ∧
    IsQueue (q_new Heap.empty 1).1 1 [] ∧
    (q_insert_tail (q_new Heap.empty 1).1 1 [98, 0] 2 true).2 = true ∧
    (q_insert_tail (q_insert_tail (q_new Heap.empty 1).1 1 [98, 0] 2 true).1 1 [97, 0] 3
      true).2 = true ∧
    q_insert_head (q_insert_tail (q_insert_tail (q_new Heap.empty 1).1 1 [98, 0] 2 true).1 1
      [97, 0] 3 true).1 1 [99, 0] 4 true = (heap_cba, true) ∧
    IsQueue heap_cba 1 [4, 2, 3] ∧ payloads heap_cba [4, 2, 3] = [[99], [98], [97]] ∧
    ∃ h1, q_sort 4 heap_cba 1 = some h1 ∧ IsQueue h1 1 [3, 2, 4] ∧
      payloads h1 [3, 2, 4] = [[97], [98], [99]] ∧
      (q_remove_head h1 1 (some [1, 1, 1, 1]) 4).entry = 3 ∧
      cstr ((q_remove_head h1 1 (some [1, 1, 1, 1]) 4).heap.value 3) = [97] ∧
      (q_remove_head h1 1 (some [1, 1, 1, 1]) 4).buf = some [97, 0, 1, 1] ∧
      IsQueue (q_remove_head h1 1 (some [1, 1, 1, 1]) 4).heap 1 [2, 4] ∧
      payloads (q_remove_head h1 1 (some [1, 1, 1, 1]) 4).heap [2, 4] = [[98], [99]] ∧
      q_size 3 (q_remove_head h1 1 (some [1, 1, 1, 1]) 4).heap 1 = some 2 := by
  have hq : IsQueue heap_cba 1 [4, 2, 3] := by decide
  obtain ⟨h1, a1, a2, a3, _⟩ := q_sort_run hq (show [4, 2, 3].length < 4 by decide)
  rw [mergeSort_cba] at a2
  have hr := q_remove_head_ok [1, 1, 1, 1] a2 (show 1 ≤ 4 by decide) (show 4 < 2 ^ 64 by norm_num)
  have hq2 : IsQueue (list_del h1 3) 1 [2, 4] := by
    have : IsQueue h1 1 ([] ++ 3 :: [2, 4]) := a2
    simpa using this.del
  refine ⟨rfl, by decide, by decide, by decide, rfl, hq, by decide, h1, a1, a2, ?_, ?_⟩
  · unfold payloads; rw [a3]; decide
  · rw [hr]
    refine ⟨rfl, ?_, ?_, hq2, ?_, ?_⟩
    · show cstr ((list_del h1 3).value 3) = [97]
      rw [list_del_value, a3]; decide
    · show some (truncated_copy (h1.value 3) [1, 1, 1, 1] 4) = some [97, 0, 1, 1]
      rw [a3]; decide
    · show payloads (list_del h1 3) [2, 4] = [[98], [99]]
      unfold payloads; rw [list_del_value, a3]; decide
    · show q_size 3 (list_del h1 3) 1 = some 2
      rw [q_size_spec hq2 (show [2, 4].length < 3 by decide)]
      decide

/-! ## The bytes a remove writes -/

/-- The buffer after a successful `q_remove_head`, for any `bufsize`. -/
theorem q_remove_head_buf {h : Heap} {head x : Ptr} {xs : List Ptr} (buf : List Nat)
    (bufsize : Nat) (hq : IsQueue h head (x :: xs)) :
    (q_remove_head h head (some buf) bufsize).buf =
      some (storeByte (memcpy buf (h.value x) (copy_len (h.value x) bufsize))
        (copy_len (h.value x) bufsize) 0) := by
  have hne : ¬ (list_empty h head = true) := by rw [hq.list_empty_iff]; simp
  have hx : h.next head = x := hq.head_links.1
  unfold q_remove_head
  rw [if_neg (by simp [hq.head_ne_zero, hne])]
  simp only [hx, copy_len]

/-- The buffer after a successful `q_remove_tail`, for any `bufsize`. -/
theorem q_remove_tail_buf {h : Heap} {head x : Ptr} {xs : List Ptr} (buf : List Nat)
    (bufsize : Nat) (hq : IsQueue h head (xs ++ [x])) :
    (q_remove_tail h head (some buf) bufsize).buf =
      some (storeByte (memcpy buf (h.value x) (copy_len (h.value x) bufsize))
        (copy_len (h.value x) bufsize) 0) := by
  have hne : ¬ (list_empty h head = true) := by rw [hq.list_empty_iff]; simp
  have hx : h.prev head = x := by rw [hq.head_links.2]; simp
  unfold q_remove_tail
  rw [if_neg (by simp [hq.head_ne_zero, hne])]
  simp only [hx, copy_len]

/-- With `1 ≤ bufsize` the bytes written fit in `bufsize`. -/
theorem copy_len_fits (payload : List Nat) {bufsize : Nat} (h1 : 1 ≤ bufsize)
    (h2 : bufsize < 2 ^ 64) : copy_len payload bufsize + 1 ≤ bufsize := by
  unfold copy_len
  rw [size_sub_one h1 h2]
  split <;> omega

/-- With `bufsize = 0` the subtraction wraps and the whole payload is copied. -/
theorem copy_len_zero (payload : List Nat) (hp : strlen payload < 2 ^ 64 - 1) :
    copy_len payload 0 = strlen payload := by
  have e : size_sub 0 1 = 2 ^ 64 - 1 := by
    unfold size_sub; norm_num
  unfold copy_len
  rw [e, if_pos hp]

/-- The extent of the buffer after the two stores: writing past the end of the
modelled buffer makes it longer. -/
theorem length_copy_out (buf v : List Nat) (len : Nat) (hl : len ≤ strlen v) :
    (storeByte (memcpy buf v len) len 0).length = max buf.length (len + 1) := by
  rw [copy_out buf v len hl]
  have hlen : ((cstr v).take len).length = len := by
    rw [List.length_take, length_cstr]; exact min_eq_left hl
  rw [List.length_append, hlen, List.length_cons, List.length_drop]
  omega

/-- C18, at the failing input: on the queue `["c", "b", "a"]`, with a buffer of
no bytes and `bufsize = 0`, `q_remove_head` succeeds (it returns the first
element) and `bufsize - 1` wraps to `2^64 - 1`, so the clamp keeps the whole
length: one payload byte is copied and the terminator is stored after it, two
bytes written where `bufsize` allows none; `q_remove_tail` does the same. -/
theorem q_remove_overflow :
    IsQueue heap_cba 1 [4, 2, 3] ∧ size_sub 0 1 = 2 ^ 64 - 1 ∧
      (q_remove_head heap_cba 1 (some []) 0).entry = 4 ∧
      copy_len (heap_cba.value 4) 0 = 1 ∧
      (q_remove_head heap_cba 1 (some []) 0).buf = some [99, 0] ∧
      (q_remove_tail heap_cba 1 (some []) 0).entry = 3 ∧
      copy_len (heap_cba.value 3) 0 = 1 ∧
      (q_remove_tail heap_cba 1 (some []) 0).buf = some [97, 0] := by
  have hq : IsQueue heap_cba 1 [4, 2, 3] := by decide
  have hq2 : IsQueue heap_cba 1 ([4, 2] ++ [3]) := hq
  have e : size_sub 0 1 = 2 ^ 64 - 1 := by unfold size_sub; norm_num
  have hp4 : strlen (heap_cba.value 4) = 1 := by decide
  have hp3 : strlen (heap_cba.value 3) = 1 := by decide
  have c4 : copy_len (heap_cba.value 4) 0 = 1 := by
    rw [copy_len_zero _ (by rw [hp4]; norm_num), hp4]
  have c3 : copy_len (heap_cba.value 3) 0 = 1 := by
    rw [copy_len_zero _ (by rw [hp3]; norm_num), hp3]
  refine ⟨hq, e, (q_remove_head_some [] 0 hq).1, c4, ?_, (q_remove_tail_some [] 0 hq2).1, c3, ?_⟩
  · rw [q_remove_head_buf [] 0 hq, c4]; decide
  · rw [q_remove_tail_buf [] 0 hq2, c3]; decide

/-! ## Termination of the sort -/

/-- The split of `merge_sort_list` on a null-terminated list of `n ≥ 2`
distinct nodes: the loop stops with `slow` at index `(n - 1) / 2`, and cutting
after `slow` leaves the first `(n + 1) / 2` nodes as one null-terminated list
and the other `n / 2` as a second one that starts at the old `slow->next`. -/
theorem split_cut {h : Heap} {xs : List Ptr} {fuel : Nat}
    (hp : NextPath h (xs ++ [0])) (hnd : xs.Nodup) (h0 : 0 ∉ xs)
    (hlen : 2 ≤ xs.length) (hf : xs.length ≤ fuel) :
    ∃ slow, split_loop fuel h (xs.headD 0) (h.next (xs.headD 0)) = some slow ∧
      xs[(xs.length - 1) / 2]? = some slow ∧
      NextPath (h.setNext slow 0) (xs.take ((xs.length + 1) / 2) ++ [0]) ∧
      NextPath (h.setNext slow 0) (xs.drop ((xs.length + 1) / 2) ++ [0]) ∧
      (xs.take ((xs.length + 1) / 2)).headD 0 = xs.headD 0 ∧
      (xs.drop ((xs.length + 1) / 2)).headD 0 = h.next slow := by
  have hhead := hp.path_next_drop (show 0 < xs.length by omega)
  rw [List.drop_zero] at hhead
  have hsplit := split_loop_spec hp h0 fuel 0 (by omega) (by omega)
  simp only [Nat.mul_zero, Nat.zero_add, List.drop_zero] at hsplit
  rw [← hhead.2] at hsplit
  have hm : (xs.length - 1) / 2 < xs.length := by omega
  have hm1 : (xs.length - 1) / 2 + 1 = (xs.length + 1) / 2 := by omega
  have hslow := hp.path_next_drop hm
  have e : xs.drop ((xs.length - 1) / 2) =
      xs[(xs.length - 1) / 2] :: xs.drop ((xs.length - 1) / 2 + 1) :=
    List.drop_eq_getElem_cons hm
  have es : (xs.drop ((xs.length - 1) / 2)).headD 0 = xs[(xs.length - 1) / 2] := by
    rw [e, List.headD_cons]
  rw [es] at hsplit hslow
  have hget : xs[(xs.length - 1) / 2]? = some xs[(xs.length - 1) / 2] :=
    List.getElem?_eq_getElem hm
  generalize hsl : xs[(xs.length - 1) / 2] = slow at *
  have hL : xs.take ((xs.length + 1) / 2) = xs.take ((xs.length - 1) / 2) ++ [slow] := by
    rw [← hm1, ← hsl, List.take_concat_get']
  have hxs : xs = xs.take ((xs.length - 1) / 2) ++ slow :: xs.drop ((xs.length + 1) / 2) := by
    rw [← hm1, ← e, List.take_append_drop]
  rw [hm1] at hslow
  generalize hLL : xs.take ((xs.length + 1) / 2) = L at *
  generalize hRR : xs.drop ((xs.length + 1) / 2) = R at *
  generalize xs.take ((xs.length - 1) / 2) = L0 at *
  have hxs2 : xs = L ++ R := by rw [hL, hxs]; simp
  have hndLR : (L ++ R).Nodup := by rw [← hxs2]; exact hnd
  have hndL : L.Nodup := (List.nodup_append.1 hndLR).1
  have hdisj : ∀ c, c ∈ L → c ∉ R := fun c h1 h2 => (List.nodup_append.1 hndLR).2.2 h1 h2
  have hsL : slow ∈ L := by rw [hL]; simp
  have hcut : NextPath (h.setNext slow 0) (L ++ [0]) ∧ NextPath (h.setNext slow 0) (R ++ [0]) := by
    have hp2 : NextPath h (L0 ++ slow :: (R ++ [0])) := by
      have : xs ++ [0] = L0 ++ slow :: (R ++ [0]) := by
        conv_lhs => rw [hxs]
        simp
      rw [← this]; exact hp
    have hs1 : slow ∉ L0 := by
      rw [hL] at hndL
      intro hmem
      have := List.disjoint_of_nodup_append hndL hmem
      simp at this
    have := NextPath.cut 0 hp2 hs1 (by rw [List.dropLast_concat]; exact hdisj slow hsL)
    rw [hL]
    simpa using this
  have hLh : L.headD 0 = xs.headD 0 := by
    rw [hxs2, hL]; cases L0 <;> rfl
  exact ⟨slow, hsplit, hget, hcut.1, hcut.2, hLh, hslow.2.symm⟩

/-- The prev-restoring loop of `q_sort` does not finish in fewer tests than
nodes plus one: its body runs once for each node. -/
theorem q_sort_loop_short (l : List Ptr) :
    ∀ (h : Heap) (p : Ptr) (fuel : Nat), NextPath h (p :: l ++ [0]) → 0 ∉ l →
      fuel ≤ l.length → q_sort_loop fuel h p (l.headD 0) = none := by
  induction l with
  | nil =>
    intro h p fuel _ _ hf
    have : fuel = 0 := by simpa using hf
    subst this
    rfl
  | cons x l ih =>
    intro h p fuel hp h0 hf
    cases fuel with
    | zero => rfl
    | succ fuel =>
      have hx0 : x ≠ 0 := by rintro rfl; exact h0 (by simp)
      have hpx : h.next p = x := hp.1
      have hnx : h.next x = l.headD 0 := NextPath.next_head hp.2
      have hp2 : NextPath (h.setPrev x p) (x :: l ++ [0]) :=
        @NextPath.path_frame h (h.setPrev x p) _ (fun _ _ => rfl) hp.2
      have := ih (h.setPrev x p) x fuel hp2 (fun hm0 => h0 (List.mem_cons_of_mem _ hm0))
        (by simpa using hf)
      rw [List.headD_cons, q_sort_loop, if_pos hx0]
      simp only [setPrev_next, hpx, hnx]
      exact this

/-- C19: `q_sort` terminates on every well-formed queue, and so do its parts
on every null-terminated list `xs` of `n` distinct nodes.  For `n ≥ 2` the
split loop of `merge_sort_list` ends, and the cut leaves a left list of
`(n + 1) / 2` nodes and a right list of `n / 2` nodes, both non-empty and
shorter than `n`; `merge_sort_list` returns whenever more than `n` nested
calls and iterations are allowed; `merge` returns within as many loop tests
as the two lists have nodes, each iteration advancing `l1` or `l2` by one
node; and the prev-restoring loop of `q_sort` returns after `n` runs of its
body and not before. -/
theorem q_sort_terminates (h : Heap) (xs : List Ptr)
    (hp : NextPath h (xs ++ [0])) (hnd : xs.Nodup) (h0 : 0 ∉ xs) :
    (2 ≤ xs.length → ∀ fuel, xs.length ≤ fuel →
      ∃ slow, split_loop fuel h (xs.headD 0) (h.next (xs.headD 0)) = some slow ∧
        NextPath (h.setNext slow 0) (xs.take ((xs.length + 1) / 2) ++ [0]) ∧
        NextPath (h.setNext slow 0) (xs.drop ((xs.length + 1) / 2) ++ [0]) ∧
        (xs.take ((xs.length + 1) / 2)).length = (xs.length + 1) / 2 ∧
        (xs.drop ((xs.length + 1) / 2)).length = xs.length / 2 ∧
        0 < xs.length / 2 ∧ (xs.length + 1) / 2 < xs.length) ∧
    (∀ fuel, xs.length < fuel →
      ∃ h1 r, merge_sort_list fuel h (xs.headD 0) = some (h1, r)) ∧
    (∀ ys fuel, NextPath h (ys ++ [0]) → (xs ++ ys).Nodup → 0 ∉ ys → (xs ≠ [] ∨ ys ≠ []) →
      xs.length + ys.length ≤ fuel →
      ∃ h1 r, merge fuel h (xs.headD 0) (ys.headD 0) = some (h1, r)) ∧
    (∀ hd ind x y fuel, x ≠ 0 → y ≠ 0 → ind ≠ some x → ind ≠ some y →
      ∃ s, merge_loop (fuel + 1) ⟨h, hd, ind, x, y⟩ = merge_loop fuel s ∧
        ((s.l1 = x ∧ s.l2 = h.next y) ∨ (s.l1 = h.next x ∧ s.l2 = y))) ∧
    (∀ p fuel, h.next p = xs.headD 0 → p ∉ xs →
      (xs.length < fuel → ∃ h1, q_sort_loop fuel h p (xs.headD 0) = some (h1, xs.getLastD p)) ∧
      (fuel ≤ xs.length → q_sort_loop fuel h p (xs.headD 0) = none)) ∧
    (∀ g head fuel, IsQueue g head xs → xs.length < fuel →
      ∃ g1, q_sort fuel g head = some g1) := by
  refine ⟨?_, ?_, ?_, ?_, ?_, ?_⟩
  · intro hlen fuel hf
    obtain ⟨slow, a1, _, a3, a4, _, _⟩ := split_cut hp hnd h0 hlen hf
    refine ⟨slow, a1, a3, a4, ?_, ?_, by omega, by omega⟩
    · rw [List.length_take]; omega
    · rw [List.length_drop]; omega
  · intro fuel hf
    obtain ⟨h1, a1, _⟩ := merge_sort_list_spec fuel h xs hp hnd h0 hf
    exact ⟨h1, _, a1⟩
  · intro ys fuel hpy hndy h0y hne hf
    obtain ⟨h1, a1, _⟩ := merge_spec xs ys hp hpy hndy
      (fun hm0 => by
        rcases List.mem_append.1 hm0 with h1 | h1
        · exact h0 h1
        · exact h0y h1) hne hf
    exact ⟨h1, _, a1⟩
  · intro hd ind x y fuel hx hy hix hiy
    by_cases hc : strcmp (h.value x) (h.value y) > 0
    · exact ⟨_, merge_loop_step_right hd ind fuel hx hy hc hiy, Or.inl ⟨rfl, rfl⟩⟩
    · exact ⟨_, merge_loop_step_left hd ind fuel hx hy hc hix, Or.inr ⟨rfl, rfl⟩⟩
  · intro p fuel hpn hpx
    have hpp : NextPath h (p :: xs ++ [0]) := by
      cases xs with
      | nil => exact ⟨hpn, trivial⟩
      | cons x l => exact ⟨hpn, hp⟩
    constructor
    · intro hf
      obtain ⟨h1, a1, _⟩ := q_sort_loop_spec xs h p fuel hpp (List.nodup_cons.2 ⟨hpx, hnd⟩) h0 hf
      exact ⟨h1, a1⟩
    · intro hf
      exact q_sort_loop_short xs h p fuel hpp h0 hf
  · intro g head fuel hq hf
    obtain ⟨g1, a1, _⟩ := q_sort_run hq hf
    exact ⟨g1, a1⟩

theorem q_sort_terminates_witness :
    NextPath (heap_cba.setNext 3 0) ([4, 2, 3] ++ [0]) ∧
      (∃ slow, split_loop 3 (heap_cba.setNext 3 0) 4 2 = some slow ∧
        NextPath ((heap_cba.setNext 3 0).setNext slow 0) ([4, 2] ++ [0]) ∧
        NextPath ((heap_cba.setNext 3 0).setNext slow 0) ([3] ++ [0])) ∧
      ∃ h1 r, merge_sort_list 4 (heap_cba.setNext 3 0) 4 = some (h1, r) := by
  have hw := q_sort_terminates (heap_cba.setNext 3 0) [4, 2, 3] (by decide) (by decide)
    (by decide)
  obtain ⟨slow, a1, a2, a3, _⟩ := hw.1 (by decide) 3 (by decide)
  exact ⟨by decide, ⟨slow, a1, a2, a3⟩, hw.2.1 4 (by decide)⟩

/-! ## Link consistency -/

theorem Linked.prev_next {h : Heap} {l : List Ptr} (hl : Linked h l) :
    (∀ x ∈ l.dropLast, h.prev (h.next x) = x) ∧ (∀ x ∈ l.tail, h.next (h.prev x) = x) := by
  induction l with
  | nil => simp
  | cons a l ih =>
    cases l with
    | nil => simp
    | cons b l =>
      obtain ⟨i1, i2⟩ := ih hl.2
      constructor
      · intro x hx
        simp only [List.dropLast_cons₂, List.mem_cons] at hx
        rcases hx with rfl | hx
        · rw [hl.1.1]; exact hl.1.2
        · exact i1 x hx
      · intro x hx
        simp only [List.tail_cons, List.mem_cons] at hx
        rcases hx with rfl | hx
        · rw [hl.1.2]; exact hl.1.1
        · exact i2 x (by simpa using hx)

theorem Linked.prevPath_reverse {h : Heap} (l : List Ptr) (hl : Linked h l) :
    PrevPath h l.reverse := by
  have key : ∀ (l1 : List Ptr) (a : Ptr) (l2 : List Ptr),
      PrevPath h (l1 ++ a :: l2) ↔ PrevPath h (l1 ++ [a]) ∧ PrevPath h (a :: l2) := by
    intro l1 a l2
    induction l1 with
    | nil => simp [PrevPath]
    | cons x l1 ih =>
      cases l1 with
      | nil => simp [PrevPath]
      | cons y l1 =>
        have ih1 := ih
        simp only [List.cons_append] at ih1 ⊢
        simp only [PrevPath, ih1, and_assoc]
  induction l with
  | nil => trivial
  | cons a l ih =>
    cases l with
    | nil => trivial
    | cons b l =>
      have ih2 := ih hl.2
      have e : (a :: b :: l).reverse = l.reverse ++ b :: [a] := by simp
      rw [e, key]
      exact ⟨by simpa using ih2, hl.1.2, trivial⟩

/-- A well-formed queue is consistently linked in the sense of the spec. -/
theorem IsQueue.linkConsistent {h : Heap} {head : Ptr} {ys : List Ptr}
    (hq : IsQueue h head ys) : LinkConsistent h head ys := by
  obtain ⟨p1, p2⟩ := Linked.prev_next hq.1
  refine ⟨?_, Linked.nextPath hq.1, hq.2.1, ?_⟩
  · intro x hx
    constructor
    · apply p1
      have e : head :: ys ++ [head] = (head :: ys) ++ [head] := rfl
      rw [e, List.dropLast_concat]; exact hx
    · apply p2
      simp only [List.cons_append, List.tail_cons, List.mem_append, List.mem_singleton]
      simp only [List.mem_cons] at hx
      tauto
  · have := Linked.prevPath_reverse _ hq.1
    simpa using this

/-- Consistent links make the doubly linked chain of a well-formed queue:
with non-null allocated nodes they are all a well-formed queue asks. -/
theorem LinkConsistent.linked {h : Heap} {head : Ptr} {ys : List Ptr}
    (hc : LinkConsistent h head ys) : Linked h (head :: ys ++ [head]) := by
  have key : ∀ l : List Ptr, NextPath h l → (∀ x ∈ l.dropLast, h.prev (h.next x) = x) →
      Linked h l := by
    intro l
    induction l with
    | nil => intro _ _; trivial
    | cons a l ih =>
      cases l with
      | nil => intro _ _; trivial
      | cons b l =>
        intro hp hx
        refine ⟨⟨hp.1, ?_⟩, ih hp.2 (fun x hm => hx x (by simp [hm]))⟩
        have := hx a (by simp)
        rw [hp.1] at this; exact this
  refine key _ hc.2.1 ?_
  intro x hx
  have e : head :: ys ++ [head] = (head :: ys) ++ [head] := rfl
  rw [e, List.dropLast_concat] at hx
  exact (hc.1 x hx).1

theorem IsQueue.consistent {h : Heap} {head : Ptr} {ys : List Ptr}
    (hq : IsQueue h head ys) : Consistent h head :=
  ⟨ys, hq, hq.linkConsistent⟩

/-- C14: link consistency is preserved by every public operation.  From a
well-formed queue (which is consistently linked in the sense of the spec),
whatever the allocations return, whether or not a buffer is passed, and for
every buffer size, the memory after `q_insert_head`, `q_insert_tail`,
`q_remove_head`, `q_remove_tail`, `q_delete_mid`, `q_delete_dup`, `q_swap`,
`q_reverse` and `q_sort` holds a well-formed queue at the same sentinel, with
`x.next.prev == x` and `x.prev.next == x` on the cycle and the backward walk
the reverse of the forward walk. -/
theorem link_invariant (h : Heap) (head : Ptr) (xs : List Ptr) (s : List Nat) (e : Ptr)
    (v : Bool) (sp : Option (List Nat)) (bufsize fuel : Nat)
    (hq : IsQueue h head xs) (he : e = 0 ∨ e ∉ h.live) (hf : xs.length < fuel) :
    LinkConsistent h head xs ∧
    Consistent (q_insert_head h head s e v).1 head ∧
    Consistent (q_insert_tail h head s e v).1 head ∧
    Consistent (q_remove_head h head sp bufsize).heap head ∧
    Consistent (q_remove_tail h head sp bufsize).heap head ∧
    (∃ r, q_delete_mid fuel h head = some r ∧ Consistent r.1 head) ∧
    (∃ r, q_delete_dup fuel h head = some r ∧ Consistent r.1 head) ∧
    (∃ h1, q_swap fuel h head = some h1 ∧ Consistent h1 head) ∧
    (∃ h1, q_reverse fuel h head = some h1 ∧ Consistent h1 head) ∧
    (∃ h1, q_sort fuel h head = some h1 ∧ Consistent h1 head) := by
  refine ⟨hq.linkConsistent, ?_, ?_, ?_, ?_, ?_, ?_, ?_, ?_, ?_⟩
  · cases hr : (q_insert_head h head s e v).2 with
    | false => rw [q_insert_head_fail _ _ _ _ _ hr]; exact hq.consistent
    | true =>
      obtain ⟨he0, rfl⟩ := q_insert_head_true hr
      exact (q_insert_head_isQueue s hq he0 (he.resolve_left he0)).consistent
  · cases hr : (q_insert_tail h head s e v).2 with
    | false => rw [q_insert_tail_fail _ _ _ _ _ hr]; exact hq.consistent
    | true =>
      obtain ⟨he0, rfl⟩ := q_insert_tail_true hr
      exact (q_insert_tail_isQueue s hq he0 (he.resolve_left he0)).consistent
  · cases sp with
    | none => rw [(q_remove_head_none _ _ _).2]; exact hq.consistent
    | some buf =>
      cases xs with
      | nil => rw [(q_remove_head_empty _ _ hq).2]; exact hq.consistent
      | cons x l =>
        rw [(q_remove_head_some buf bufsize hq).2]
        have hq2 : IsQueue h head ([] ++ x :: l) := hq
        exact (IsQueue.consistent (by simpa using hq2.del))
  · cases sp with
    | none => rw [(q_remove_tail_none _ _ _).2]; exact hq.consistent
    | some buf =>
      rcases List.eq_nil_or_concat xs with rfl | ⟨l, x, hc⟩
      · rw [(q_remove_tail_empty _ _ hq).2]; exact hq.consistent
      · rw [List.concat_eq_append] at hc
        subst hc
        rw [(q_remove_tail_some buf bufsize hq).2]
        exact (IsQueue.consistent (by simpa using hq.del))
  · by_cases hxs : xs = []
    · exact ⟨(h, false), (q_delete_mid_run hq hf).1 hxs, hq.consistent⟩
    · obtain ⟨h1, m, a1, _, a3, _⟩ := (q_delete_mid_run hq hf).2 hxs
      exact ⟨(h1, true), a1, a3.consistent⟩
  · obtain ⟨h1, a1, a2, _⟩ := q_delete_dup_run hq hf
    exact ⟨(h1, true), a1, a2.consistent⟩
  · obtain ⟨h1, a1, a2, _⟩ := q_swap_run hq hf
    exact ⟨h1, a1, a2.consistent⟩
  · obtain ⟨h1, a1, a2, _⟩ := q_reverse_run hq hf
    exact ⟨h1, a1, a2.consistent⟩
  · obtain ⟨h1, a1, a2, _⟩ := q_sort_run hq hf
    exact ⟨h1, a1, a2.consistent⟩

theorem link_invariant_witness :
    IsQueue heap_cba 1 [4, 2, 3] ∧ LinkConsistent heap_cba 1 [4, 2, 3] ∧
      Consistent (q_insert_head heap_cba 1 [100, 0] 5 true).1 1 ∧
      (∃ h1, q_sort 4 heap_cba 1 = some h1 ∧ Consistent h1 1) := by
  have hw := link_invariant heap_cba 1 [4, 2, 3] [100, 0] 5 true none 0 4 (by decide)
    (Or.inr (by decide)) (by decide)
  exact ⟨by decide, hw.1, hw.2.1, hw.2.2.2.2.2.2.2.2.2⟩

/-! ## The exact effect of deleting duplicates -/

theorem strcmp_eq_zero_iff (a : List Nat) : ∀ b, strcmp a b = 0 ↔ cstr a = cstr b := by
  have hc : ∀ (x : Nat) (l : List Nat), cstr (x :: l) = if x = 0 then [] else x :: cstr l := by
    intro x l
    by_cases hx : x = 0 <;> simp [cstr, strlen, hx]
  have hn : cstr ([] : List Nat) = [] := rfl
  induction a with
  | nil =>
    intro b
    cases b with
    | nil => simp [strcmp]
    | cons y ys =>
      rw [hc, hn]
      by_cases hy : y = 0
      · simp [strcmp, hy]
      · simp [strcmp, hy]
  | cons x xs ih =>
    intro b
    cases b with
    | nil =>
      rw [hc, hn]
      by_cases hx : x = 0
      · simp [strcmp, hx]
      · simp [strcmp, hx]
    | cons y ys =>
      rw [hc, hc]
      simp only [strcmp]
      by_cases hxy : x = y
      · subst hxy
        by_cases hx : x = 0
        · simp [hx]
        · simp [hx, ih ys]
      · by_cases hx : x = 0
        · subst hx
          have hy : ¬ y = 0 := fun e => hxy e.symm
          simp [hxy, hy]
        · by_cases hy : y = 0
          · subst hy
            simp [hx]
          · simp [hxy, hx, hy]
            omega

theorem strcmp_literal_empty (v : List Nat) : strcmp [0] v = 0 ↔ cstr v = [] := by
  rw [strcmp_eq_zero_iff]
  have : cstr [0] = [] := by decide
  rw [this]
  exact eq_comm

theorem dedup_from_some (h : Heap) (l : List Ptr) :
    ∀ r, dedup_from h (some r) l = retain_after h r l := by
  induction l with
  | nil => intro r; rfl
  | cons y l ih =>
    intro r
    simp only [dedup_from, retain_after, prev_bytes, strcmp_eq_zero_iff, ih]
    by_cases hc : cstr (h.value r) = cstr (h.value y)
    · rw [if_pos hc, if_pos hc.symm]
    · rw [if_neg hc, if_neg (fun e => hc e.symm)]

/-- The nodes the traversal of `q_delete_dup` retains are the ones the
contract names. -/
theorem dedup_from_none (h : Heap) (xs : List Ptr) :
    dedup_from h none xs = spec_dedup h xs := by
  induction xs with
  | nil => rfl
  | cons x l ih =>
    by_cases hc : cstr (h.value x) = []
    · have e1 : dedup_from h none (x :: l) = dedup_from h none l := by
        simp [dedup_from, prev_bytes, strcmp_literal_empty, hc]
      have e2 : spec_dedup h (x :: l) = spec_dedup h l := by
        simp [spec_dedup, drop_empty, List.dropWhile, hc]
      rw [e1, e2, ih]
    · have e1 : dedup_from h none (x :: l) = x :: dedup_from h (some x) l := by
        simp [dedup_from, prev_bytes, strcmp_literal_empty, hc]
      have e2 : spec_dedup h (x :: l) = x :: retain_after h x l := by
        simp [spec_dedup, drop_empty, List.dropWhile, hc]
      rw [e1, e2, dedup_from_some]

theorem retain_after_eq_run_heads (h : Heap) (l : List Ptr) :
    ∀ r p, cstr (h.value r) = cstr (h.value p) → retain_after h r l = run_heads h p l := by
  induction l with
  | nil => intro r p _; rfl
  | cons y l ih =>
    intro r p hrp
    simp only [retain_after, run_heads, hrp]
    by_cases hc : cstr (h.value y) = cstr (h.value p)
    · rw [if_pos hc, if_pos hc]
      exact ih r y (by rw [hrp, hc])
    · rw [if_neg hc, if_neg hc, ih y y rfl]

theorem retain_after_chain (h : Heap) (l : List Ptr) :
    ∀ r, List.Chain' (fun a b => cstr (h.value a) ≠ cstr (h.value b))
      (r :: retain_after h r l) := by
  induction l with
  | nil => intro r; exact List.chain'_singleton r
  | cons y l ih =>
    intro r
    simp only [retain_after]
    by_cases hc : cstr (h.value y) = cstr (h.value r)
    · rw [if_pos hc]; exact ih r
    · rw [if_neg hc]
      exact List.Chain'.cons (fun e => hc e.symm) (ih y)

theorem retain_after_fixed (h : Heap) (c : List Ptr) :
    ∀ r, List.Chain' (fun a b => cstr (h.value a) ≠ cstr (h.value b)) (r :: c) →
      retain_after h r c = c := by
  induction c with
  | nil => intro r _; rfl
  | cons y c ih =>
    intro r hch
    rw [List.chain'_cons] at hch
    simp only [retain_after]
    rw [if_neg (fun e => hch.1 e.symm), ih y hch.2]

theorem retain_after_length (h : Heap) (l : List Ptr) :
    ∀ r, (retain_after h r l).length ≤ l.length := by
  induction l with
  | nil => intro r; simp [retain_after]
  | cons y l ih =>
    intro r
    simp only [retain_after]
    split
    · exact le_trans (ih r) (by simp)
    · simp only [List.length_cons]; exact Nat.succ_le_succ (ih y)

theorem spec_dedup_length (h : Heap) (xs : List Ptr) :
    (spec_dedup h xs).length ≤ xs.length := by
  have hd : (drop_empty h xs).length ≤ xs.length :=
    (List.dropWhile_sublist _).length_le
  unfold spec_dedup
  cases hx : drop_empty h xs with
  | nil => simp
  | cons x l =>
    rw [hx] at hd
    simp only [List.length_cons] at hd ⊢
    have := retain_after_length h l x
    omega

theorem drop_empty_cons (h : Heap) (x : Ptr) (l : List Ptr) :
    drop_empty h (x :: l) = if cstr (h.value x) = [] then drop_empty h l else x :: l := by
  by_cases hc : cstr (h.value x) = [] <;> simp [drop_empty, List.dropWhile, hc]

theorem drop_empty_head (h : Heap) (xs : List Ptr) :
    ∀ x l, drop_empty h xs = x :: l → cstr (h.value x) ≠ [] := by
  induction xs with
  | nil => intro x l hx; simp [drop_empty] at hx
  | cons a t ih =>
    intro x l hx
    rw [drop_empty_cons] at hx
    by_cases hc : cstr (h.value a) = []
    · rw [if_pos hc] at hx; exact ih x l hx
    · rw [if_neg hc] at hx
      have : a = x := (List.cons.inj hx).1
      rw [← this]; exact hc

/-- What the contract retains has no two adjacent equal payloads, and the
contract retains all of it again. -/
theorem spec_dedup_fixed (h : Heap) (xs : List Ptr) :
    List.Chain' (fun a b => cstr (h.value a) ≠ cstr (h.value b)) (spec_dedup h xs) ∧
      spec_dedup h (spec_dedup h xs) = spec_dedup h xs := by
  have e : ∀ ys, spec_dedup h ys = match drop_empty h ys with
      | [] => []
      | x :: l => x :: retain_after h x l := fun _ => rfl
  cases hx : drop_empty h xs with
  | nil =>
    have e1 : spec_dedup h xs = [] := by rw [e, hx]
    rw [e1]
    exact ⟨List.chain'_nil, rfl⟩
  | cons x l =>
    have hne := drop_empty_head h xs x l hx
    have e1 : spec_dedup h xs = x :: retain_after h x l := by rw [e, hx]
    have hch := retain_after_chain h l x
    rw [e1]
    refine ⟨hch, ?_⟩
    rw [e, drop_empty_cons, if_neg hne]
    simp only []
    rw [retain_after_fixed h _ x hch]

theorem dups_from_fixed (h : Heap) (c : List Ptr) :
    ∀ r, List.Chain' (fun a b => cstr (h.value a) ≠ cstr (h.value b)) (r :: c) →
      dups_from h (some r) c = [] := by
  induction c with
  | nil => intro r _; rfl
  | cons y c ih =>
    intro r hch
    rw [List.chain'_cons] at hch
    simp only [dups_from, prev_bytes, strcmp_eq_zero_iff]
    rw [if_neg hch.1, ih y hch.2]

/-- The traversal of `q_delete_dup` deletes nothing from what the contract
retains. -/
theorem dups_from_spec_dedup (h : Heap) (xs : List Ptr) :
    dups_from h none (spec_dedup h xs) = [] := by
  have e : ∀ ys, spec_dedup h ys = match drop_empty h ys with
      | [] => []
      | x :: l => x :: retain_after h x l := fun _ => rfl
  cases hx : drop_empty h xs with
  | nil =>
    have e1 : spec_dedup h xs = [] := by rw [e, hx]
    rw [e1]; rfl
  | cons x l =>
    have hne := drop_empty_head h xs x l hx
    have e1 : spec_dedup h xs = x :: retain_after h x l := by rw [e, hx]
    rw [e1]
    simp only [dups_from, prev_bytes, strcmp_literal_empty]
    rw [if_neg hne]
    exact dups_from_fixed h _ x (retain_after_chain h l x)

theorem spec_dedup_congr {h h1 : Heap} (hv : h1.value = h.value) (xs : List Ptr) :
    spec_dedup h1 xs = spec_dedup h xs := by
  rw [← dedup_from_none, ← dedup_from_none, dedup_from_congr hv]

theorem dedup_from_sublist (h : Heap) (l : List Ptr) :
    ∀ pv, List.Sublist (dedup_from h pv l) l := by
  induction l with
  | nil => intro pv; exact List.Sublist.slnil
  | cons x l ih =>
    intro pv
    simp only [dedup_from]
    split
    · exact List.Sublist.cons x (ih pv)
    · exact List.Sublist.cons₂ x (ih (some x))

/-- The nodes the traversal releases are the nodes of the queue it does not
retain. -/
theorem dups_from_eq_filter (h : Heap) (l : List Ptr) :
    ∀ pv, l.Nodup →
      dups_from h pv l = l.filter (fun x => decide (x ∉ dedup_from h pv l)) := by
  induction l with
  | nil => intro pv _; rfl
  | cons x l ih =>
    intro pv hnd
    obtain ⟨hx, hl⟩ := List.nodup_cons.1 hnd
    by_cases hc : strcmp (prev_bytes h pv) (h.value x) = 0
    · have hxn : x ∉ dedup_from h pv l := fun hm => hx ((dedup_from_sublist h l pv).subset hm)
      have e1 : dups_from h pv (x :: l) = x :: dups_from h pv l := by
        simp only [dups_from]; rw [if_pos hc]
      have e2 : dedup_from h pv (x :: l) = dedup_from h pv l := by
        simp only [dedup_from]; rw [if_pos hc]
      rw [e1, e2, List.filter_cons_of_pos (by simpa using hxn), ih pv hl]
    · have e1 : dups_from h pv (x :: l) = dups_from h (some x) l := by
        simp only [dups_from]; rw [if_neg hc]
      have e2 : dedup_from h pv (x :: l) = x :: dedup_from h (some x) l := by
        simp only [dedup_from]; rw [if_neg hc]
      rw [e1, e2, List.filter_cons_of_neg (by simp), ih (some x) hl]
      apply List.filter_congr
      intro y hy
      have hyx : y ≠ x := by rintro rfl; exact hx hy
      simp [hyx]

theorem dups_from_spec_deleted (h : Heap) {xs : List Ptr} (hnd : xs.Nodup) :
    dups_from h none xs = spec_deleted h xs := by
  rw [dups_from_eq_filter h xs none hnd, dedup_from_none]
  rfl

/-- C20: the exact effect of `q_delete_dup` on any well-formed queue, sorted
or not.  It returns true and leaves the elements the contract names: the
leading elements with an empty payload are deleted and, from the first
non-empty payload on, exactly the elements whose payload equals that of the
nearest preceding retained element.  Deleted means unlinked and released: the
allocated blocks afterwards are those before without the deleted elements, so
that (no block being listed twice) an element of the queue is still allocated
exactly when it is retained and every other block keeps its state.  The
result has no two adjacent equal payloads, and a second `q_delete_dup` deletes
and releases nothing.  When the first payload is not empty, the result is the
input with each run of adjacent equal payloads collapsed to its first
element. -/
theorem q_delete_dup_exact (h : Heap) (head : Ptr) (xs : List Ptr) (fuel : Nat)
    (hq : IsQueue h head xs) (hf : xs.length < fuel) :
    ∃ h1, q_delete_dup fuel h head = some (h1, true) ∧
      IsQueue h1 head (spec_dedup h xs) ∧ h1.value = h.value ∧
      h1.live = h.live.diff (spec_deleted h xs) ∧
      (h.live.Nodup → ∀ p, p ∈ h1.live ↔ p ∈ h.live ∧ (p ∈ xs → p ∈ spec_dedup h xs)) ∧
      List.Chain' (fun a b => cstr (h.value a) ≠ cstr (h.value b)) (spec_dedup h xs) ∧
      (∃ h2, q_delete_dup fuel h1 head = some (h2, true) ∧
        IsQueue h2 head (spec_dedup h xs) ∧ h2.value = h1.value ∧ h2.live = h1.live) ∧
      (∀ x l, xs = x :: l → cstr (h.value x) ≠ [] →
        spec_dedup h xs = collapse_runs h xs) := by
  obtain ⟨h1, a1, a2, a3, a4⟩ := q_delete_dup_run hq hf
  rw [dedup_from_none] at a2
  rw [dups_from_spec_deleted h (List.nodup_cons.1 hq.2.1).2] at a4
  obtain ⟨c1, c2⟩ := spec_dedup_fixed h xs
  obtain ⟨h2, b1, b2, b3, b4⟩ := q_delete_dup_run a2
    (lt_of_le_of_lt (spec_dedup_length h xs) hf)
  rw [dedup_from_none, spec_dedup_congr a3, c2] at b2
  rw [dups_from_congr a3, dups_from_spec_dedup] at b4
  refine ⟨h1, a1, a2, a3, a4, ?_, c1, ⟨h2, b1, b2, b3, by simpa using b4⟩, ?_⟩
  · intro hln p
    rw [a4, hln.mem_diff_iff]
    simp [spec_deleted]
  rintro x l rfl hne
  have e : spec_dedup h (x :: l) = x :: retain_after h x l := by
    show (match drop_empty h (x :: l) with
      | [] => []
      | y :: t => y :: retain_after h y t) = x :: retain_after h x l
    rw [drop_empty_cons, if_neg hne]
  rw [e]
  show x :: retain_after h x l = x :: run_heads h x l
  rw [retain_after_eq_run_heads h l x x rfl]

theorem q_delete_dup_exact_witness :
    IsQueue heap_dups 1 [2, 3, 4, 5] ∧ payloads heap_dups [2, 3, 4, 5] = [[], [97], [97], [98]] ∧
      heap_dups.live = [5, 4, 3, 2, 1] ∧
      ∃ h1, q_delete_dup 5 heap_dups 1 = some (h1, true) ∧ IsQueue h1 1 [3, 5] ∧
        h1.value = heap_dups.value ∧ h1.live = [5, 3, 1] := by
  obtain ⟨h1, a, b, c, d, _⟩ := q_delete_dup_exact heap_dups 1 [2, 3, 4, 5] 5 (by decide) (by decide)
  have e : spec_dedup heap_dups [2, 3, 4, 5] = [3, 5] := by decide
  have e2 : heap_dups.live.diff (spec_deleted heap_dups [2, 3, 4, 5]) = [5, 3, 1] := by decide
  rw [e] at b
  rw [e2] at d
  exact ⟨by decide, by decide, by decide, h1, a, b, c, d⟩

end LabQueue
